import Mathlib

/-!
# Verification of the pcc big-integer runtime

Shallow embedding of the arbitrary-precision integer engine found in
`src/runtime/runtime.c` and `src/runtime/rt_bigint.c`, together with proofs
about its arithmetic.  A big integer (`rt_int`) is a sign together with a
little-endian sequence of base `10^9` limbs; the C `len` field is the length
of the `digits` list and the C digit buffer beyond `len` is not part of the
value.  Machine arithmetic in the C code (`uint32_t`/`uint64_t`/`int64_t`)
never overflows on the paths modelled here (each spot is justified by a
comment), so limbs are modelled as `Nat` and signs as `Int`.
-/

/-- `RT_INT_BASE`: the limb base `10^9` (`rt_config.h` / `runtime.h`). -/
def B : Nat := 1000000000

theorem B_pos : 0 < B := by decide

theorem B_gt_one : 1 < B := by decide

/-- The big-integer value type: `sign` together with little-endian limbs.
Mirrors `struct rt_int { int sign; size_t len; uint32_t* digits; }`;
`digits` here is the first `len` limbs of the C buffer. -/
structure rt_int where
  sign : Int
  digits : List Nat
deriving Repr, DecidableEq

/-- Value of a little-endian limb list: `l[0] + B*l[1] + B^2*l[2] + ...`. -/
def limbVal : List Nat → Nat
  | [] => 0
  | d :: ds => d + B * limbVal ds

/-- Magnitude of an `rt_int`. -/
def absVal (x : rt_int) : Nat := limbVal x.digits

/-- Signed mathematical value of an `rt_int`. -/
def val (x : rt_int) : Int := x.sign * (absVal x : Int)

/-- All limbs below the base (the `uint32_t` digits hold values in `[0, B)`). -/
def Bounded (l : List Nat) : Prop := ∀ d ∈ l, d < B

instance : DecidablePred Bounded := fun l =>
  inferInstanceAs (Decidable (∀ d ∈ l, d < B))

/-- No most-significant zero limb (the canonical empty list for zero). -/
def Trimmed (l : List Nat) : Prop := l.getLast? ≠ some 0

instance : DecidablePred Trimmed := fun l =>
  inferInstanceAs (Decidable (l.getLast? ≠ some 0))

/-- Normalization invariant of the engine (spec §3): no trailing zero limb,
`sign = 0` iff the limb sequence is empty, otherwise `sign = ±1`. -/
def Normalized (x : rt_int) : Prop :=
  Trimmed x.digits ∧ (x.sign = 0 ↔ x.digits = []) ∧
    (x.sign = 0 ∨ x.sign = 1 ∨ x.sign = -1)

instance (x : rt_int) : Decidable (Normalized x) :=
  inferInstanceAs (Decidable (_ ∧ _ ∧ _))

/-- Full representation invariant: normalized and limb-bounded. -/
def Wf (x : rt_int) : Prop := Normalized x ∧ Bounded x.digits

instance (x : rt_int) : Decidable (Wf x) := inferInstanceAs (Decidable (_ ∧ _))

/-! ## Basic facts about `limbVal` -/

theorem limbVal_nil : limbVal [] = 0 := rfl

theorem limbVal_cons (d : Nat) (ds : List Nat) :
    limbVal (d :: ds) = d + B * limbVal ds := rfl

theorem limbVal_append (l₁ l₂ : List Nat) :
    limbVal (l₁ ++ l₂) = limbVal l₁ + B ^ l₁.length * limbVal l₂ := by
  induction l₁ with
  | nil => simp [limbVal]
  | cons d ds ih =>
    simp only [List.cons_append, limbVal_cons, ih, List.length_cons]
    ring

theorem limbVal_lt_of_bounded {l : List Nat} (h : Bounded l) :
    limbVal l < B ^ l.length := by
  induction l with
  | nil => simp [limbVal]
  | cons d ds ih =>
    have hd : d < B := h d (List.mem_cons_self d ds)
    have hds : Bounded ds := fun x hx => h x (List.mem_cons_of_mem d hx)
    have h1 := ih hds
    have : d + B * limbVal ds < B ^ (ds.length + 1) :=
      calc d + B * limbVal ds < B + B * limbVal ds :=
            Nat.add_lt_add_right hd _
        _ = B * (limbVal ds + 1) := by ring
        _ ≤ B * B ^ ds.length := Nat.mul_le_mul_left B (Nat.succ_le_of_lt h1)
        _ = B ^ (ds.length + 1) := by rw [Nat.pow_succ]; ring
    simpa [limbVal_cons, List.length_cons] using this

theorem limbVal_eq_zero_iff {l : List Nat} :
    limbVal l = 0 ↔ ∀ d ∈ l, d = 0 := by
  induction l with
  | nil => simp [limbVal]
  | cons d ds ih =>
    simp only [limbVal_cons, List.mem_cons]
    constructor
    · intro h
      have hd : d = 0 := by omega
      have hds : B * limbVal ds = 0 := by omega
      have : limbVal ds = 0 := by
        rcases Nat.mul_eq_zero.mp hds with h' | h'
        · exact absurd h' (by decide)
        · exact h'
      intro x hx
      rcases hx with rfl | hx
      · exact hd
      · exact ih.mp this x hx
    · intro h
      have hd : d = 0 := h d (Or.inl rfl)
      have : limbVal ds = 0 := ih.mpr fun x hx => h x (Or.inr hx)
      simp [hd, this]

theorem trimmed_pos {l : List Nat} (ht : Trimmed l) (hne : l ≠ []) :
    0 < limbVal l := by
  rcases Nat.eq_zero_or_pos (limbVal l) with h | h
  · exfalso
    have hall := limbVal_eq_zero_iff.mp h
    have hlast : l.getLast? = some (l.getLast hne) := List.getLast?_eq_getLast l hne
    have : l.getLast hne = 0 := hall _ (List.getLast_mem hne)
    exact ht (by rw [hlast, this])
  · exact h

theorem pow_le_limbVal {l : List Nat} (ht : Trimmed l) (hne : l ≠ []) :
    B ^ (l.length - 1) ≤ limbVal l := by
  induction l with
  | nil => exact absurd rfl hne
  | cons d ds ih =>
    cases ds with
    | nil =>
      have : d ≠ 0 := by
        intro h; exact ht (by simp [List.getLast?, h])
      simp only [List.length_cons, List.length_nil, limbVal_cons, limbVal_nil]
      have : 1 ≤ d := Nat.one_le_iff_ne_zero.mpr this
      simpa using this
    | cons e es =>
      have ht' : Trimmed (e :: es) := by
        intro h
        exact ht (by rwa [List.getLast?_cons_cons])
      have hih := ih ht' (by simp)
      simp only [List.length_cons, Nat.add_sub_cancel] at hih ⊢
      calc B ^ (es.length + 1) = B * B ^ es.length := by
            rw [pow_succ]; ring
        _ ≤ B * limbVal (e :: es) := Nat.mul_le_mul_left B hih
        _ ≤ d + B * limbVal (e :: es) := Nat.le_add_left _ _
        _ = limbVal (d :: e :: es) := rfl

/-- Trimmed, bounded limb lists are determined by their value. -/
theorem limbVal_injective : ∀ {l₁ l₂ : List Nat}, Trimmed l₁ → Trimmed l₂ →
    Bounded l₁ → Bounded l₂ → limbVal l₁ = limbVal l₂ → l₁ = l₂ := by
  intro l₁
  induction l₁ with
  | nil =>
    intro l₂ _ ht₂ _ _ hv
    cases l₂ with
    | nil => rfl
    | cons e es =>
      exfalso
      have := trimmed_pos ht₂ (l := e :: es) (by simp)
      simp [limbVal_nil] at hv
      omega
  | cons d ds ih =>
    intro l₂ ht₁ ht₂ hb₁ hb₂ hv
    cases l₂ with
    | nil =>
      exfalso
      have := trimmed_pos ht₁ (l := d :: ds) (by simp)
      simp [limbVal_nil] at hv
      omega
    | cons e es =>
      have hd : d < B := hb₁ d (by simp)
      have he : e < B := hb₂ e (by simp)
      simp only [limbVal_cons] at hv
      have hmod : d = e := by
        have h₁ : (d + B * limbVal ds) % B = d % B := by
          simp [Nat.add_mul_mod_self_left]
        have h₂ : (e + B * limbVal es) % B = e % B := by
          simp [Nat.add_mul_mod_self_left]
        have : d % B = e % B := by rw [← h₁, ← h₂, hv]
        rwa [Nat.mod_eq_of_lt hd, Nat.mod_eq_of_lt he] at this
      subst hmod
      have hvs : limbVal ds = limbVal es := by
        have : B * limbVal ds = B * limbVal es := by omega
        exact Nat.eq_of_mul_eq_mul_left B_pos this
      have hds : ds = es := by
        cases ds with
        | nil =>
          cases es with
          | nil => rfl
          | cons f fs =>
            exfalso
            have ht : Trimmed (f :: fs) := by
              intro h; exact ht₂ (by rwa [List.getLast?_cons_cons])
            have := trimmed_pos ht (l := f :: fs) (by simp)
            simp [limbVal_nil] at hvs
            omega
        | cons f fs =>
          cases es with
          | nil =>
            exfalso
            have ht : Trimmed (f :: fs) := by
              intro h; exact ht₁ (by rwa [List.getLast?_cons_cons])
            have := trimmed_pos ht (l := f :: fs) (by simp)
            simp [limbVal_nil] at hvs
            omega
          | cons g gs =>
            exact @ih (g :: gs)
              (by intro h; exact ht₁ (by rwa [List.getLast?_cons_cons]))
              (by intro h; exact ht₂ (by rwa [List.getLast?_cons_cons]))
              (fun x hx => hb₁ x (List.mem_cons_of_mem d hx))
              (fun x hx => hb₂ x (List.mem_cons_of_mem d hx)) hvs
      rw [hds]

theorem absVal_pos_of_sign_ne_zero {x : rt_int} (hx : Wf x)
    (h : x.sign ≠ 0) : 0 < absVal x := by
  obtain ⟨⟨htx, hzx, _⟩, _⟩ := hx
  have hne : x.digits ≠ [] := fun hd => h (hzx.mpr hd)
  exact trimmed_pos htx hne

/-- A well-formed `rt_int` is determined by its mathematical value. -/
theorem val_injective {x y : rt_int} (hx : Wf x) (hy : Wf y)
    (h : val x = val y) : x = y := by
  have hsx := hx.1.2.2
  have hsy := hy.1.2.2
  have hpos : ∀ z : rt_int, Wf z → z.sign ≠ 0 → 0 < absVal z :=
    fun z hz hs => absVal_pos_of_sign_ne_zero hz hs
  have habs : absVal x = absVal y ∧ x.sign = y.sign := by
    rcases hsx with h1 | h1 | h1 <;> rcases hsy with h2 | h2 | h2 <;>
        simp only [val, h1, h2, zero_mul, one_mul, neg_mul, neg_one_mul] at h
    · refine ⟨?_, by rw [h1, h2]⟩
      have hx0 : x.digits = [] := hx.1.2.1.mp h1
      have hy0 : y.digits = [] := hy.1.2.1.mp h2
      simp [absVal, hx0, hy0]
    · exfalso
      have := hpos y hy (by rw [h2]; decide)
      omega
    · exfalso
      have := hpos y hy (by rw [h2]; decide)
      omega
    · exfalso
      have := hpos x hx (by rw [h1]; decide)
      omega
    · refine ⟨by exact_mod_cast h, by rw [h1, h2]⟩
    · exfalso
      have h1' := hpos x hx (by rw [h1]; decide)
      have h2' := hpos y hy (by rw [h2]; decide)
      omega
    · exfalso
      have := hpos x hx (by rw [h1]; decide)
      omega
    · exfalso
      have h1' := hpos x hx (by rw [h1]; decide)
      have h2' := hpos y hy (by rw [h2]; decide)
      omega
    · refine ⟨?_, by rw [h1, h2]⟩
      have := neg_injective h
      exact_mod_cast this
  obtain ⟨hv, hs⟩ := habs
  have hd : x.digits = y.digits :=
    limbVal_injective hx.1.1 hy.1.1 hx.2 hy.2 hv
  cases x; cases y
  simp_all

/-! ## Normalization (`rt_int_normalize` in runtime.c:149-156 / rt_bigint.c:41-48)

The C loop `while (len > 0 && digits[len-1] == 0) len--;` removes
most-significant zero limbs; `trimTop` is that loop as structural recursion
(the most significant limb is the last list element). -/

def trimTop : List Nat → List Nat
  | [] => []
  | d :: ds =>
    match trimTop ds with
    | [] => if d = 0 then [] else [d]
    | e :: es => d :: e :: es

theorem limbVal_trimTop (l : List Nat) : limbVal (trimTop l) = limbVal l := by
  induction l with
  | nil => rfl
  | cons d ds ih =>
    simp only [trimTop]
    cases h : trimTop ds with
    | nil =>
      have : limbVal ds = 0 := by rw [← ih, h, limbVal_nil]
      by_cases hd : d = 0 <;> simp [hd, limbVal_cons, this, limbVal_nil]
    | cons e es =>
      simp only [limbVal_cons, ← h, ih]

theorem trimmed_trimTop (l : List Nat) : Trimmed (trimTop l) := by
  induction l with
  | nil => intro h; simp [trimTop] at h
  | cons d ds ih =>
    simp only [trimTop]
    cases h : trimTop ds with
    | nil =>
      by_cases hd : d = 0
      · simp [hd, Trimmed]
      · simp [hd, Trimmed, List.getLast?, hd]
    | cons e es =>
      rw [h] at ih
      intro hc
      rw [List.getLast?_cons_cons] at hc
      exact ih hc

theorem bounded_trimTop {l : List Nat} (h : Bounded l) : Bounded (trimTop l) := by
  induction l with
  | nil => simpa [trimTop] using h
  | cons d ds ih =>
    have hd : d < B := h d (by simp)
    have hds : Bounded ds := fun x hx => h x (List.mem_cons_of_mem d hx)
    simp only [trimTop]
    cases hcase : trimTop ds with
    | nil =>
      by_cases hd0 : d = 0
      · simp [hd0, Bounded]
      · intro x hx
        simp [hd0] at hx
        simpa [hx] using hd
    | cons e es =>
      intro x hx
      rcases List.mem_cons.mp hx with rfl | hx
      · exact hd
      · rw [← hcase] at hx
        exact ih hds x hx

theorem trimTop_eq_self {l : List Nat} (h : Trimmed l) : trimTop l = l := by
  induction l with
  | nil => rfl
  | cons d ds ih =>
    cases ds with
    | nil =>
      have : d ≠ 0 := fun hd => h (by simp [List.getLast?, hd])
      simp [trimTop, this]
    | cons e es =>
      have h' : Trimmed (e :: es) := by
        intro hc; exact h (by rwa [List.getLast?_cons_cons])
      have heq := ih h'
      show (match trimTop (e :: es) with
        | [] => if d = 0 then [] else [d]
        | f :: fs => d :: f :: fs) = d :: e :: es
      rw [heq]

theorem trimTop_eq_nil_iff {l : List Nat} : trimTop l = [] ↔ limbVal l = 0 := by
  constructor
  · intro h
    rw [← limbVal_trimTop, h, limbVal_nil]
  · intro h
    have := limbVal_trimTop l
    rw [h] at this
    have ht := trimmed_trimTop l
    cases hc : trimTop l with
    | nil => rfl
    | cons e es =>
      exfalso
      rw [hc] at this ht
      have := trimmed_pos ht (by simp)
      omega

/-- `rt_int_normalize` applied to a whole value: trim the limbs, zero the
sign when the limb list becomes empty (runtime.c:149-156). -/
def rt_int_normalizeF (x : rt_int) : rt_int :=
  let d := trimTop x.digits
  ⟨if d = [] then 0 else x.sign, d⟩

/-! ## `rt_int_set_si` (runtime.c:175-195)

The magnitude loop `while (uv > 0) { digits[len++] = uv % BASE; uv /= BASE; }`
is `natToLimbs`.  The C negation `-(v+1)+1` avoids `LLONG_MIN` overflow and
yields exactly the natural-number magnitude `|v|`, so the model takes `v.natAbs`. -/

def natToLimbs (n : Nat) : List Nat :=
  if n = 0 then [] else n % B :: natToLimbs (n / B)
decreasing_by exact Nat.div_lt_self (Nat.pos_of_ne_zero (by assumption)) B_gt_one

theorem limbVal_natToLimbs (n : Nat) : limbVal (natToLimbs n) = n := by
  induction n using Nat.strong_induction_on with
  | _ n ih =>
    rw [natToLimbs]
    by_cases h : n = 0
    · simp [h, limbVal_nil]
    · have hdiv : n / B < n := Nat.div_lt_self (Nat.pos_of_ne_zero h) B_gt_one
      simp only [h, if_false, limbVal_cons, ih _ hdiv]
      exact (Nat.mod_add_div n B)

theorem trimmed_natToLimbs (n : Nat) : Trimmed (natToLimbs n) := by
  induction n using Nat.strong_induction_on with
  | _ n ih =>
    rw [natToLimbs]
    by_cases h : n = 0
    · simp [h, Trimmed]
    · have hdiv : n / B < n := Nat.div_lt_self (Nat.pos_of_ne_zero h) B_gt_one
      simp only [h, if_false]
      cases hc : natToLimbs (n / B) with
      | nil =>
        have hv := limbVal_natToLimbs (n / B)
        rw [hc, limbVal_nil] at hv
        have hdm := Nat.div_add_mod n B
        intro hcon
        simp [List.getLast?] at hcon
        rw [← hv] at hdm
        simp at hdm
        omega
      | cons e es =>
        have hih := ih _ hdiv
        rw [hc] at hih
        intro hcon
        rw [List.getLast?_cons_cons] at hcon
        exact hih hcon

theorem bounded_natToLimbs (n : Nat) : Bounded (natToLimbs n) := by
  induction n using Nat.strong_induction_on with
  | _ n ih =>
    rw [natToLimbs]
    by_cases h : n = 0
    · simp [h, Bounded]
    · have hdiv : n / B < n := Nat.div_lt_self (Nat.pos_of_ne_zero h) B_gt_one
      simp only [h, if_false]
      intro x hx
      rcases List.mem_cons.mp hx with rfl | hx
      · exact Nat.mod_lt n B_pos
      · exact ih _ hdiv x hx

/-- `rt_int_set_si` (runtime.c:175-195). -/
def rt_int_set_si (v : Int) : rt_int :=
  if v = 0 then ⟨0, []⟩
  else ⟨if v < 0 then -1 else 1, natToLimbs v.natAbs⟩

theorem val_set_si (v : Int) : val (rt_int_set_si v) = v := by
  unfold rt_int_set_si
  by_cases h : v = 0
  · simp [h, val, absVal, limbVal_nil]
  · by_cases hneg : v < 0
    · simp only [h, if_false, if_pos hneg, val, absVal, limbVal_natToLimbs]
      omega
    · simp only [h, if_false, if_neg hneg, val, absVal, limbVal_natToLimbs]
      omega

theorem wf_set_si (v : Int) : Wf (rt_int_set_si v) := by
  unfold rt_int_set_si
  by_cases h : v = 0
  · simp [h, Wf, Normalized, Trimmed, Bounded]
  · simp only [h, if_false]
    have hne : natToLimbs v.natAbs ≠ [] := by
      intro hc
      have hv := limbVal_natToLimbs v.natAbs
      rw [hc, limbVal_nil] at hv
      have : v.natAbs ≠ 0 := Int.natAbs_ne_zero.mpr h
      omega
    refine ⟨⟨trimmed_natToLimbs _, ?_, ?_⟩, bounded_natToLimbs _⟩
    · constructor
      · intro hc
        by_cases hneg : v < 0 <;> simp [hneg] at hc
      · intro hc
        exact absurd hc hne
    · by_cases hneg : v < 0 <;> simp [hneg]

/-! ## Magnitude comparison (`rt_int_cmp_abs`, runtime.c:283-293)

The C compares limb counts first, then walks the limbs from most to least
significant; walking from the top is recursion over the reversed
(most-significant-first) lists. -/

/-- Value of a most-significant-first digit list. -/
def msVal (l : List Nat) : Nat := limbVal l.reverse

/-- The inner loop of `rt_int_cmp_abs`: lexicographic comparison of two
equal-length most-significant-first limb lists. -/
def cmpDigitsMS : List Nat → List Nat → Int
  | d :: ds, e :: es =>
    if d < e then -1 else if e < d then 1 else cmpDigitsMS ds es
  | _, _ => 0

def rt_int_cmp_abs (a b : rt_int) : Int :=
  if a.digits.length < b.digits.length then -1
  else if b.digits.length < a.digits.length then 1
  else cmpDigitsMS a.digits.reverse b.digits.reverse

/-- Three-way comparison of naturals, the specification of `rt_int_cmp_abs`. -/
def specCmp (x y : Nat) : Int := if x < y then -1 else if y < x then 1 else 0

theorem msVal_nil : msVal [] = 0 := rfl

theorem msVal_cons (d : Nat) (ds : List Nat) :
    msVal (d :: ds) = d * B ^ ds.length + msVal ds := by
  unfold msVal
  rw [List.reverse_cons, limbVal_append]
  simp [limbVal_cons, limbVal_nil, List.length_reverse]
  ring

theorem msVal_lt_of_bounded {l : List Nat} (h : Bounded l) :
    msVal l < B ^ l.length := by
  have hb : Bounded l.reverse := fun d hd => h d (List.mem_reverse.mp hd)
  have := limbVal_lt_of_bounded hb
  simpa [msVal, List.length_reverse] using this

theorem cmpDigitsMS_spec : ∀ ms₁ ms₂ : List Nat, ms₁.length = ms₂.length →
    Bounded ms₁ → Bounded ms₂ →
    cmpDigitsMS ms₁ ms₂ = specCmp (msVal ms₁) (msVal ms₂) := by
  intro ms₁
  induction ms₁ with
  | nil =>
    intro ms₂ hlen _ _
    have : ms₂ = [] := List.eq_nil_of_length_eq_zero hlen.symm
    subst this
    simp [cmpDigitsMS, specCmp, msVal_nil]
  | cons d ds ih =>
    intro ms₂ hlen hb₁ hb₂
    cases ms₂ with
    | nil => simp at hlen
    | cons e es =>
      simp only [List.length_cons, Nat.add_right_cancel_iff] at hlen
      have hd : d < B := hb₁ d (by simp)
      have he : e < B := hb₂ e (by simp)
      have hbds : Bounded ds := fun x hx => hb₁ x (List.mem_cons_of_mem d hx)
      have hbes : Bounded es := fun x hx => hb₂ x (List.mem_cons_of_mem e hx)
      have hms₁ : msVal ds < B ^ ds.length := msVal_lt_of_bounded hbds
      have hms₂ : msVal es < B ^ es.length := msVal_lt_of_bounded hbes
      rw [cmpDigitsMS]
      by_cases h1 : d < e
      · have : msVal (d :: ds) < msVal (e :: es) := by
          rw [msVal_cons, msVal_cons, hlen]
          calc d * B ^ es.length + msVal ds
              < d * B ^ es.length + B ^ es.length := by
                rw [hlen] at hms₁; omega
            _ = (d + 1) * B ^ es.length := by ring
            _ ≤ e * B ^ es.length := Nat.mul_le_mul_right _ (by omega)
            _ ≤ e * B ^ es.length + msVal es := Nat.le_add_right _ _
        simp [h1, specCmp, this]
      · by_cases h2 : e < d
        · have : msVal (e :: es) < msVal (d :: ds) := by
            rw [msVal_cons, msVal_cons, hlen]
            calc e * B ^ es.length + msVal es
                < e * B ^ es.length + B ^ es.length := by omega
              _ = (e + 1) * B ^ es.length := by ring
              _ ≤ d * B ^ es.length := Nat.mul_le_mul_right _ (by omega)
              _ ≤ d * B ^ es.length + msVal ds := Nat.le_add_right _ _
          simp only [h1, if_false, h2, if_true]
          simp [specCmp, this, Nat.lt_asymm this]
        · have hde : d = e := by omega
          subst hde
          simp only [h1, if_false, h2, if_true]
          rw [ih es hlen hbds hbes]
          simp only [specCmp, msVal_cons, hlen]
          by_cases h3 : msVal ds < msVal es
          · simp [h3, Nat.add_lt_add_left h3 _]
          · by_cases h4 : msVal es < msVal ds
            · have hlt : d * B ^ es.length + msVal es < d * B ^ es.length + msVal ds :=
                Nat.add_lt_add_left h4 _
              simp [h3, h4, hlt, Nat.lt_asymm hlt]
            · have : msVal ds = msVal es := by omega
              simp [h3, h4, this]

/-- `rt_int_cmp_abs` computes the three-way comparison of magnitudes. -/
theorem cmp_abs_spec {a b : rt_int} (ha : Wf a) (hb : Wf b) :
    rt_int_cmp_abs a b = specCmp (absVal a) (absVal b) := by
  unfold rt_int_cmp_abs
  have hlt : ∀ x y : rt_int, Wf x → Wf y → x.digits.length < y.digits.length →
      absVal x < absVal y := by
    intro x y hx hy hlen
    have hyne : y.digits ≠ [] := by
      intro hc; rw [hc] at hlen; simp at hlen
    calc absVal x < B ^ x.digits.length := limbVal_lt_of_bounded hx.2
      _ ≤ B ^ (y.digits.length - 1) := Nat.pow_le_pow_right B_pos (by omega)
      _ ≤ absVal y := pow_le_limbVal hy.1.1 hyne
  by_cases h1 : a.digits.length < b.digits.length
  · have := hlt a b ha hb h1
    simp [h1, specCmp, this]
  · by_cases h2 : b.digits.length < a.digits.length
    · have := hlt b a hb ha h2
      simp [h1, h2, specCmp, this, Nat.lt_asymm this]
    · have hlen : a.digits.length = b.digits.length := by omega
      simp only [h1, if_false, h2]
      have hb₁ : Bounded a.digits.reverse :=
        fun d hd => ha.2 d (List.mem_reverse.mp hd)
      have hb₂ : Bounded b.digits.reverse :=
        fun d hd => hb.2 d (List.mem_reverse.mp hd)
      rw [cmpDigitsMS_spec _ _ (by simp [hlen]) hb₁ hb₂]
      simp [msVal, List.reverse_reverse, absVal]

/-! ## The shared limb-wise loop of `rt_int_add_abs` / `rt_int_sub_abs`

Both magnitude loops in runtime.c walk an index `i` upward, read
`a->digits[i]` / `b->digits[i]` (reads guarded by `i < len`, modelled by
`List.getD _ _ 0`), combine them with a running carry/borrow, and write
`out->digits[i]`.  `plainLoop f` is that loop shape; `f` is the body. -/

def plainLoop (f : Nat → Nat → Nat → Nat × Nat) (xs ys : List Nat) :
    Nat → Nat → Nat → List Nat × Nat
  | _, 0, c => ([], c)
  | i, fuel + 1, c =>
    let p := f (xs.getD i 0) (ys.getD i 0) c
    let r := plainLoop f xs ys (i + 1) fuel p.2
    (p.1 :: r.1, r.2)

/-- Loop body of `rt_int_add_abs` (runtime.c:308-314):
`cur = av + bv + carry; out[i] = cur % BASE; carry = cur / BASE`. -/
def stepAdd (av bv c : Nat) : Nat × Nat := ((av + bv + c) % B, (av + bv + c) / B)

/-- Loop body of `rt_int_sub_abs` (runtime.c:326-337): signed
`cur = av - bv - borrow`, add back `BASE` on underflow.  The `int64_t`
arithmetic is exact (all quantities are below `2^31 + 1`), so the Nat
branches model it faithfully. -/
def stepSub (av bv brw : Nat) : Nat × Nat :=
  if av < bv + brw then (av + B - (bv + brw), 1) else (av - (bv + brw), 0)

theorem limbVal_drop_take_succ (xs : List Nat) (i fuel : Nat) :
    limbVal ((xs.drop i).take (fuel + 1)) =
      xs.getD i 0 + B * limbVal ((xs.drop (i + 1)).take fuel) := by
  induction xs generalizing i with
  | nil => simp [limbVal_nil]
  | cons d t ih =>
    cases i with
    | zero => simp [limbVal_cons]
    | succ j => simpa using ih j

theorem getD_lt_of_bounded {l : List Nat} (h : Bounded l) (i : Nat) :
    l.getD i 0 < B := by
  rcases Nat.lt_or_ge i l.length with hi | hi
  · rw [List.getD_eq_getElem _ _ hi]
    exact h _ (l.getElem_mem hi)
  · rw [List.getD_eq_default _ _ hi]
    exact B_pos

theorem plainLoop_add_spec (xs ys : List Nat) (hxs : Bounded xs)
    (hys : Bounded ys) :
    ∀ fuel i c, c ≤ 1 →
      limbVal (plainLoop stepAdd xs ys i fuel c).1 +
          (plainLoop stepAdd xs ys i fuel c).2 * B ^ fuel =
        limbVal ((xs.drop i).take fuel) + limbVal ((ys.drop i).take fuel) + c ∧
      (plainLoop stepAdd xs ys i fuel c).2 ≤ 1 ∧
      Bounded (plainLoop stepAdd xs ys i fuel c).1 ∧
      (plainLoop stepAdd xs ys i fuel c).1.length = fuel := by
  intro fuel
  induction fuel with
  | zero =>
    intro i c hc
    refine ⟨by simp [plainLoop, limbVal_nil], hc, by simp [plainLoop, Bounded], by simp [plainLoop]⟩
  | succ fuel ih =>
    intro i c hc
    have hav : xs.getD i 0 < B := getD_lt_of_bounded hxs i
    have hbv : ys.getD i 0 < B := getD_lt_of_bounded hys i
    have hc' : (xs.getD i 0 + ys.getD i 0 + c) / B ≤ 1 := by
      have h2 : xs.getD i 0 + ys.getD i 0 + c < 2 * B := by omega
      have := (Nat.div_lt_iff_lt_mul B_pos).mpr (by omega : xs.getD i 0 + ys.getD i 0 + c < 2 * B)
      omega
    obtain ⟨ihv, ihc, ihb, ihl⟩ := ih (i + 1) ((xs.getD i 0 + ys.getD i 0 + c) / B) hc'
    have heq : plainLoop stepAdd xs ys i (fuel + 1) c =
        ((xs.getD i 0 + ys.getD i 0 + c) % B ::
            (plainLoop stepAdd xs ys (i + 1) fuel ((xs.getD i 0 + ys.getD i 0 + c) / B)).1,
          (plainLoop stepAdd xs ys (i + 1) fuel ((xs.getD i 0 + ys.getD i 0 + c) / B)).2) := rfl
    rw [heq]
    refine ⟨?_, ihc, ?_, by simp only [List.length_cons, ihl]⟩
    · rw [limbVal_cons, limbVal_drop_take_succ xs, limbVal_drop_take_succ ys]
      have hmod := Nat.mod_add_div (xs.getD i 0 + ys.getD i 0 + c) B
      have hpow : B ^ (fuel + 1) = B * B ^ fuel := by rw [Nat.pow_succ]; ring
      rw [hpow]
      nlinarith [ihv, hmod]
    · intro x hx
      rcases List.mem_cons.mp hx with rfl | hx
      · exact Nat.mod_lt _ B_pos
      · exact ihb x hx

theorem plainLoop_sub_spec (xs ys : List Nat) (hxs : Bounded xs)
    (hys : Bounded ys) :
    ∀ fuel i brw, brw ≤ 1 →
      (limbVal (plainLoop stepSub xs ys i fuel brw).1 : Int) +
          (limbVal ((ys.drop i).take fuel) : Int) + brw =
        (limbVal ((xs.drop i).take fuel) : Int) +
          (plainLoop stepSub xs ys i fuel brw).2 * (B : Int) ^ fuel ∧
      (plainLoop stepSub xs ys i fuel brw).2 ≤ 1 ∧
      Bounded (plainLoop stepSub xs ys i fuel brw).1 ∧
      (plainLoop stepSub xs ys i fuel brw).1.length = fuel := by
  intro fuel
  induction fuel with
  | zero =>
    intro i brw hb
    refine ⟨by simp [plainLoop, limbVal_nil], hb, by simp [plainLoop, Bounded], by simp [plainLoop]⟩
  | succ fuel ih =>
    intro i brw hb
    have hav : xs.getD i 0 < B := getD_lt_of_bounded hxs i
    have hbv : ys.getD i 0 < B := getD_lt_of_bounded hys i
    have heq0 : plainLoop stepSub xs ys i (fuel + 1) brw =
        ((stepSub (xs.getD i 0) (ys.getD i 0) brw).1 ::
            (plainLoop stepSub xs ys (i + 1) fuel
              (stepSub (xs.getD i 0) (ys.getD i 0) brw).2).1,
          (plainLoop stepSub xs ys (i + 1) fuel
            (stepSub (xs.getD i 0) (ys.getD i 0) brw).2).2) := rfl
    by_cases hlt : xs.getD i 0 < ys.getD i 0 + brw
    · have hstep : stepSub (xs.getD i 0) (ys.getD i 0) brw =
          (xs.getD i 0 + B - (ys.getD i 0 + brw), 1) := by
        have hlt2 : xs[i]?.getD 0 < ys[i]?.getD 0 + brw := by simpa using hlt
        simp [stepSub, hlt2]
      rw [heq0, hstep]
      obtain ⟨ihv, ihc, ihb2, ihl⟩ := ih (i + 1) 1 (le_refl 1)
      refine ⟨?_, ihc, ?_, by simp only [List.length_cons, ihl]⟩
      · rw [limbVal_cons, limbVal_drop_take_succ xs, limbVal_drop_take_succ ys]
        have hdig : ((xs.getD i 0 + B - (ys.getD i 0 + brw) : Nat) : Int) =
            (xs.getD i 0 : Int) + B - ys.getD i 0 - brw := by omega
        have hpow : ((B : Int)) ^ (fuel + 1) = B * B ^ fuel := by
          rw [pow_succ]; ring
        rw [hpow]
        push_cast
        push_cast at hdig
        rw [hdig]
        linear_combination (B : Int) * ihv
      · intro x hx
        rcases List.mem_cons.mp hx with rfl | hx
        · omega
        · exact ihb2 x hx
    · have hstep : stepSub (xs.getD i 0) (ys.getD i 0) brw =
          (xs.getD i 0 - (ys.getD i 0 + brw), 0) := by
        have hlt2 : ¬ xs[i]?.getD 0 < ys[i]?.getD 0 + brw := by simpa using hlt
        simp [stepSub, hlt2]
      rw [heq0, hstep]
      obtain ⟨ihv, ihc, ihb2, ihl⟩ := ih (i + 1) 0 (by omega)
      refine ⟨?_, ihc, ?_, by simp only [List.length_cons, ihl]⟩
      · rw [limbVal_cons, limbVal_drop_take_succ xs, limbVal_drop_take_succ ys]
        have hdig : ((xs.getD i 0 - (ys.getD i 0 + brw) : Nat) : Int) =
            (xs.getD i 0 : Int) - ys.getD i 0 - brw := by omega
        have hpow : ((B : Int)) ^ (fuel + 1) = B * B ^ fuel := by
          rw [pow_succ]; ring
        rw [hpow]
        push_cast
        push_cast at hdig
        rw [hdig]
        linear_combination (B : Int) * ihv
      · intro x hx
        rcases List.mem_cons.mp hx with rfl | hx
        · omega
        · exact ihb2 x hx

/-! ## `rt_int_copy`, `rt_int_add_abs`, `rt_int_sub_abs`, `rt_int_add`, `rt_int_sub`
(runtime.c:163-173, 304-320, 323-340, 342-365, 367-372) -/

/-- `rt_int_copy` (runtime.c:163-173): an empty source produces the canonical
zero (`rt_int_set_zero`), otherwise digits, length and sign are copied. -/
def rt_int_copy (src : rt_int) : rt_int :=
  if src.digits = [] then ⟨0, []⟩ else src

/-- Digit computation of `rt_int_add_abs` (runtime.c:304-320): loop over
`n = max(len a, len b)` limbs, append the final carry if non-zero, then
normalize. -/
def addAbsDigits (as bs : List Nat) : List Nat :=
  let r := plainLoop stepAdd as bs 0 (max as.length bs.length) 0
  trimTop (r.1 ++ if r.2 = 0 then [] else [r.2])

/-- Digit computation of `rt_int_sub_abs` (runtime.c:323-340): loop over
`len a` limbs (callers guarantee `|a| ≥ |b|`), then normalize.  The final
borrow is dropped by the C code; it is provably zero under the caller's
precondition. -/
def subAbsDigits (as bs : List Nat) : List Nat :=
  trimTop (plainLoop stepSub as bs 0 as.length 0).1

theorem addAbsDigits_spec {as bs : List Nat} (has : Bounded as)
    (hbs : Bounded bs) :
    limbVal (addAbsDigits as bs) = limbVal as + limbVal bs ∧
      Trimmed (addAbsDigits as bs) ∧ Bounded (addAbsDigits as bs) := by
  obtain ⟨hv, hc, hb, hl⟩ :=
    plainLoop_add_spec as bs has hbs (max as.length bs.length) 0 0 (by omega)
  have htake : ∀ l : List Nat, l.length ≤ max as.length bs.length →
      (l.drop 0).take (max as.length bs.length) = l := by
    intro l h
    simp [List.take_of_length_le h]
  unfold addAbsDigits
  rw [htake as (le_max_left _ _), htake bs (le_max_right _ _)] at hv
  refine ⟨?_, trimmed_trimTop _, bounded_trimTop ?_⟩
  · rw [limbVal_trimTop, limbVal_append, hl]
    by_cases h2 : (plainLoop stepAdd as bs 0 (max as.length bs.length) 0).2 = 0
    · rw [h2] at hv
      simp only [h2, if_true, limbVal_nil]
      omega
    · have h1 : (plainLoop stepAdd as bs 0 (max as.length bs.length) 0).2 = 1 := by
        omega
      rw [h1] at hv
      simp only [h1, if_neg (by decide : ¬(1 = 0)), limbVal_cons, limbVal_nil]
      have hBn : 0 < B ^ (max as.length bs.length) := Nat.pos_pow_of_pos _ B_pos
      omega
  · intro x hx
    rcases List.mem_append.mp hx with hx | hx
    · exact hb x hx
    · by_cases h2 : (plainLoop stepAdd as bs 0 (max as.length bs.length) 0).2 = 0
      · simp [h2] at hx
      · simp only [h2, if_false, List.mem_singleton] at hx
        subst hx
        have := B_gt_one
        omega

theorem subAbsDigits_spec {as bs : List Nat} (has : Bounded as)
    (hbs : Bounded bs) (hlen : bs.length ≤ as.length)
    (hle : limbVal bs ≤ limbVal as) :
    limbVal (subAbsDigits as bs) = limbVal as - limbVal bs ∧
      Trimmed (subAbsDigits as bs) ∧ Bounded (subAbsDigits as bs) := by
  obtain ⟨hv, hc, hb, hl⟩ :=
    plainLoop_sub_spec as bs has hbs as.length 0 0 (by omega)
  have htas : (as.drop 0).take as.length = as := by
    simp [List.take_of_length_le (le_refl as.length)]
  have htbs : (bs.drop 0).take as.length = bs := by
    simp [List.take_of_length_le hlen]
  rw [htas, htbs] at hv
  -- the final borrow is zero: otherwise the digit value would reach B^len
  have hr2 : (plainLoop stepSub as bs 0 as.length 0).2 = 0 := by
    by_contra hne
    have h1 : (plainLoop stepSub as bs 0 as.length 0).2 = 1 := by omega
    rw [h1] at hv
    have hlt := limbVal_lt_of_bounded hb
    rw [hl] at hlt
    have hBpow : (0 : Int) < (B : Int) ^ as.length :=
      pow_pos (by exact_mod_cast B_pos) _
    have : (limbVal (plainLoop stepSub as bs 0 as.length 0).1 : Int) =
        (limbVal as : Int) - limbVal bs - 0 + B ^ as.length := by
      push_cast at hv ⊢
      linarith
    have hge : ((B : Int) ^ as.length) ≤
        (limbVal (plainLoop stepSub as bs 0 as.length 0).1 : Int) := by
      have hcast : ((limbVal bs : Int)) ≤ (limbVal as : Int) := by
        exact_mod_cast hle
      linarith
    have : ((limbVal (plainLoop stepSub as bs 0 as.length 0).1 : Int)) <
        (B : Int) ^ as.length := by
      exact_mod_cast hlt
    linarith
  rw [hr2] at hv
  unfold subAbsDigits
  refine ⟨?_, trimmed_trimTop _, bounded_trimTop hb⟩
  rw [limbVal_trimTop]
  have : (limbVal (plainLoop stepSub as bs 0 as.length 0).1 : Int) =
      (limbVal as : Int) - limbVal bs := by
    push_cast at hv ⊢
    linarith
  omega

/-- `rt_int_add` (runtime.c:342-365). -/
def rt_int_add (a b : rt_int) : rt_int :=
  if a.sign = 0 then rt_int_copy b
  else if b.sign = 0 then rt_int_copy a
  else if a.sign = b.sign then ⟨a.sign, addAbsDigits a.digits b.digits⟩
  else
    let c := rt_int_cmp_abs a b
    if c = 0 then ⟨0, []⟩
    else if 0 < c then ⟨a.sign, subAbsDigits a.digits b.digits⟩
    else ⟨b.sign, subAbsDigits b.digits a.digits⟩

/-- `rt_int_sub` (runtime.c:367-372): negate `b`'s sign field in a local
struct copy and add. -/
def rt_int_sub (a b : rt_int) : rt_int :=
  if b.sign = 0 then rt_int_copy a
  else rt_int_add a ⟨-b.sign, b.digits⟩

theorem copy_eq_self {x : rt_int} (hx : Wf x) : rt_int_copy x = x := by
  unfold rt_int_copy
  by_cases h : x.digits = []
  · have hs : x.sign = 0 := hx.1.2.1.mpr h
    simp only [h, if_true]
    cases x
    simp_all
  · simp [h]

theorem length_le_of_limbVal_le {l₁ l₂ : List Nat} (ht₁ : Trimmed l₁)
    (hb₂ : Bounded l₂) (h : limbVal l₁ ≤ limbVal l₂) :
    l₁.length ≤ l₂.length := by
  by_contra hgt
  push_neg at hgt
  have hne : l₁ ≠ [] := by
    intro hc; rw [hc] at hgt; simp at hgt
  have h1 : B ^ (l₁.length - 1) ≤ limbVal l₁ := pow_le_limbVal ht₁ hne
  have h2 : limbVal l₂ < B ^ l₂.length := limbVal_lt_of_bounded hb₂
  have h3 : B ^ l₂.length ≤ B ^ (l₁.length - 1) :=
    Nat.pow_le_pow_right B_pos (by omega)
  omega

theorem sign_cases {x : rt_int} (hx : Wf x) (h : x.sign ≠ 0) :
    x.sign = 1 ∨ x.sign = -1 := by
  rcases hx.1.2.2 with h0 | h1 | h1
  · exact absurd h0 h
  · exact Or.inl h1
  · exact Or.inr h1

theorem val_eq_zero_of_sign {x : rt_int} (h : x.sign = 0) : val x = 0 := by
  simp [val, h]

theorem wf_neg_mk {b : rt_int} (hb : Wf b) (hs : b.sign ≠ 0) :
    Wf ⟨-b.sign, b.digits⟩ := by
  obtain ⟨⟨ht, hz, hsg⟩, hbd⟩ := hb
  refine ⟨⟨ht, ?_, ?_⟩, hbd⟩
  · constructor
    · intro hc
      have hc2 : -b.sign = 0 := hc
      exact absurd (by omega : b.sign = 0) hs
    · intro hc
      exact absurd (hz.mpr hc) hs
  · rcases hsg with h | h | h <;> simp [h]

theorem val_neg_mk (b : rt_int) : val ⟨-b.sign, b.digits⟩ = -val b := by
  simp only [val, absVal]
  ring

theorem add_spec {a b : rt_int} (ha : Wf a) (hb : Wf b) :
    val (rt_int_add a b) = val a + val b ∧ Wf (rt_int_add a b) := by
  unfold rt_int_add
  by_cases hsa : a.sign = 0
  · rw [if_pos hsa, copy_eq_self hb, val_eq_zero_of_sign hsa]
    exact ⟨by ring, hb⟩
  · rw [if_neg hsa]
    by_cases hsb : b.sign = 0
    · rw [if_pos hsb, copy_eq_self ha, val_eq_zero_of_sign hsb]
      exact ⟨by ring, ha⟩
    · rw [if_neg hsb]
      have hA : 0 < absVal a := absVal_pos_of_sign_ne_zero ha hsa
      have hB : 0 < absVal b := absVal_pos_of_sign_ne_zero hb hsb
      by_cases hss : a.sign = b.sign
      · rw [if_pos hss]
        obtain ⟨hv, ht, hbnd⟩ := addAbsDigits_spec ha.2 hb.2
        constructor
        · show a.sign * ((limbVal (addAbsDigits a.digits b.digits) : Nat) : Int) =
            val a + val b
          rw [hv]
          simp only [val, absVal]
          push_cast
          rw [← hss]
          ring
        · refine ⟨⟨ht, ?_, ha.1.2.2⟩, hbnd⟩
          constructor
          · intro hc; exact absurd hc hsa
          · intro hc
            have hc2 : addAbsDigits a.digits b.digits = [] := hc
            have h0 : limbVal (addAbsDigits a.digits b.digits) = 0 := by
              rw [hc2]; rfl
            rw [hv] at h0
            unfold absVal at hA hB
            omega
      · rw [if_neg hss]
        have hbneg : b.sign = -a.sign := by
          rcases sign_cases ha hsa with h1 | h1 <;>
            rcases sign_cases hb hsb with h2 | h2 <;> omega
        have hcmp := cmp_abs_spec ha hb
        rcases lt_trichotomy (absVal a) (absVal b) with hlt | heq | hgt
        · -- |a| < |b|
          have hc : rt_int_cmp_abs a b = -1 := by
            rw [hcmp]; simp [specCmp, hlt]
          simp only [hc]
          rw [if_neg (by decide), if_neg (by decide)]
          have hlen := length_le_of_limbVal_le ha.1.1 hb.2 (le_of_lt hlt)
          obtain ⟨hv, ht, hbnd⟩ :=
            subAbsDigits_spec hb.2 ha.2 hlen (le_of_lt hlt)
          constructor
          · show b.sign * ((limbVal (subAbsDigits b.digits a.digits) : Nat) : Int) =
              val a + val b
            rw [hv]
            simp only [val, absVal] at *
            rw [hbneg]
            push_cast [Nat.cast_sub (le_of_lt hlt)]
            ring
          · refine ⟨⟨ht, ?_, hb.1.2.2⟩, hbnd⟩
            constructor
            · intro hc2; exact absurd hc2 hsb
            · intro hc2
              have hc3 : subAbsDigits b.digits a.digits = [] := hc2
              have h0 : limbVal (subAbsDigits b.digits a.digits) = 0 := by
                rw [hc3]; rfl
              rw [hv] at h0
              unfold absVal at hlt
              omega
        · -- |a| = |b|
          have hc : rt_int_cmp_abs a b = 0 := by
            rw [hcmp]; simp [specCmp, heq]
          simp only [hc, if_pos rfl]
          constructor
          · simp only [val, absVal] at *
            rw [hbneg, heq]
            push_cast
            ring
          · exact ⟨⟨by intro hc2; simp at hc2, by simp, Or.inl rfl⟩,
              by intro x hx; simp at hx⟩
        · -- |a| > |b|
          have hc : rt_int_cmp_abs a b = 1 := by
            rw [hcmp]; simp [specCmp, hgt, Nat.lt_asymm hgt]
          simp only [hc]
          rw [if_neg (by decide), if_pos (by decide)]
          have hlen := length_le_of_limbVal_le hb.1.1 ha.2 (le_of_lt hgt)
          obtain ⟨hv, ht, hbnd⟩ :=
            subAbsDigits_spec ha.2 hb.2 hlen (le_of_lt hgt)
          constructor
          · show a.sign * ((limbVal (subAbsDigits a.digits b.digits) : Nat) : Int) =
              val a + val b
            rw [hv]
            simp only [val, absVal] at *
            rw [hbneg]
            push_cast [Nat.cast_sub (le_of_lt hgt)]
            ring
          · refine ⟨⟨ht, ?_, ha.1.2.2⟩, hbnd⟩
            constructor
            · intro hc2; exact absurd hc2 hsa
            · intro hc2
              have hc3 : subAbsDigits a.digits b.digits = [] := hc2
              have h0 : limbVal (subAbsDigits a.digits b.digits) = 0 := by
                rw [hc3]; rfl
              rw [hv] at h0
              unfold absVal at hgt
              omega

theorem sub_spec {a b : rt_int} (ha : Wf a) (hb : Wf b) :
    val (rt_int_sub a b) = val a - val b ∧ Wf (rt_int_sub a b) := by
  unfold rt_int_sub
  by_cases hsb : b.sign = 0
  · rw [if_pos hsb, copy_eq_self ha, val_eq_zero_of_sign hsb]
    exact ⟨by ring, ha⟩
  · rw [if_neg hsb]
    obtain ⟨hv, hw⟩ := add_spec ha (wf_neg_mk hb hsb)
    rw [hv, val_neg_mk]
    exact ⟨by ring, hw⟩

/-! ## `rt_int_mul` (runtime.c:374-405)

Schoolbook multiplication writes into an output digit buffer at positions
`i + j`; the buffer is a `List Nat`, writes are `List.set`, guarded reads are
`List.getD`.  `mulInner` is the inner `j` loop plus the trailing carry
propagation (`while (carry) ...`, runtime.c:394-400); `mulOuter` is the outer
`i` loop. -/

def mulPropagate (out : List Nat) (pos c : Nat) : List Nat :=
  if c = 0 then out
  else
    let cur := out.getD pos 0 + c
    mulPropagate (out.set pos (cur % B)) (pos + 1) (cur / B)
termination_by (out.length - pos, c)
decreasing_by
  rcases Nat.lt_or_ge pos out.length with h | h
  · apply Prod.Lex.left
    simpa [List.length_set] using Nat.sub_lt_sub_left h (Nat.lt_succ_self pos)
  · have heq : (out.set pos ((out.getD pos 0 + c) % B)).length - (pos + 1) =
        out.length - pos := by
      simp [List.length_set]
      omega
    rw [heq]
    apply Prod.Lex.right
    rw [List.getD_eq_default _ _ h]
    have hc : c ≠ 0 := by assumption
    simpa using Nat.div_lt_self (Nat.pos_of_ne_zero hc) B_gt_one

def mulInner (ai : Nat) : List Nat → List Nat → Nat → Nat → List Nat
  | [], out, pos, c => mulPropagate out pos c
  | bj :: rest, out, pos, c =>
    let cur := out.getD pos 0 + ai * bj + c
    mulInner ai rest (out.set pos (cur % B)) (pos + 1) (cur / B)

def mulOuter (bs : List Nat) : List Nat → List Nat → Nat → List Nat
  | [], out, _ => out
  | ai :: rest, out, i => mulOuter bs rest (mulInner ai bs out i 0) (i + 1)

/-- `rt_int_mul` (runtime.c:374-405): zero operands short-circuit to the
canonical zero; otherwise the buffer starts as `n + m` zero limbs
(`memset`, runtime.c:383), is filled by the loops, is normalized, and the
sign becomes the product of the input signs. -/
def rt_int_mul (a b : rt_int) : rt_int :=
  if a.sign = 0 ∨ b.sign = 0 ∨ a.digits = [] ∨ b.digits = [] then ⟨0, []⟩
  else
    let d := mulOuter b.digits a.digits
      (List.replicate (a.digits.length + b.digits.length) 0) 0
    ⟨a.sign * b.sign, trimTop d⟩

theorem limbVal_set {l : List Nat} {pos : Nat} (h : pos < l.length) (d : Nat) :
    limbVal (l.set pos d) + l.getD pos 0 * B ^ pos = limbVal l + d * B ^ pos := by
  induction l generalizing pos with
  | nil => simp at h
  | cons x t ih =>
    cases pos with
    | zero =>
      simp only [List.set_cons_zero, limbVal_cons, List.getD_cons_zero, pow_zero]
      omega
    | succ p =>
      simp only [List.set_cons_succ, limbVal_cons, List.getD_cons_succ]
      have hp : p < t.length := by simpa using h
      have := ih hp
      have hpow : B ^ (p + 1) = B * B ^ p := by rw [pow_succ]; ring
      rw [hpow]
      nlinarith [this]

theorem bounded_set {l : List Nat} (hb : Bounded l) {d : Nat} (hd : d < B)
    (pos : Nat) : Bounded (l.set pos d) := by
  intro x hx
  rcases List.mem_or_eq_of_mem_set hx with hx | rfl
  · exact hb x hx
  · exact hd

theorem mulPropagate_spec : ∀ out pos c, Bounded out →
    limbVal out + c * B ^ pos < B ^ out.length →
    limbVal (mulPropagate out pos c) = limbVal out + c * B ^ pos ∧
      Bounded (mulPropagate out pos c) ∧
      (mulPropagate out pos c).length = out.length := by
  intro out₀ pos₀ c₀
  induction out₀, pos₀, c₀ using mulPropagate.induct with
  | case1 out pos =>
    intro hb _
    rw [mulPropagate]
    simpa using hb
  | case2 out pos c hc cur ih =>
    intro hb hbound
    have hpos : pos < out.length := by
      by_contra hge
      push_neg at hge
      have h1 : B ^ out.length ≤ B ^ pos := Nat.pow_le_pow_right B_pos hge
      have h2 : B ^ pos ≤ c * B ^ pos := Nat.le_mul_of_pos_left _ (Nat.pos_of_ne_zero hc)
      omega
    have hset := limbVal_set hpos (cur % B)
    have hdm : cur % B + B * (cur / B) = cur := Nat.mod_add_div cur B
    have hcur : cur = out.getD pos 0 + c := rfl
    have hmono : limbVal (out.set pos (cur % B)) + cur / B * B ^ (pos + 1) =
        limbVal out + c * B ^ pos := by
      apply Nat.add_right_cancel (m := out.getD pos 0 * B ^ pos)
      calc limbVal (out.set pos (cur % B)) + cur / B * B ^ (pos + 1) +
              out.getD pos 0 * B ^ pos
          = (limbVal (out.set pos (cur % B)) + out.getD pos 0 * B ^ pos) +
              cur / B * (B * B ^ pos) := by rw [pow_succ]; ring
        _ = (limbVal out + cur % B * B ^ pos) + cur / B * (B * B ^ pos) := by
              rw [hset]
        _ = limbVal out + (cur % B + B * (cur / B)) * B ^ pos := by ring
        _ = limbVal out + cur * B ^ pos := by rw [hdm]
        _ = limbVal out + (out.getD pos 0 + c) * B ^ pos := by rw [← hcur]
        _ = limbVal out + c * B ^ pos + out.getD pos 0 * B ^ pos := by ring
    have hblen : (out.set pos (cur % B)).length = out.length := by
      simp [List.length_set]
    obtain ⟨ihv, ihb, ihl⟩ := ih (bounded_set hb (Nat.mod_lt _ B_pos) pos)
      (by rw [hblen, hmono]; exact hbound)
    rw [mulPropagate, if_neg hc]
    refine ⟨?_, ihb, by rw [ihl, hblen]⟩
    show limbVal (mulPropagate (out.set pos (cur % B)) (pos + 1) (cur / B)) = _
    rw [ihv, hmono]

theorem mulInner_spec (ai : Nat) : ∀ (bs out : List Nat) (pos c : Nat),
    Bounded out → pos + bs.length ≤ out.length →
    limbVal out + (ai * limbVal bs + c) * B ^ pos < B ^ out.length →
    limbVal (mulInner ai bs out pos c) =
        limbVal out + (ai * limbVal bs + c) * B ^ pos ∧
      Bounded (mulInner ai bs out pos c) ∧
      (mulInner ai bs out pos c).length = out.length := by
  intro bs
  induction bs with
  | nil =>
    intro out pos c hb hlen hbound
    show limbVal (mulPropagate out pos c) = _ ∧ _ ∧ _
    have h0 : ai * limbVal [] + c = c := by simp [limbVal_nil]
    rw [h0] at hbound ⊢
    exact mulPropagate_spec out pos c hb hbound
  | cons bj rest ih =>
    intro out pos c hb hlen hbound
    have hpos : pos < out.length := by
      simp only [List.length_cons] at hlen
      omega
    have heq : mulInner ai (bj :: rest) out pos c =
        mulInner ai rest (out.set pos ((out.getD pos 0 + ai * bj + c) % B))
          (pos + 1) ((out.getD pos 0 + ai * bj + c) / B) := rfl
    set cur := out.getD pos 0 + ai * bj + c with hcur
    have hset := limbVal_set hpos (cur % B)
    have hdm : cur % B + B * (cur / B) = cur := Nat.mod_add_div cur B
    have hmono : limbVal (out.set pos (cur % B)) +
        (ai * limbVal rest + cur / B) * B ^ (pos + 1) =
        limbVal out + (ai * limbVal (bj :: rest) + c) * B ^ pos := by
      apply Nat.add_right_cancel (m := out.getD pos 0 * B ^ pos)
      calc limbVal (out.set pos (cur % B)) +
              (ai * limbVal rest + cur / B) * B ^ (pos + 1) +
              out.getD pos 0 * B ^ pos
          = (limbVal (out.set pos (cur % B)) + out.getD pos 0 * B ^ pos) +
              (ai * limbVal rest + cur / B) * (B * B ^ pos) := by
            rw [pow_succ]; ring
        _ = (limbVal out + cur % B * B ^ pos) +
              (ai * limbVal rest + cur / B) * (B * B ^ pos) := by rw [hset]
        _ = limbVal out +
              (cur % B + B * (cur / B) + B * (ai * limbVal rest)) * B ^ pos := by
            ring
        _ = limbVal out + (cur + B * (ai * limbVal rest)) * B ^ pos := by
            rw [hdm]
        _ = limbVal out +
              (out.getD pos 0 + ai * bj + c + B * (ai * limbVal rest)) * B ^ pos := by
            rw [← hcur]
        _ = limbVal out +
              (ai * (bj + B * limbVal rest) + c) * B ^ pos +
              out.getD pos 0 * B ^ pos := by ring
        _ = limbVal out + (ai * limbVal (bj :: rest) + c) * B ^ pos +
              out.getD pos 0 * B ^ pos := by rw [← limbVal_cons]
    have hblen : (out.set pos (cur % B)).length = out.length := by
      simp [List.length_set]
    have hlen' : (pos + 1) + rest.length ≤ (out.set pos (cur % B)).length := by
      rw [hblen]
      simp only [List.length_cons] at hlen
      omega
    obtain ⟨ihv, ihb, ihl⟩ := ih (out.set pos (cur % B)) (pos + 1) (cur / B)
      (bounded_set hb (Nat.mod_lt _ B_pos) pos) hlen'
      (by rw [hblen, hmono]; exact hbound)
    rw [heq]
    exact ⟨by rw [ihv, hmono], ihb, by rw [ihl, hblen]⟩

theorem mulOuter_spec (bs : List Nat) : ∀ (as out : List Nat) (i : Nat),
    Bounded out → i + as.length + bs.length ≤ out.length + 1 →
    limbVal out + limbVal as * limbVal bs * B ^ i < B ^ out.length →
    limbVal (mulOuter bs as out i) =
        limbVal out + limbVal as * limbVal bs * B ^ i ∧
      Bounded (mulOuter bs as out i) ∧
      (mulOuter bs as out i).length = out.length := by
  intro as
  induction as with
  | nil =>
    intro out i hb _ _
    show limbVal out = _ ∧ _ ∧ _
    refine ⟨by simp [limbVal_nil], hb, rfl⟩
  | cons ai rest ih =>
    intro out i hb hlen hbound
    have heq : mulOuter bs (ai :: rest) out i =
        mulOuter bs rest (mulInner ai bs out i 0) (i + 1) := rfl
    have hmul_le : ai * limbVal bs + 0 ≤ limbVal (ai :: rest) * limbVal bs := by
      rw [limbVal_cons]
      have : ai ≤ ai + B * limbVal rest := Nat.le_add_right _ _
      calc ai * limbVal bs + 0 = ai * limbVal bs := by ring
        _ ≤ (ai + B * limbVal rest) * limbVal bs :=
          Nat.mul_le_mul_right _ this
    have hinner_bound : limbVal out + (ai * limbVal bs + 0) * B ^ i <
        B ^ out.length := by
      calc limbVal out + (ai * limbVal bs + 0) * B ^ i
          ≤ limbVal out + limbVal (ai :: rest) * limbVal bs * B ^ i :=
            Nat.add_le_add_left (Nat.mul_le_mul_right _ hmul_le) _
        _ < B ^ out.length := hbound
    have hlen1 : i + bs.length ≤ out.length := by
      simp only [List.length_cons] at hlen
      omega
    obtain ⟨hv1, hb1, hl1⟩ := mulInner_spec ai bs out i 0 hb hlen1 hinner_bound
    have hmono : limbVal (mulInner ai bs out i 0) +
        limbVal rest * limbVal bs * B ^ (i + 1) =
        limbVal out + limbVal (ai :: rest) * limbVal bs * B ^ i := by
      rw [hv1, limbVal_cons]
      calc limbVal out + (ai * limbVal bs + 0) * B ^ i +
              limbVal rest * limbVal bs * B ^ (i + 1)
          = limbVal out +
              ((ai + B * limbVal rest) * limbVal bs) * B ^ i := by
            rw [pow_succ]; ring
        _ = limbVal out + (ai + B * limbVal rest) * limbVal bs * B ^ i := by ring
    obtain ⟨ihv, ihb, ihl⟩ := ih (mulInner ai bs out i 0) (i + 1) hb1
      (by rw [hl1]; simp only [List.length_cons] at hlen; omega)
      (by rw [hl1, hmono]; exact hbound)
    rw [heq]
    refine ⟨by rw [ihv, hmono], ihb, by rw [ihl, hl1]⟩

theorem limbVal_replicate_zero (n : Nat) : limbVal (List.replicate n 0) = 0 := by
  induction n with
  | zero => rfl
  | succ k ih => simp [List.replicate_succ, limbVal_cons, ih]

theorem mul_spec {a b : rt_int} (ha : Wf a) (hb : Wf b) :
    val (rt_int_mul a b) = val a * val b ∧ Wf (rt_int_mul a b) := by
  unfold rt_int_mul
  by_cases hz : a.sign = 0 ∨ b.sign = 0 ∨ a.digits = [] ∨ b.digits = []
  · rw [if_pos hz]
    have hval0 : val a * val b = 0 := by
      rcases hz with h | h | h | h
      · rw [val_eq_zero_of_sign h]; ring
      · rw [val_eq_zero_of_sign h]; ring
      · rw [val_eq_zero_of_sign (ha.1.2.1.mpr h)]; ring
      · rw [val_eq_zero_of_sign (hb.1.2.1.mpr h)]; ring
    refine ⟨by rw [hval0]; simp [val, absVal, limbVal_nil], ?_⟩
    exact ⟨⟨by intro hc; simp at hc, by simp, Or.inl rfl⟩, by intro x hx; simp at hx⟩
  · rw [if_neg hz]
    push_neg at hz
    obtain ⟨hsa, hsb, hda, hdb⟩ := hz
    have hA : 0 < absVal a := trimmed_pos ha.1.1 hda
    have hB2 : 0 < absVal b := trimmed_pos hb.1.1 hdb
    have hrep_b : Bounded (List.replicate (a.digits.length + b.digits.length) 0) := by
      intro x hx
      rw [List.eq_of_mem_replicate hx]
      exact B_pos
    have hrep_l : (List.replicate (a.digits.length + b.digits.length) 0).length =
        a.digits.length + b.digits.length := List.length_replicate _ _
    have hbound : limbVal (List.replicate (a.digits.length + b.digits.length) 0) +
        limbVal a.digits * limbVal b.digits * B ^ 0 <
        B ^ (List.replicate (a.digits.length + b.digits.length) 0).length := by
      rw [limbVal_replicate_zero, hrep_l, pow_zero]
      have h1 : limbVal a.digits < B ^ a.digits.length := limbVal_lt_of_bounded ha.2
      have h2 : limbVal b.digits < B ^ b.digits.length := limbVal_lt_of_bounded hb.2
      calc 0 + limbVal a.digits * limbVal b.digits * 1
          = limbVal a.digits * limbVal b.digits := by ring
        _ ≤ (B ^ a.digits.length - 1) * (B ^ b.digits.length - 1) :=
            Nat.mul_le_mul (by omega) (by omega)
        _ < B ^ a.digits.length * B ^ b.digits.length := by
            have hpa : 0 < B ^ a.digits.length := Nat.pos_pow_of_pos _ B_pos
            have hpb : 0 < B ^ b.digits.length := Nat.pos_pow_of_pos _ B_pos
            have key : ∀ x y : Nat, 0 < x → 0 < y → (x - 1) * (y - 1) < x * y := by
              intro x y hx hy
              cases x with
              | zero => omega
              | succ x' =>
                cases y with
                | zero => omega
                | succ y' =>
                  simp only [Nat.succ_sub_one]
                  nlinarith
            exact key _ _ hpa hpb
        _ = B ^ (a.digits.length + b.digits.length) := by rw [pow_add]
    obtain ⟨hv, hbd, hl⟩ := mulOuter_spec b.digits a.digits
      (List.replicate (a.digits.length + b.digits.length) 0) 0 hrep_b
      (by rw [hrep_l]; omega) hbound
    rw [limbVal_replicate_zero, pow_zero] at hv
    have hv' : limbVal (mulOuter b.digits a.digits
        (List.replicate (a.digits.length + b.digits.length) 0) 0) =
        limbVal a.digits * limbVal b.digits := by
      rw [hv]; ring
    constructor
    · show (a.sign * b.sign) * ((limbVal (trimTop _) : Nat) : Int) = val a * val b
      rw [limbVal_trimTop, hv']
      simp only [val, absVal]
      push_cast
      ring
    · refine ⟨⟨trimmed_trimTop _, ?_, ?_⟩, bounded_trimTop hbd⟩
      · constructor
        · intro hc
          rcases sign_cases ha hsa with h1 | h1 <;>
            rcases sign_cases hb hsb with h2 | h2 <;>
              rw [h1, h2] at hc <;> simp at hc
        · intro hc
          have hc2 : trimTop (mulOuter b.digits a.digits
              (List.replicate (a.digits.length + b.digits.length) 0) 0) = [] := hc
          have h0 := trimTop_eq_nil_iff.mp hc2
          rw [hv'] at h0
          unfold absVal at hA hB2
          have := Nat.mul_pos hA hB2
          omega
      · rcases sign_cases ha hsa with h1 | h1 <;>
          rcases sign_cases hb hsb with h2 | h2 <;> rw [h1, h2] <;> simp

/-! ## Scalar helpers (`rt_int_mul_small` runtime.c:201-213,
`rt_int_add_small` runtime.c:215-237, `rt_int_shift_add_limb`
runtime.c:573-588, `rt_int_mul_small_copy` runtime.c:591-600) -/

/-- Digit loop of `rt_int_mul_small`: `cur = digit*m + carry` per limb, final
carry appended.  The `uint64_t` products fit (both factors below `2^32`). -/
def mulSmallGo (m : Nat) : List Nat → Nat → List Nat
  | [], c => if c = 0 then [] else [c]
  | d :: ds, c => (d * m + c) % B :: mulSmallGo m ds ((d * m + c) / B)

/-- `rt_int_mul_small` (runtime.c:201-213): in-place scalar multiply; a zero
or empty value is returned unchanged.  The loop reads `digits[i]` before
writing it, so the pure digit recursion is its exact behaviour. -/
def rt_int_mul_small (x : rt_int) (m : Nat) : rt_int :=
  if x.sign = 0 ∨ x.digits = [] then x
  else ⟨x.sign, mulSmallGo m x.digits 0⟩

/-- Carry loop of `rt_int_add_small`: runs while the carry is non-zero, then
the untouched suffix is kept; a final non-zero carry is appended. -/
def addSmallGo : List Nat → Nat → List Nat
  | [], c => if c = 0 then [] else [c]
  | d :: ds, c =>
    if c = 0 then d :: ds
    else (d + c) % B :: addSmallGo ds ((d + c) / B)

/-- `rt_int_add_small` (runtime.c:215-237): on a zero value, installs the
single limb `a` (producing length 0 for `a = 0`); otherwise adds `a` into
the magnitude with carry propagation. -/
def rt_int_add_small (x : rt_int) (a : Nat) : rt_int :=
  if x.sign = 0 then
    if a = 0 then ⟨0, []⟩ else ⟨1, [a]⟩
  else ⟨x.sign, addSmallGo x.digits a⟩

theorem mulSmallGo_spec (m : Nat) (hm : m < B) : ∀ (ds : List Nat) (c : Nat),
    Bounded ds → c < B →
    limbVal (mulSmallGo m ds c) = m * limbVal ds + c ∧
      Bounded (mulSmallGo m ds c) := by
  intro ds
  induction ds with
  | nil =>
    intro c _ hc
    constructor
    · by_cases h : c = 0 <;> simp [mulSmallGo, h, limbVal_nil, limbVal_cons]
    · by_cases h : c = 0 <;> intro x hx <;> simp [mulSmallGo, h] at hx
      omega
  | cons d ds ih =>
    intro c hb hc
    have hd : d < B := hb d (by simp)
    have hbds : Bounded ds := fun x hx => hb x (List.mem_cons_of_mem d hx)
    have hcarry : (d * m + c) / B < B := by
      have h1 : d * m + c ≤ (B - 1) * (B - 1) + (B - 1) := by
        have := Nat.mul_le_mul (by omega : d ≤ B - 1) (by omega : m ≤ B - 1)
        omega
      have h2 : (B - 1) * (B - 1) + (B - 1) = (B - 1) * B := by
        cases hB : B with
        | zero => exact absurd hB (by decide)
        | succ b' => simp [Nat.succ_sub_one]; ring
      have h3 : d * m + c < B * B := by
        rw [h2] at h1
        have : (B - 1) * B < B * B := by
          have hBp := B_pos
          exact (Nat.mul_lt_mul_right B_pos).mpr (by omega)
        omega
      have := (Nat.div_lt_iff_lt_mul B_pos (x := d * m + c) (y := B)).mpr
        (by rw [Nat.mul_comm] at h3 ⊢; exact h3)
      exact this
    obtain ⟨ihv, ihb⟩ := ih ((d * m + c) / B) hbds hcarry
    constructor
    · show (d * m + c) % B + B * limbVal (mulSmallGo m ds ((d * m + c) / B)) =
        m * limbVal (d :: ds) + c
      rw [ihv, limbVal_cons]
      have hdm := Nat.mod_add_div (d * m + c) B
      calc (d * m + c) % B + B * (m * limbVal ds + (d * m + c) / B)
          = ((d * m + c) % B + B * ((d * m + c) / B)) + B * (m * limbVal ds) := by
            ring
        _ = (d * m + c) + B * (m * limbVal ds) := by rw [hdm]
        _ = m * (d + B * limbVal ds) + c := by ring
    · intro x hx
      rcases List.mem_cons.mp hx with rfl | hx
      · exact Nat.mod_lt _ B_pos
      · exact ihb x hx

theorem addSmallGo_spec : ∀ (ds : List Nat) (c : Nat), Bounded ds → c < B →
    limbVal (addSmallGo ds c) = limbVal ds + c ∧ Bounded (addSmallGo ds c) := by
  intro ds
  induction ds with
  | nil =>
    intro c _ hc
    constructor
    · by_cases h : c = 0 <;> simp [addSmallGo, h, limbVal_nil, limbVal_cons]
    · by_cases h : c = 0 <;> intro x hx <;> simp [addSmallGo, h] at hx
      omega
  | cons d ds ih =>
    intro c hb hc
    have hd : d < B := hb d (by simp)
    have hbds : Bounded ds := fun x hx => hb x (List.mem_cons_of_mem d hx)
    by_cases hc0 : c = 0
    · subst hc0
      constructor
      · simp [addSmallGo]
      · simpa [addSmallGo] using hb
    · have hcarry : (d + c) / B < B := by
        have : d + c < 2 * B := by omega
        have h2 := (Nat.div_lt_iff_lt_mul B_pos (x := d + c) (y := 2)).mpr
          (by omega)
        have := B_gt_one
        omega
      obtain ⟨ihv, ihb⟩ := ih ((d + c) / B) hbds hcarry
      have heq : addSmallGo (d :: ds) c =
          (d + c) % B :: addSmallGo ds ((d + c) / B) := by
        show (if c = 0 then d :: ds else _) = _
        rw [if_neg hc0]
      rw [heq]
      constructor
      · rw [limbVal_cons, ihv, limbVal_cons]
        have hdm := Nat.mod_add_div (d + c) B
        calc (d + c) % B + B * (limbVal ds + (d + c) / B)
            = ((d + c) % B + B * ((d + c) / B)) + B * limbVal ds := by ring
          _ = (d + c) + B * limbVal ds := by rw [hdm]
          _ = d + B * limbVal ds + c := by ring
      · intro x hx
        rcases List.mem_cons.mp hx with rfl | hx
        · exact Nat.mod_lt _ B_pos
        · exact ihb x hx

/-- `rt_int_shift_add_limb` (runtime.c:573-588): `r = r*BASE + limb`.  A zero
`r` stays untouched when the limb is zero, otherwise becomes the single
limb; a non-zero `r` gets the limb prepended (`memmove` shift), its sign
forced positive, and is normalized. -/
def rt_int_shift_add_limb (r : rt_int) (limb : Nat) : rt_int :=
  if r.sign = 0 ∨ r.digits = [] then
    if limb = 0 then r else ⟨1, [limb]⟩
  else ⟨1, trimTop (limb :: r.digits)⟩

/-- `rt_int_mul_small_copy` (runtime.c:591-600): `tmp = b * qdigit` on
magnitudes; the result's sign is forced positive and normalized. -/
def rt_int_mul_small_copy (b : rt_int) (qdigit : Nat) : rt_int :=
  let tmp := rt_int_copy b
  if qdigit = 0 ∨ tmp.sign = 0 ∨ tmp.digits = [] then ⟨0, []⟩
  else
    let t := rt_int_mul_small tmp qdigit
    ⟨1, trimTop t.digits⟩

/-- The shape of the running remainder / temporaries inside the division
loop: a well-formed value that is the canonical zero or positive. -/
def PosRep (r : rt_int) : Prop := Wf r ∧ (r.sign = 0 ∨ r.sign = 1)

theorem posRep_zero : PosRep ⟨0, []⟩ := by
  refine ⟨⟨⟨by simp [Trimmed], by simp, Or.inl rfl⟩, by intro x hx; simp at hx⟩,
    Or.inl rfl⟩

theorem posRep_val {r : rt_int} (hr : PosRep r) : val r = (absVal r : Int) := by
  rcases hr.2 with h | h
  · rw [val_eq_zero_of_sign h]
    have : r.digits = [] := hr.1.1.2.1.mp h
    simp [absVal, this, limbVal_nil]
  · simp [val, h]

theorem shift_add_limb_spec {r : rt_int} (hr : PosRep r) {limb : Nat}
    (hl : limb < B) :
    absVal (rt_int_shift_add_limb r limb) = limb + B * absVal r ∧
      PosRep (rt_int_shift_add_limb r limb) := by
  obtain ⟨⟨⟨ht, hz, _⟩, hbd⟩, hs⟩ := hr
  unfold rt_int_shift_add_limb
  by_cases h0 : r.sign = 0 ∨ r.digits = []
  · have hdig : r.digits = [] := by
      rcases h0 with h | h
      · exact hz.mp h
      · exact h
    rw [if_pos h0]
    by_cases hlimb : limb = 0
    · rw [if_pos hlimb]
      subst hlimb
      refine ⟨?_, ⟨⟨ht, hz, ?_⟩, hbd⟩, hs⟩
      · simp [absVal, hdig, limbVal_nil]
      · rcases hs with h | h
        · exact Or.inl h
        · exact Or.inr (Or.inl h)
    · rw [if_neg hlimb]
      refine ⟨?_, ⟨⟨?_, by simp [hlimb], ?_⟩, ?_⟩, Or.inr rfl⟩
      · simp [absVal, hdig, limbVal_cons, limbVal_nil]
      · intro hc
        simp [List.getLast?] at hc
        exact hlimb hc
      · exact Or.inr (Or.inl rfl)
      · intro x hx
        simp at hx
        subst hx
        exact hl
  · rw [if_neg h0]
    push_neg at h0
    have hdig : r.digits ≠ [] := h0.2
    constructor
    · show limbVal (trimTop (limb :: r.digits)) = _
      rw [limbVal_trimTop, limbVal_cons]
      rfl
    · refine ⟨⟨⟨trimmed_trimTop _, ?_, Or.inr (Or.inl rfl)⟩,
        bounded_trimTop ?_⟩, Or.inr rfl⟩
      · constructor
        · intro hc; simp at hc
        · intro hc
          exfalso
          have hc2 : trimTop (limb :: r.digits) = [] := hc
          have h0v := trimTop_eq_nil_iff.mp hc2
          rw [limbVal_cons] at h0v
          have hBp := B_pos
          have hpos := trimmed_pos ht hdig
          have h2 : B * limbVal r.digits = 0 := by omega
          rcases Nat.mul_eq_zero.mp h2 with h3 | h3
          · exact absurd h3 (by omega : B ≠ 0)
          · omega
      · intro x hx
        rcases List.mem_cons.mp hx with rfl | hx
        · exact hl
        · exact hbd x hx

theorem mul_small_copy_spec {b : rt_int} (hb : Wf b) {q : Nat} (hq : q < B) :
    absVal (rt_int_mul_small_copy b q) = q * absVal b ∧
      PosRep (rt_int_mul_small_copy b q) := by
  unfold rt_int_mul_small_copy
  rw [copy_eq_self hb]
  by_cases h0 : q = 0 ∨ b.sign = 0 ∨ b.digits = []
  · rw [if_pos h0]
    constructor
    · show limbVal [] = q * absVal b
      rcases h0 with h | h | h
      · simp [h, limbVal_nil]
      · have : b.digits = [] := hb.1.2.1.mp h
        simp [absVal, this, limbVal_nil]
      · simp [absVal, h, limbVal_nil]
    · exact posRep_zero
  · rw [if_neg h0]
    push_neg at h0
    obtain ⟨hq0, hs0, hd0⟩ := h0
    have hmul : rt_int_mul_small b q = ⟨b.sign, mulSmallGo q b.digits 0⟩ := by
      unfold rt_int_mul_small
      rw [if_neg (by push_neg; exact ⟨hs0, hd0⟩)]
    obtain ⟨hgv, hgb⟩ := mulSmallGo_spec q hq b.digits 0 hb.2 B_pos
    constructor
    · show limbVal (trimTop (rt_int_mul_small b q).digits) = q * absVal b
      rw [hmul]
      show limbVal (trimTop (mulSmallGo q b.digits 0)) = _
      rw [limbVal_trimTop, hgv]
      unfold absVal
      ring
    · refine ⟨⟨⟨trimmed_trimTop _, ?_, Or.inr (Or.inl rfl)⟩, ?_⟩, Or.inr rfl⟩
      · constructor
        · intro hc; simp at hc
        · intro hc
          have hc2 : trimTop (rt_int_mul_small b q).digits = [] := hc
          rw [hmul] at hc2
          have h0v := trimTop_eq_nil_iff.mp hc2
          rw [hgv] at h0v
          have hpos := trimmed_pos hb.1.1 hd0
          have := Nat.mul_pos (Nat.pos_of_ne_zero hq0) hpos
          omega
      · rw [hmul]
        exact bounded_trimTop hgb

/-- The binary search for a quotient digit (runtime.c:627-642): the largest
`d` with `d * |b| ≤ partial remainder`. -/
def binSearchGo (bAbs r : rt_int) (lo hi best : Nat) : Nat :=
  if lo ≤ hi then
    let mid := lo + (hi - lo) / 2
    if rt_int_cmp_abs (rt_int_mul_small_copy bAbs mid) r ≤ 0 then
      binSearchGo bAbs r (mid + 1) hi mid
    else if mid = 0 then best
    else binSearchGo bAbs r lo (mid - 1) best
  else best
termination_by hi + 1 - lo
decreasing_by
  · have h : lo ≤ hi := by assumption
    have := Nat.div_le_self (hi - lo) 2
    omega
  · have h : lo ≤ hi := by assumption
    have := Nat.div_le_self (hi - lo) 2
    have hm0 : ¬(lo + (hi - lo) / 2 = 0) := by assumption
    omega


theorem specCmp_le_zero_iff {x y : Nat} : specCmp x y ≤ 0 ↔ x ≤ y := by
  unfold specCmp
  by_cases h1 : x < y
  · rw [if_pos h1]
    constructor
    · intro _; omega
    · intro _; decide
  · rw [if_neg h1]
    by_cases h2 : y < x
    · rw [if_pos h2]
      constructor
      · intro hc; exact absurd hc (by decide)
      · intro hc; omega
    · rw [if_neg h2]
      constructor
      · intro _; omega
      · intro _; exact le_refl 0

theorem binSearchGo_eq_rec1 {bAbs r : rt_int} {lo hi best : Nat}
    (hle : lo ≤ hi)
    (hcmp : rt_int_cmp_abs (rt_int_mul_small_copy bAbs (lo + (hi - lo) / 2)) r ≤ 0) :
    binSearchGo bAbs r lo hi best =
      binSearchGo bAbs r (lo + (hi - lo) / 2 + 1) hi (lo + (hi - lo) / 2) := by
  rw [binSearchGo, if_pos hle]
  exact if_pos hcmp

theorem binSearchGo_eq_break {bAbs r : rt_int} {lo hi best : Nat}
    (hle : lo ≤ hi)
    (hcmp : ¬ rt_int_cmp_abs (rt_int_mul_small_copy bAbs (lo + (hi - lo) / 2)) r ≤ 0)
    (hmid : lo + (hi - lo) / 2 = 0) :
    binSearchGo bAbs r lo hi best = best := by
  rw [binSearchGo, if_pos hle]
  show (if rt_int_cmp_abs (rt_int_mul_small_copy bAbs (lo + (hi - lo) / 2)) r ≤ 0
    then _ else _) = best
  rw [if_neg hcmp, if_pos hmid]

theorem binSearchGo_eq_rec2 {bAbs r : rt_int} {lo hi best : Nat}
    (hle : lo ≤ hi)
    (hcmp : ¬ rt_int_cmp_abs (rt_int_mul_small_copy bAbs (lo + (hi - lo) / 2)) r ≤ 0)
    (hmid : ¬ lo + (hi - lo) / 2 = 0) :
    binSearchGo bAbs r lo hi best =
      binSearchGo bAbs r lo (lo + (hi - lo) / 2 - 1) best := by
  rw [binSearchGo, if_pos hle]
  show (if rt_int_cmp_abs (rt_int_mul_small_copy bAbs (lo + (hi - lo) / 2)) r ≤ 0
    then _ else _) = _
  rw [if_neg hcmp, if_neg hmid]

theorem binSearchGo_eq_exit {bAbs r : rt_int} {lo hi best : Nat}
    (hnle : ¬ lo ≤ hi) : binSearchGo bAbs r lo hi best = best := by
  rw [binSearchGo, if_neg hnle]

theorem binSearchGo_spec {bAbs r : rt_int} (hb : Wf bAbs)
    (hbne : bAbs.digits ≠ []) (hr : PosRep r) :
    ∀ lo hi best, hi ≤ B - 1 →
      best * absVal bAbs ≤ absVal r →
      (∀ d, d ≤ B - 1 → d * absVal bAbs ≤ absVal r → d ≤ hi ∨ d ≤ best) →
      lo ≤ best + 1 → (best < lo ∨ best = 0) →
      binSearchGo bAbs r lo hi best * absVal bAbs ≤ absVal r ∧
      (∀ d, d ≤ B - 1 → d * absVal bAbs ≤ absVal r →
        d ≤ binSearchGo bAbs r lo hi best) := by
  have hbv : 0 < absVal bAbs := trimmed_pos hb.1.1 hbne
  intro lo₀ hi₀ best₀
  induction lo₀, hi₀, best₀ using binSearchGo.induct bAbs r with
  | case1 lo hi best hle mid hcmp ih =>
    intro hhi hbest hcand hlo hblo
    have hmid_ge : lo ≤ mid := by
      show lo ≤ lo + (hi - lo) / 2
      omega
    have hmid_le : mid ≤ hi := by
      show lo + (hi - lo) / 2 ≤ hi
      have := Nat.div_le_self (hi - lo) 2
      omega
    have hmidB : mid < B := by
      have := B_gt_one
      omega
    obtain ⟨hmv, hmp⟩ := mul_small_copy_spec hb hmidB
    have hcmp_spec := cmp_abs_spec hmp.1 hr.1
    have hmle : mid * absVal bAbs ≤ absVal r := by
      rw [hcmp_spec, hmv] at hcmp
      exact specCmp_le_zero_iff.mp hcmp
    have hbest_le_mid : best ≤ mid := by
      rcases hblo with h | h
      · omega
      · omega
    rw [binSearchGo_eq_rec1 hle hcmp]
    exact ih hhi hmle
      (fun d hd hdle => by
        rcases hcand d hd hdle with h | h
        · exact Or.inl h
        · exact Or.inr (le_trans h hbest_le_mid))
      (by omega) (by left; omega)
  | case2 lo hi best hle mid hcmp hmid =>
    intro hhi hbest hcand hlo hblo
    exfalso
    have hmidB : mid < B := by
      have h1 : mid ≤ hi := by
        show lo + (hi - lo) / 2 ≤ hi
        have := Nat.div_le_self (hi - lo) 2
        omega
      have := B_gt_one
      omega
    obtain ⟨hmv, hmp⟩ := mul_small_copy_spec hb hmidB
    have hcmp_spec := cmp_abs_spec hmp.1 hr.1
    rw [hcmp_spec, hmv] at hcmp
    apply hcmp
    apply specCmp_le_zero_iff.mpr
    have hm0 : mid = 0 := hmid
    rw [hm0]
    simp
  | case3 lo hi best hle mid hcmp hmid ih =>
    intro hhi hbest hcand hlo hblo
    have hmid_ge : lo ≤ mid := by
      show lo ≤ lo + (hi - lo) / 2
      omega
    have hmid_le : mid ≤ hi := by
      show lo + (hi - lo) / 2 ≤ hi
      have := Nat.div_le_self (hi - lo) 2
      omega
    have hmidB : mid < B := by
      have := B_gt_one
      omega
    obtain ⟨hmv, hmp⟩ := mul_small_copy_spec hb hmidB
    have hcmp_spec := cmp_abs_spec hmp.1 hr.1
    have hmgt : absVal r < mid * absVal bAbs := by
      rw [hcmp_spec, hmv] at hcmp
      by_contra hc
      push_neg at hc
      exact hcmp (specCmp_le_zero_iff.mpr hc)
    rw [binSearchGo_eq_rec2 hle hcmp hmid]
    refine ih (by omega) hbest (fun d hd hdle => ?_) hlo hblo
    rcases hcand d hd hdle with h | h
    · left
      have hdm : d < mid := by
        by_contra hge
        push_neg at hge
        have : mid * absVal bAbs ≤ d * absVal bAbs :=
          Nat.mul_le_mul_right _ hge
        omega
      omega
    · exact Or.inr h
  | case4 lo hi best hnle =>
    intro hhi hbest hcand hlo hblo
    rw [binSearchGo_eq_exit hnle]
    refine ⟨hbest, fun d hd hdle => ?_⟩
    rcases hcand d hd hdle with h | h
    · omega
    · exact h

/-! ## `rt_int_divmod_abs` (runtime.c:605-657)

The main loop walks the dividend's limbs from most to least significant
(the reversed little-endian list), shifts the running remainder, finds the
quotient digit by binary search, and subtracts `digit * |b|`.  Quotient
digits are written from the top position downwards
(`q->digits[i-1] = best`), which accumulating with `best :: qAcc` replays
exactly: the first (most significant) digit ends up last in the
little-endian result.  `rt_int_sub_abs(r, r, &tmp)` reads each limb index
before writing it (see `plainLoop`), so the in-place call computes the same
digits as the pure `subAbsDigits`. -/

def divmodAbsLoop (bAbs : rt_int) : List Nat → List Nat → rt_int → List Nat × rt_int
  | [], qAcc, r => (qAcc, r)
  | limb :: rest, qAcc, r =>
    let r1 := rt_int_shift_add_limb r limb
    let best := binSearchGo bAbs r1 0 (B - 1) 0
    let r2 :=
      if best ≠ 0 then
        let tmp := rt_int_mul_small_copy bAbs best
        let d := subAbsDigits r1.digits tmp.digits
        (⟨if d = [] then 0 else 1, d⟩ : rt_int)
      else r1
    divmodAbsLoop bAbs rest (best :: qAcc) r2

theorem posRep_mk_of_sub {d : List Nat} (ht : Trimmed d) (hb : Bounded d) :
    PosRep ⟨if d = [] then 0 else 1, d⟩ := by
  by_cases h : d = []
  · subst h
    simpa using posRep_zero
  · refine ⟨⟨⟨ht, ?_, ?_⟩, hb⟩, ?_⟩ <;> simp [h]

theorem divmodAbsLoop_spec {bAbs : rt_int} (hb : Wf bAbs)
    (hbne : bAbs.digits ≠ []) :
    ∀ (ms qAcc : List Nat) (r : rt_int), PosRep r → Bounded ms →
      absVal r < absVal bAbs →
      ∃ qNew rF,
        divmodAbsLoop bAbs ms qAcc r = (qNew ++ qAcc, rF) ∧
        qNew.length = ms.length ∧ Bounded qNew ∧ PosRep rF ∧
        absVal rF < absVal bAbs ∧
        absVal r * B ^ ms.length + msVal ms =
          limbVal qNew * absVal bAbs + absVal rF := by
  have hbv : 0 < absVal bAbs := trimmed_pos hb.1.1 hbne
  intro ms
  induction ms with
  | nil =>
    intro qAcc r hr hbm hrlt
    refine ⟨[], r, by simp [divmodAbsLoop], rfl, by intro x hx; simp at hx,
      hr, hrlt, ?_⟩
    simp [msVal_nil, limbVal_nil]
  | cons limb rest ih =>
    intro qAcc r hr hbm hrlt
    have hlimb : limb < B := hbm limb (by simp)
    have hbrest : Bounded rest := fun x hx => hbm x (List.mem_cons_of_mem _ hx)
    obtain ⟨hr1v, hr1p⟩ := shift_add_limb_spec hr hlimb
    set r1 := rt_int_shift_add_limb r limb with hr1_def
    have hv1lt : absVal r1 < B * absVal bAbs := by
      rw [hr1v]
      have h1 : limb ≤ B - 1 := by omega
      have h2 : absVal r ≤ absVal bAbs - 1 := by omega
      calc limb + B * absVal r ≤ (B - 1) + B * (absVal bAbs - 1) := by
            have := Nat.mul_le_mul_left B h2
            omega
        _ < B * absVal bAbs := by
            have hBp := B_pos
            have hx : B * (absVal bAbs - 1) + B = B * absVal bAbs := by
              have : absVal bAbs - 1 + 1 = absVal bAbs := by omega
              calc B * (absVal bAbs - 1) + B = B * ((absVal bAbs - 1) + 1) := by
                    ring
                _ = B * absVal bAbs := by rw [this]
            omega
    obtain ⟨hbl, hbm2⟩ := binSearchGo_spec hb hbne hr1p 0 (B - 1) 0
      (le_refl _) (by simp) (fun d hd _ => Or.inl hd) (by omega) (Or.inr rfl)
    set best := binSearchGo bAbs r1 0 (B - 1) 0 with hbest_def
    -- best is exactly absVal r1 / absVal bAbs
    have hbest_eq : best = absVal r1 / absVal bAbs := by
      have hd0 : absVal r1 / absVal bAbs * absVal bAbs ≤ absVal r1 :=
        Nat.div_mul_le_self _ _
      have hd0B : absVal r1 / absVal bAbs ≤ B - 1 := by
        have : absVal r1 / absVal bAbs < B := by
          rw [Nat.div_lt_iff_lt_mul hbv]
          exact hv1lt
        omega
      have h1 : absVal r1 / absVal bAbs ≤ best := hbm2 _ hd0B hd0
      have h2 : best ≤ absVal r1 / absVal bAbs :=
        (Nat.le_div_iff_mul_le hbv).mpr hbl
      omega
    -- r2 in both branches: magnitude absVal r1 - best * absVal bAbs
    have hrest : ∃ r2 : rt_int,
        (if best ≠ 0 then
          (⟨if subAbsDigits r1.digits (rt_int_mul_small_copy bAbs best).digits = []
              then 0 else 1,
            subAbsDigits r1.digits (rt_int_mul_small_copy bAbs best).digits⟩ : rt_int)
        else r1) = r2 ∧
        absVal r2 = absVal r1 - best * absVal bAbs ∧ PosRep r2 := by
      by_cases hbz : best = 0
      · refine ⟨r1, by simp [hbz], ?_, hr1p⟩
        rw [hbz]
        omega
      · have hbestB : best < B := by
          have := B_gt_one
          rw [hbest_eq]
          have : absVal r1 / absVal bAbs < B := by
            rw [Nat.div_lt_iff_lt_mul hbv]
            exact hv1lt
          omega
        obtain ⟨htv, htp⟩ := mul_small_copy_spec hb hbestB
        set tmp := rt_int_mul_small_copy bAbs best with htmp_def
        have htle : limbVal tmp.digits ≤ limbVal r1.digits := by
          show absVal tmp ≤ absVal r1
          rw [htv]
          exact hbl
        have htlen : tmp.digits.length ≤ r1.digits.length :=
          length_le_of_limbVal_le htp.1.1.1 hr1p.1.2 htle
        obtain ⟨hsv, hst, hsb⟩ :=
          subAbsDigits_spec hr1p.1.2 htp.1.2 htlen htle
        refine ⟨_, by simp [hbz], ?_, posRep_mk_of_sub hst hsb⟩
        show limbVal (subAbsDigits r1.digits tmp.digits) = _
        have htv2 : limbVal tmp.digits = best * absVal bAbs := htv
        rw [hsv, htv2]
        rfl
    obtain ⟨r2, hr2eq, hr2v, hr2p⟩ := hrest
    have hr2lt : absVal r2 < absVal bAbs := by
      rw [hr2v, hbest_eq]
      have := Nat.mod_lt (absVal r1) hbv
      have hmod : absVal r1 - absVal r1 / absVal bAbs * absVal bAbs =
          absVal r1 % absVal bAbs := by
        have hdm := Nat.div_add_mod (absVal r1) (absVal bAbs)
        rw [Nat.mul_comm (absVal bAbs) (absVal r1 / absVal bAbs)] at hdm
        omega
      omega
    obtain ⟨qNew', rF, hloop, hlen, hqb, hrFp, hrFlt, hrel⟩ :=
      ih (best :: qAcc) r2 hr2p hbrest hr2lt
    refine ⟨qNew' ++ [best], rF, ?_, ?_, ?_, hrFp, hrFlt, ?_⟩
    · show divmodAbsLoop bAbs (limb :: rest) qAcc r = _
      have hstep : divmodAbsLoop bAbs (limb :: rest) qAcc r =
          divmodAbsLoop bAbs rest (best :: qAcc) r2 := by
        show divmodAbsLoop bAbs rest (best :: qAcc) _ = _
        rw [hr2eq]
      rw [hstep, hloop]
      simp
    · simp [hlen]
    · intro x hx
      rcases List.mem_append.mp hx with hx | hx
      · exact hqb x hx
      · simp at hx
        subst hx
        rw [hbest_eq]
        have : absVal r1 / absVal bAbs < B := by
          rw [Nat.div_lt_iff_lt_mul hbv]
          exact hv1lt
        exact this
    · -- arithmetic: absVal r * B^(k+1) + msVal (limb :: rest)
      --   = limbVal (qNew' ++ [best]) * |b| + absVal rF
      have hv1 : absVal r1 = best * absVal bAbs + absVal r2 := by
        rw [hr2v]
        omega
      rw [limbVal_append, msVal_cons, hlen]
      simp only [limbVal_cons, limbVal_nil, List.length_cons]
      have hsplit : absVal r * B ^ (rest.length + 1) + (limb * B ^ rest.length + msVal rest) =
          absVal r1 * B ^ rest.length + msVal rest := by
        rw [hr1v]
        rw [pow_succ]
        ring
      rw [hsplit]
      calc absVal r1 * B ^ rest.length + msVal rest
          = (best * absVal bAbs + absVal r2) * B ^ rest.length + msVal rest := by
            rw [← hv1]
        _ = best * absVal bAbs * B ^ rest.length +
              (absVal r2 * B ^ rest.length + msVal rest) := by ring
        _ = best * absVal bAbs * B ^ rest.length +
              (limbVal qNew' * absVal bAbs + absVal rF) := by rw [hrel]
        _ = (limbVal qNew' + B ^ rest.length * (best + B * 0)) * absVal bAbs +
              absVal rF := by ring

/-- `rt_int_abs_copy` (runtime.c:563-566). -/
def rt_int_abs_copy (src : rt_int) : rt_int :=
  let c := rt_int_copy src
  if c.sign = 0 ∨ c.digits = [] then c else ⟨1, c.digits⟩

/-- `rt_int_neg_inplace` (runtime.c:568-570). -/
def rt_int_neg_inplace (x : rt_int) : rt_int :=
  if x.sign = 0 ∨ x.digits = [] then x else ⟨-x.sign, x.digits⟩

/-- `rt_int_divmod_abs` (runtime.c:605-657): early path for
`|a| < |b|` (`q = 0`, `r = |a|`), else the per-limb long-division loop with
initial quotient sign `+1` and both outputs normalized at the end. -/
def rt_int_divmod_abs (aAbs bAbs : rt_int) : rt_int × rt_int :=
  if rt_int_cmp_abs aAbs bAbs < 0 then
    (⟨0, []⟩,
      let rc := rt_int_copy aAbs
      if rc.sign = 0 ∨ rc.digits = [] then rc else ⟨1, rc.digits⟩)
  else
    let p := divmodAbsLoop bAbs aAbs.digits.reverse [] ⟨0, []⟩
    (rt_int_normalizeF ⟨1, p.1⟩, rt_int_normalizeF p.2)

theorem abs_copy_spec {x : rt_int} (hx : Wf x) :
    absVal (rt_int_abs_copy x) = absVal x ∧ PosRep (rt_int_abs_copy x) := by
  unfold rt_int_abs_copy
  rw [copy_eq_self hx]
  by_cases h : x.sign = 0 ∨ x.digits = []
  · have hd : x.digits = [] := by
      rcases h with h | h
      · exact hx.1.2.1.mp h
      · exact h
    have hs : x.sign = 0 := hx.1.2.1.mpr hd
    rw [if_pos h]
    exact ⟨rfl, ⟨hx, Or.inl hs⟩⟩
  · rw [if_neg h]
    push_neg at h
    refine ⟨rfl, ⟨⟨⟨hx.1.1, ?_, Or.inr (Or.inl rfl)⟩, hx.2⟩, Or.inr rfl⟩⟩
    constructor
    · intro hc; simp at hc
    · intro hc; exact absurd hc h.2

theorem divmod_abs_spec {aAbs bAbs : rt_int} (ha : PosRep aAbs)
    (hb : PosRep bAbs) (hbne : bAbs.digits ≠ []) :
    absVal aAbs =
        absVal (rt_int_divmod_abs aAbs bAbs).1 * absVal bAbs +
          absVal (rt_int_divmod_abs aAbs bAbs).2 ∧
      absVal (rt_int_divmod_abs aAbs bAbs).2 < absVal bAbs ∧
      PosRep (rt_int_divmod_abs aAbs bAbs).1 ∧
      PosRep (rt_int_divmod_abs aAbs bAbs).2 := by
  have hbv : 0 < absVal bAbs := trimmed_pos hb.1.1.1 hbne
  unfold rt_int_divmod_abs
  have hcmp := cmp_abs_spec ha.1 hb.1
  by_cases hlt : absVal aAbs < absVal bAbs
  · have hc : rt_int_cmp_abs aAbs bAbs = -1 := by
      rw [hcmp]; simp [specCmp, hlt]
    rw [if_pos (by rw [hc]; decide)]
    rw [copy_eq_self ha.1]
    by_cases h0 : aAbs.sign = 0 ∨ aAbs.digits = []
    · have hd : aAbs.digits = [] := by
        rcases h0 with h | h
        · exact ha.1.1.2.1.mp h
        · exact h
      rw [if_pos h0]
      refine ⟨?_, hlt, posRep_zero, ha⟩
      simp [absVal, limbVal_nil]
    · rw [if_neg h0]
      push_neg at h0
      refine ⟨by simp [absVal, limbVal_nil], hlt, posRep_zero, ?_⟩
      refine ⟨⟨⟨ha.1.1.1, ?_, Or.inr (Or.inl rfl)⟩, ha.1.2⟩, Or.inr rfl⟩
      constructor
      · intro hc2; simp at hc2
      · intro hc2; exact absurd hc2 h0.2
  · have hc : ¬ rt_int_cmp_abs aAbs bAbs < 0 := by
      rw [hcmp]
      unfold specCmp
      rw [if_neg hlt]
      by_cases h2 : absVal bAbs < absVal aAbs <;> simp [h2]
    rw [if_neg hc]
    obtain ⟨qNew, rF, hloop, hlen, hqb, hrFp, hrFlt, hrel⟩ :=
      divmodAbsLoop_spec hb.1 hbne aAbs.digits.reverse [] ⟨0, []⟩ posRep_zero
        (fun d hd => ha.1.2 d (List.mem_reverse.mp hd))
        (by show limbVal [] < _; rw [limbVal_nil]; exact hbv)
    rw [hloop]
    have hmsval : msVal aAbs.digits.reverse = absVal aAbs := by
      unfold msVal
      rw [List.reverse_reverse]
      rfl
    rw [hmsval] at hrel
    have habs0 : absVal (⟨0, []⟩ : rt_int) = 0 := by
      simp [absVal, limbVal_nil]
    rw [habs0] at hrel
    simp only [List.append_nil] at hrel ⊢
    have hrel2 : absVal aAbs = limbVal qNew * absVal bAbs + absVal rF := by
      omega
    constructor
    · show absVal aAbs =
        limbVal (trimTop qNew) * absVal bAbs + absVal (rt_int_normalizeF rF)
      have h1 : limbVal (trimTop qNew) = limbVal qNew := limbVal_trimTop _
      have h2 : absVal (rt_int_normalizeF rF) = absVal rF := by
        show limbVal (trimTop rF.digits) = limbVal rF.digits
        exact limbVal_trimTop _
      rw [h1, h2]
      exact hrel2
    refine ⟨?_, ?_, ?_⟩
    · show limbVal (trimTop rF.digits) < _
      rw [limbVal_trimTop]
      exact hrFlt
    · -- q = normalizeF ⟨1, qNew⟩
      show PosRep ⟨if trimTop qNew = [] then 0 else 1, trimTop qNew⟩
      exact posRep_mk_of_sub (trimmed_trimTop _) (bounded_trimTop hqb)
    · show PosRep ⟨if trimTop rF.digits = [] then 0 else rF.sign, trimTop rF.digits⟩
      have ht := trimTop_eq_self hrFp.1.1.1
      rw [ht]
      by_cases hdd : rF.digits = []
      · rw [if_pos hdd, hdd]
        exact posRep_zero
      · rw [if_neg hdd]
        have hs : rF.sign = 1 := by
          rcases hrFp.2 with h | h
          · exact absurd (hrFp.1.1.2.1.mp h) hdd
          · exact h
        rw [hs]
        rw [← hs]
        exact hrFp

/-! ## Floor division on `Int`

`fdivI`/`fmodI` are the mathematical floor quotient and remainder (quotient
rounded toward negative infinity, remainder zero or with the divisor's
sign), built from Lean's Euclidean `/` and `%`.  They are the specification
the engine's `divmod` is checked against. -/

def fdivI (a b : Int) : Int :=
  if 0 ≤ b ∨ a % b = 0 then a / b else a / b - 1

def fmodI (a b : Int) : Int := a - b * fdivI a b

theorem fdivI_add_fmodI (a b : Int) : b * fdivI a b + fmodI a b = a := by
  unfold fmodI
  ring

theorem fmodI_eq_emod_form (a b : Int) :
    fmodI a b = if 0 ≤ b ∨ a % b = 0 then a % b else a % b + b := by
  unfold fmodI fdivI
  by_cases h : 0 ≤ b ∨ a % b = 0
  · rw [if_pos h, if_pos h, Int.emod_def]
  · rw [if_neg h, if_neg h, Int.emod_def]
    ring

theorem fmodI_range_pos {a b : Int} (hb : 0 < b) :
    0 ≤ fmodI a b ∧ fmodI a b < b := by
  rw [fmodI_eq_emod_form, if_pos (Or.inl (le_of_lt hb))]
  exact ⟨Int.emod_nonneg a (by omega), Int.emod_lt_of_pos a hb⟩

theorem fmodI_range_neg {a b : Int} (hb : b < 0) :
    b < fmodI a b ∧ fmodI a b ≤ 0 := by
  rw [fmodI_eq_emod_form]
  have hb0 : b ≠ 0 := by omega
  have h1 : 0 ≤ a % b := Int.emod_nonneg a hb0
  have h2 : a % b < -b := by
    have := Int.emod_lt_of_pos a (by omega : (0:Int) < -b)
    rwa [Int.emod_neg] at this
  by_cases h : a % b = 0
  · rw [if_pos (Or.inr h), h]
    omega
  · rw [if_neg (by omega : ¬ (0 ≤ b ∨ a % b = 0))]
    omega

/-- Uniqueness of floor quotient/remainder: any decomposition
`a = q*b + r` with `r` in the half-open interval on `b`'s side is the floor
decomposition. -/
theorem fdiv_fmod_unique {a b q r : Int} (hb : b ≠ 0)
    (heq : a = q * b + r)
    (hr : (0 < b → 0 ≤ r ∧ r < b) ∧ (b < 0 → b < r ∧ r ≤ 0)) :
    q = fdivI a b ∧ r = fmodI a b := by
  have hid := fdivI_add_fmodI a b
  have hkey : b * (q - fdivI a b) = fmodI a b - r := by
    have h2 : a = b * fdivI a b + fmodI a b := by linarith [hid]
    have h3 : q * b + r = b * fdivI a b + fmodI a b := by linarith [heq, h2]
    nlinarith [h3]
  have hq : q = fdivI a b := by
    rcases lt_trichotomy b 0 with hneg | hzero | hpos
    · obtain ⟨hr1, hr2⟩ := hr.2 hneg
      obtain ⟨hm1, hm2⟩ := fmodI_range_neg (a := a) hneg
      by_contra hne
      rcases lt_or_gt_of_ne (sub_ne_zero_of_ne hne) with h2 | h2
      · -- q - fdivI < 0, so q - fdivI ≤ -1, so b*(q - fdivI) ≥ -b
        have hle : q - fdivI a b ≤ -1 := by omega
        have hx : b * (-1 : Int) ≤ b * (q - fdivI a b) :=
          mul_le_mul_of_nonpos_left hle (le_of_lt hneg)
        omega
      · have hle : (1 : Int) ≤ q - fdivI a b := by omega
        have hx : b * (q - fdivI a b) ≤ b * 1 :=
          mul_le_mul_of_nonpos_left hle (le_of_lt hneg)
        omega
    · exact absurd hzero hb
    · obtain ⟨hr1, hr2⟩ := hr.1 hpos
      obtain ⟨hm1, hm2⟩ := fmodI_range_pos (a := a) hpos
      by_contra hne
      rcases lt_or_gt_of_ne (sub_ne_zero_of_ne hne) with h2 | h2
      · have hle : q - fdivI a b ≤ -1 := by omega
        have hx : b * (q - fdivI a b) ≤ b * (-1 : Int) :=
          mul_le_mul_of_nonneg_left hle (le_of_lt hpos)
        omega
      · have hle : (1 : Int) ≤ q - fdivI a b := by omega
        have hx : b * 1 ≤ b * (q - fdivI a b) :=
          mul_le_mul_of_nonneg_left hle (le_of_lt hpos)
        omega
  refine ⟨hq, ?_⟩
  rw [hq] at heq
  have := fdivI_add_fmodI a b
  nlinarith [heq, this]

theorem neg_inplace_spec {x : rt_int} (hx : Wf x) :
    val (rt_int_neg_inplace x) = -val x ∧ Wf (rt_int_neg_inplace x) := by
  unfold rt_int_neg_inplace
  by_cases h : x.sign = 0 ∨ x.digits = []
  · have hs : x.sign = 0 := by
      rcases h with h | h
      · exact h
      · exact hx.1.2.1.mpr h
    rw [if_pos h, val_eq_zero_of_sign hs]
    exact ⟨by ring, hx⟩
  · rw [if_neg h]
    push_neg at h
    exact ⟨val_neg_mk x, wf_neg_mk hx h.1⟩

/-- Final remainder sign fix (runtime.c:702-704): `r` takes `b`'s sign
when non-zero and `b` is negative. -/
def rt_int_fixRSign (b r : rt_int) : rt_int :=
  if ¬(r.sign = 0 ∨ r.digits = []) ∧ b.sign < 0 then rt_int_neg_inplace r else r

/-- The sign-correction driver `rt_int_divmod` (runtime.c:659-708), split
into the total core (everything after the divisor-zero check) and an
`Option` wrapper (`rt_raise` on a zero divisor is modelled as `none`). -/
def rt_int_divmodCore (a b : rt_int) : rt_int × rt_int :=
  let p := rt_int_divmod_abs (rt_int_abs_copy a) (rt_int_abs_copy b)
  let q1 := rt_int_copy p.1
  let r1 := rt_int_copy p.2
  let qr :=
    if p.2.sign = 0 ∨ p.2.digits = [] then
      -- remainder zero: negate the quotient when signs differ
      (if a.sign * b.sign < 0 then rt_int_neg_inplace q1 else q1, r1)
    else if a.sign * b.sign < 0 then
      -- q = -(q0 + 1), r = |b| - r0  (runtime.c:685-698)
      (rt_int_neg_inplace (rt_int_add p.1 (rt_int_set_si 1)),
        let d := subAbsDigits (rt_int_abs_copy b).digits p.2.digits
        (⟨if d = [] then 0 else r1.sign, d⟩ : rt_int))
    else (q1, r1)
  (qr.1, rt_int_fixRSign b qr.2)

def rt_int_divmod (a b : rt_int) : Option (rt_int × rt_int) :=
  if b.sign = 0 ∨ b.digits = [] then none
  else some (rt_int_divmodCore a b)

/-- `rt_int_floordiv` (runtime.c:710-717). -/
def rt_int_floordiv (a b : rt_int) : Option rt_int :=
  (rt_int_divmod a b).map Prod.fst

/-- `rt_int_mod` (runtime.c:719-726). -/
def rt_int_mod (a b : rt_int) : Option rt_int :=
  (rt_int_divmod a b).map Prod.snd

/-- Total remainder used inside guarded contexts (the `rt_int_mod` calls in
`rt_int_powmod` run after the modulus was checked non-zero). -/
def rt_int_modCore (a b : rt_int) : rt_int := (rt_int_divmodCore a b).2

theorem val_ne_zero_of_sign {b : rt_int} (hb : Wf b) (hbz : b.sign ≠ 0) :
    val b ≠ 0 := by
  have hpos := absVal_pos_of_sign_ne_zero hb hbz
  rcases sign_cases hb hbz with h | h <;>
    · simp only [val, h]
      intro hc
      omega

theorem sign_mul_neg {x y : Int} (hx : x = 1 ∨ x = -1) (hy : y = 1 ∨ y = -1)
    (h : x * y < 0) : x = -y := by
  rcases hx with h1 | h1 <;> rcases hy with h2 | h2 <;>
    rw [h1, h2] at h ⊢ <;> norm_num at h ⊢

theorem sign_mul_nonneg {x y : Int} (hx : x = 1 ∨ x = -1) (hy : y = 1 ∨ y = -1)
    (h : ¬ x * y < 0) : x = y := by
  rcases hx with h1 | h1 <;> rcases hy with h2 | h2 <;>
    rw [h1, h2] at h ⊢ <;> norm_num at h ⊢

theorem sign_mul_nonneg_or_zero {x y : Int} (hx : x = 0 ∨ x = 1 ∨ x = -1)
    (hy : y = 1 ∨ y = -1) (h : ¬ x * y < 0) : x = y ∨ x = 0 := by
  rcases hx with h1 | h1 | h1
  · exact Or.inr h1
  all_goals (
    left
    rcases hy with h2 | h2 <;> rw [h1, h2] at h ⊢ <;> norm_num at h ⊢)

theorem divmodCore_spec {a b : rt_int} (ha : Wf a) (hb : Wf b)
    (hbz : b.sign ≠ 0) :
    val (rt_int_divmodCore a b).1 = fdivI (val a) (val b) ∧
    val (rt_int_divmodCore a b).2 = fmodI (val a) (val b) ∧
    Wf (rt_int_divmodCore a b).1 ∧ Wf (rt_int_divmodCore a b).2 := by
  have hbd : b.digits ≠ [] := fun h => hbz (hb.1.2.1.mpr h)
  have hBvpos : 0 < absVal b := absVal_pos_of_sign_ne_zero hb hbz
  have hvbne : val b ≠ 0 := val_ne_zero_of_sign hb hbz
  obtain ⟨haav, haap⟩ := abs_copy_spec ha
  obtain ⟨hbbv, hbbp⟩ := abs_copy_spec hb
  have hbbne : (rt_int_abs_copy b).digits ≠ [] := by
    intro h
    have h0 : absVal (rt_int_abs_copy b) = 0 := by
      simp [absVal, h, limbVal_nil]
    rw [hbbv] at h0
    omega
  obtain ⟨hrel, hrlt, hqp, hrp⟩ := divmod_abs_spec haap hbbp hbbne
  rw [haav, hbbv] at hrel
  rw [hbbv] at hrlt
  set p := rt_int_divmod_abs (rt_int_abs_copy a) (rt_int_abs_copy b) with hp_def
  set Q0 := absVal p.1 with hQ0
  set R0 := absVal p.2 with hR0
  have hq0v : val p.1 = (Q0 : Int) := posRep_val hqp
  have hr0v : val p.2 = (R0 : Int) := posRep_val hrp
  have hsb := sign_cases hb hbz
  have hvala : val a = a.sign * (absVal a : Int) := rfl
  have hvalb : val b = b.sign * (absVal b : Int) := rfl
  have hone_w : Wf (rt_int_set_si 1) := wf_set_si 1
  have hone_v : val (rt_int_set_si 1) = 1 := val_set_si 1
  by_cases hz : p.2.sign = 0 ∨ p.2.digits = []
  · -- remainder is zero
    have hR00 : R0 = 0 := by
      rcases hz with h | h
      · rcases hrp.2 with h2 | h2
        · rw [hR0]
          have : p.2.digits = [] := hrp.1.1.2.1.mp h2
          simp [absVal, this, limbVal_nil]
        · rw [h] at h2; exact absurd h2 (by decide)
      · rw [hR0]
        simp [absVal, h, limbVal_nil]
    have hr1v : val p.2 = 0 := by rw [hr0v, hR00]; rfl
    have hfix : rt_int_fixRSign b p.2 = p.2 := by
      unfold rt_int_fixRSign
      rw [if_neg (fun h => h.1 hz)]
    by_cases hss : a.sign * b.sign < 0
    · have hfinal : rt_int_divmodCore a b = (rt_int_neg_inplace p.1, p.2) := by
        simp only [rt_int_divmodCore]
        rw [copy_eq_self hqp.1, copy_eq_self hrp.1, if_pos hz, if_pos hss]
        rw [hfix]
      rw [hfinal]
      obtain ⟨hnv, hnw⟩ := neg_inplace_spec hqp.1
      have hsa : a.sign = -b.sign := by
        apply sign_mul_neg _ hsb hss
        apply sign_cases ha
        intro h
        rw [h] at hss
        simp at hss
      have huniq := fdiv_fmod_unique (a := val a) (b := val b)
        (q := val (rt_int_neg_inplace p.1)) (r := 0) hvbne ?_ ?_
      · exact ⟨huniq.1, hr1v.trans huniq.2, hnw, hrp.1⟩
      · rw [hnv, hq0v, hvala, hvalb, hsa]
        have hc : (absVal a : Int) = Q0 * absVal b + R0 := by exact_mod_cast hrel
        rw [hc, hR00]
        push_cast
        ring
      · constructor
        · intro _; exact ⟨le_refl 0, by omega⟩
        · intro _; exact ⟨by omega, le_refl 0⟩
    · have hfinal : rt_int_divmodCore a b = (p.1, p.2) := by
        simp only [rt_int_divmodCore]
        rw [copy_eq_self hqp.1, copy_eq_self hrp.1, if_pos hz, if_neg hss]
        rw [hfix]
      rw [hfinal]
      have hsame : a.sign = b.sign ∨ a.sign = 0 :=
        sign_mul_nonneg_or_zero ha.1.2.2 hsb hss
      have huniq := fdiv_fmod_unique (a := val a) (b := val b)
        (q := val p.1) (r := 0) hvbne ?_ ?_
      · exact ⟨huniq.1, hr1v.trans huniq.2, hqp.1, hrp.1⟩
      · rcases hsame with hsa | hsa
        · rw [hq0v, hvala, hvalb, hsa]
          have hc : (absVal a : Int) = Q0 * absVal b + R0 := by exact_mod_cast hrel
          rw [hc, hR00]
          push_cast
          ring
        · have hA0 : absVal a = 0 := by
            have : a.digits = [] := ha.1.2.1.mp hsa
            simp [absVal, this, limbVal_nil]
          have hQ00 : Q0 = 0 := by
            rw [hA0, hR00] at hrel
            have h2 := Nat.eq_zero_of_add_eq_zero_right hrel.symm
            rcases Nat.mul_eq_zero.mp h2 with h | h
            · exact h
            · omega
          rw [hq0v, hvala, hsa, hQ00]
          push_cast
          ring
      · constructor
        · intro _; exact ⟨le_refl 0, by omega⟩
        · intro _; exact ⟨by omega, le_refl 0⟩
  · -- remainder non-zero
    have hR0pos : 0 < R0 := by
      push_neg at hz
      rw [hR0]
      exact absVal_pos_of_sign_ne_zero hrp.1 hz.1
    have hr0s : p.2.sign = 1 := by
      rcases hrp.2 with h | h
      · exact absurd h (by push_neg at hz; exact hz.1)
      · exact h
    have hsa : a.sign ≠ 0 := by
      intro h0
      have hA0 : absVal a = 0 := by
        have : a.digits = [] := ha.1.2.1.mp h0
        simp [absVal, this, limbVal_nil]
      rw [hA0] at hrel
      omega
    by_cases hss : a.sign * b.sign < 0
    · -- opposite signs: q = -(q0+1), r = |b| - r0 (then sign of b)
      have hsab : a.sign = -b.sign := sign_mul_neg (sign_cases ha hsa) hsb hss
      have hlenr : p.2.digits.length ≤ (rt_int_abs_copy b).digits.length := by
        apply length_le_of_limbVal_le hrp.1.1.1 hbbp.1.2
        show absVal p.2 ≤ absVal (rt_int_abs_copy b)
        rw [hbbv]
        omega
      have hler : limbVal p.2.digits ≤ limbVal (rt_int_abs_copy b).digits := by
        show absVal p.2 ≤ absVal (rt_int_abs_copy b)
        rw [hbbv]
        omega
      obtain ⟨hdv, hdt, hdb⟩ := subAbsDigits_spec hbbp.1.2 hrp.1.2 hlenr hler
      have hdval : limbVal (subAbsDigits (rt_int_abs_copy b).digits p.2.digits) =
          absVal b - R0 := by
        rw [hdv]
        show absVal (rt_int_abs_copy b) - absVal p.2 = _
        rw [hbbv, hR0]
      have hdne : subAbsDigits (rt_int_abs_copy b).digits p.2.digits ≠ [] := by
        intro hc
        have h0 : limbVal (subAbsDigits (rt_int_abs_copy b).digits p.2.digits) = 0 := by
          rw [hc]; rfl
        rw [hdval] at h0
        omega
      have hrmid : (⟨if subAbsDigits (rt_int_abs_copy b).digits p.2.digits = []
            then 0 else p.2.sign,
            subAbsDigits (rt_int_abs_copy b).digits p.2.digits⟩ : rt_int) =
          ⟨1, subAbsDigits (rt_int_abs_copy b).digits p.2.digits⟩ := by
        rw [if_neg hdne, hr0s]
      have hrmid_w : Wf (⟨1, subAbsDigits (rt_int_abs_copy b).digits p.2.digits⟩ : rt_int) := by
        refine ⟨⟨hdt, ?_, Or.inr (Or.inl rfl)⟩, hdb⟩
        constructor
        · intro hc; simp at hc
        · intro hc; exact absurd hc hdne
      have hrmid_v : val (⟨1, subAbsDigits (rt_int_abs_copy b).digits p.2.digits⟩ : rt_int) =
          ((absVal b - R0 : Nat) : Int) := by
        show (1 : Int) * _ = _
        rw [one_mul]
        exact_mod_cast congrArg (Nat.cast : Nat → Int) hdval
      have hcast : ((absVal b - R0 : Nat) : Int) = (absVal b : Int) - R0 := by
        omega
      obtain ⟨haddv, haddw⟩ := add_spec hqp.1 hone_w
      obtain ⟨hnegv, hnegw⟩ := neg_inplace_spec haddw
      rcases hsb with hb1 | hb1
      · -- b positive: final negation skipped
        have hfix : rt_int_fixRSign b
            ⟨1, subAbsDigits (rt_int_abs_copy b).digits p.2.digits⟩ =
            ⟨1, subAbsDigits (rt_int_abs_copy b).digits p.2.digits⟩ := by
          unfold rt_int_fixRSign
          rw [if_neg (by rw [hb1]; intro hc; exact absurd hc.2 (by decide))]
        have hfinal : rt_int_divmodCore a b =
            (rt_int_neg_inplace (rt_int_add p.1 (rt_int_set_si 1)),
              ⟨1, subAbsDigits (rt_int_abs_copy b).digits p.2.digits⟩) := by
          simp only [rt_int_divmodCore]
          rw [copy_eq_self hqp.1, copy_eq_self hrp.1, if_neg hz, if_pos hss]
          rw [hrmid, hfix]
        rw [hfinal]
        have huniq := fdiv_fmod_unique (a := val a) (b := val b)
          (q := val (rt_int_neg_inplace (rt_int_add p.1 (rt_int_set_si 1))))
          (r := val (⟨1, subAbsDigits (rt_int_abs_copy b).digits p.2.digits⟩ : rt_int))
          hvbne ?_ ?_
        · exact ⟨huniq.1, huniq.2, hnegw, hrmid_w⟩
        · rw [hnegv, haddv, hq0v, hone_v, hrmid_v, hvala, hvalb, hsab, hb1]
          have hc : (absVal a : Int) = Q0 * absVal b + R0 := by exact_mod_cast hrel
          rw [hc, hcast]
          push_cast
          ring
        · constructor
          · intro _
            rw [hrmid_v, hcast, hvalb, hb1]
            push_cast
            constructor <;> omega
          · intro hcon
            rw [hvalb, hb1] at hcon
            push_cast at hcon
            omega
      · -- b negative: final negation applies
        have hfix : rt_int_fixRSign b
            ⟨1, subAbsDigits (rt_int_abs_copy b).digits p.2.digits⟩ =
            rt_int_neg_inplace ⟨1, subAbsDigits (rt_int_abs_copy b).digits p.2.digits⟩ := by
          unfold rt_int_fixRSign
          have hcond : ¬((⟨1, subAbsDigits (rt_int_abs_copy b).digits
              p.2.digits⟩ : rt_int).sign = 0 ∨
              (⟨1, subAbsDigits (rt_int_abs_copy b).digits
                p.2.digits⟩ : rt_int).digits = []) ∧ b.sign < 0 := by
            constructor
            · intro hc
              rcases hc with hc | hc
              · exact one_ne_zero hc
              · exact hdne hc
            · rw [hb1]; decide
          rw [if_pos hcond]
        have hfinal : rt_int_divmodCore a b =
            (rt_int_neg_inplace (rt_int_add p.1 (rt_int_set_si 1)),
              rt_int_neg_inplace
                ⟨1, subAbsDigits (rt_int_abs_copy b).digits p.2.digits⟩) := by
          simp only [rt_int_divmodCore]
          rw [copy_eq_self hqp.1, copy_eq_self hrp.1, if_neg hz, if_pos hss]
          rw [hrmid, hfix]
        rw [hfinal]
        obtain ⟨hnrv, hnrw⟩ := neg_inplace_spec hrmid_w
        have huniq := fdiv_fmod_unique (a := val a) (b := val b)
          (q := val (rt_int_neg_inplace (rt_int_add p.1 (rt_int_set_si 1))))
          (r := val (rt_int_neg_inplace
            (⟨1, subAbsDigits (rt_int_abs_copy b).digits p.2.digits⟩ : rt_int)))
          hvbne ?_ ?_
        · exact ⟨huniq.1, huniq.2, hnegw, hnrw⟩
        · rw [hnrv, hnegv, haddv, hq0v, hone_v, hrmid_v, hvala, hvalb, hsab, hb1]
          have hc : (absVal a : Int) = Q0 * absVal b + R0 := by exact_mod_cast hrel
          rw [hc, hcast]
          push_cast
          ring
        · constructor
          · intro hcon
            rw [hvalb, hb1] at hcon
            push_cast at hcon
            omega
          · intro _
            rw [hnrv, hrmid_v, hcast, hvalb, hb1]
            push_cast
            constructor <;> omega
    · -- same signs (both non-zero): q = q0, r = sign(b) * r0
      have hsab : a.sign = b.sign := sign_mul_nonneg (sign_cases ha hsa) hsb hss
      rcases hsb with hb1 | hb1
      · have hfix : rt_int_fixRSign b p.2 = p.2 := by
          unfold rt_int_fixRSign
          rw [if_neg (by rw [hb1]; intro hc; exact absurd hc.2 (by decide))]
        have hfinal : rt_int_divmodCore a b = (p.1, p.2) := by
          simp only [rt_int_divmodCore]
          rw [copy_eq_self hqp.1, copy_eq_self hrp.1, if_neg hz, if_neg hss]
          rw [hfix]
        rw [hfinal]
        have huniq := fdiv_fmod_unique (a := val a) (b := val b)
          (q := val p.1) (r := val p.2) hvbne ?_ ?_
        · exact ⟨huniq.1, huniq.2, hqp.1, hrp.1⟩
        · rw [hq0v, hr0v, hvala, hvalb, hsab, hb1]
          have hc : (absVal a : Int) = Q0 * absVal b + R0 := by exact_mod_cast hrel
          rw [hc]
          push_cast
          ring
        · constructor
          · intro _
            rw [hr0v, hvalb, hb1]
            push_cast
            constructor <;> omega
          · intro hcon
            rw [hvalb, hb1] at hcon
            push_cast at hcon
            omega
      · have hfix : rt_int_fixRSign b p.2 = rt_int_neg_inplace p.2 := by
          unfold rt_int_fixRSign
          rw [if_pos ⟨by push_neg at hz ⊢; exact hz, by rw [hb1]; decide⟩]
        have hfinal : rt_int_divmodCore a b = (p.1, rt_int_neg_inplace p.2) := by
          simp only [rt_int_divmodCore]
          rw [copy_eq_self hqp.1, copy_eq_self hrp.1, if_neg hz, if_neg hss]
          rw [hfix]
        rw [hfinal]
        obtain ⟨hnrv, hnrw⟩ := neg_inplace_spec hrp.1
        have huniq := fdiv_fmod_unique (a := val a) (b := val b)
          (q := val p.1) (r := val (rt_int_neg_inplace p.2)) hvbne ?_ ?_
        · exact ⟨huniq.1, huniq.2, hqp.1, hnrw⟩
        · rw [hnrv, hq0v, hr0v, hvala, hvalb, hsab, hb1]
          have hc : (absVal a : Int) = Q0 * absVal b + R0 := by exact_mod_cast hrel
          rw [hc]
          push_cast
          ring
        · constructor
          · intro hcon
            rw [hvalb, hb1] at hcon
            push_cast at hcon
            omega
          · intro _
            rw [hnrv, hr0v, hvalb, hb1]
            push_cast
            constructor <;> omega

/-! ## `rt_int_to_si_checked` (runtime.c:520-551)

MS-to-LS accumulation into an `unsigned long long` with pre-checks against
`ULLONG_MAX`; the checks fire before any wraparound can occur, so the `Nat`
model is exact.  `U64MAX = 2^64 - 1`, `I64MAX = LLONG_MAX = 2^63 - 1`. -/

def U64MAX : Nat := 18446744073709551615
def I64MAX : Nat := 9223372036854775807

/-- The accumulation loop over most-significant-first limbs, with the two
overflow guards of runtime.c:528-535. -/
def toSiAcc : List Nat → Nat → Option Nat
  | [], acc => some acc
  | limb :: rest, acc =>
    if acc > U64MAX / B then none
    else if acc * B > U64MAX - limb then none
    else toSiAcc rest (acc * B + limb)

def rt_int_to_si_checked (a : rt_int) : Option Int :=
  if a.sign = 0 ∨ a.digits = [] then some 0
  else
    match toSiAcc a.digits.reverse 0 with
    | none => none
    | some acc =>
      if a.sign > 0 then
        if acc > I64MAX then none else some (acc : Int)
      else
        if acc > I64MAX + 1 then none
        else if acc = I64MAX + 1 then some (-((I64MAX : Int) + 1))
        else some (-(acc : Int))

/-- Over in-range prefixes the guards never fire and the loop computes the
most-significant-first value. -/
theorem toSiAcc_success : ∀ (ms : List Nat) (acc : Nat), Bounded ms →
    acc * B ^ ms.length + msVal ms ≤ I64MAX + 1 →
    toSiAcc ms acc = some (acc * B ^ ms.length + msVal ms) := by
  have eI : I64MAX = 9223372036854775807 := rfl
  have eU : U64MAX = 18446744073709551615 := rfl
  have e1 : (I64MAX + 1) / B = 9223372036 := by decide
  have e2 : U64MAX / B = 18446744073 := by decide
  intro ms
  induction ms with
  | nil =>
    intro acc _ _
    simp [toSiAcc, msVal_nil]
  | cons limb rest ih =>
    intro acc hb hbound
    have hlimb : limb < B := hb limb (by simp)
    have hbrest : Bounded rest := fun x hx => hb x (List.mem_cons_of_mem _ hx)
    have hstep : (acc * B + limb) * B ^ rest.length + msVal rest =
        acc * B ^ (limb :: rest).length + msVal (limb :: rest) := by
      rw [msVal_cons]
      simp only [List.length_cons]
      rw [pow_succ]
      ring
    have hup : (acc * B + limb) * B ^ rest.length + msVal rest ≤ I64MAX + 1 := by
      rw [hstep]
      exact hbound
    have hrest_pos : 1 ≤ B ^ rest.length := Nat.one_le_pow _ _ B_pos
    have hacc_small : acc * B + limb ≤ I64MAX + 1 := by
      have h1 : (acc * B + limb) * 1 ≤ (acc * B + limb) * B ^ rest.length :=
        Nat.mul_le_mul_left _ hrest_pos
      have h2 : 0 ≤ msVal rest := Nat.zero_le _
      omega
    have hg1 : ¬ acc > U64MAX / B := by
      have h3 : acc ≤ (I64MAX + 1) / B :=
        (Nat.le_div_iff_mul_le B_pos).mpr (by omega)
      omega
    have hg2 : ¬ acc * B > U64MAX - limb := by
      omega
    show (if acc > U64MAX / B then none
      else if acc * B > U64MAX - limb then none
      else toSiAcc rest (acc * B + limb)) = _
    rw [if_neg hg1, if_neg hg2, ih (acc * B + limb) hbrest hup, hstep]

/-- `rt_int_to_si_checked` succeeds and is exact on every well-formed value
in `[-(2^63), 2^63 - 1]`. -/
theorem to_si_checked_success {a : rt_int} (ha : Wf a)
    (hlow : -((I64MAX : Int) + 1) ≤ val a) (hhigh : val a ≤ (I64MAX : Int)) :
    rt_int_to_si_checked a = some (val a) := by
  unfold rt_int_to_si_checked
  by_cases h0 : a.sign = 0 ∨ a.digits = []
  · have hs : a.sign = 0 := by
      rcases h0 with h | h
      · exact h
      · exact ha.1.2.1.mpr h
    rw [if_pos h0, val_eq_zero_of_sign hs]
  · rw [if_neg h0]
    push_neg at h0
    have hmags : absVal a ≤ I64MAX + 1 := by
      rcases sign_cases ha h0.1 with h1 | h1
      · have hv : val a = (absVal a : Int) := by simp [val, h1]
        rw [hv] at hhigh
        omega
      · have hv : val a = -(absVal a : Int) := by simp [val, h1]
        rw [hv] at hlow
        omega
    have hbr : Bounded a.digits.reverse :=
      fun x hx => ha.2 x (List.mem_reverse.mp hx)
    have hmv : msVal a.digits.reverse = absVal a := by
      unfold msVal
      rw [List.reverse_reverse]
      rfl
    have hacc := toSiAcc_success a.digits.reverse 0 hbr
      (by rw [hmv]; simpa using hmags)
    rw [hmv] at hacc
    simp only [zero_mul, zero_add] at hacc
    rw [hacc]
    dsimp only
    rcases sign_cases ha h0.1 with h1 | h1
    · have hva : val a = (absVal a : Int) := by simp [val, h1]
      have hpos : a.sign > 0 := by rw [h1]; decide
      rw [if_pos hpos]
      have hle : ¬ absVal a > I64MAX := by
        rw [hva] at hhigh
        have : absVal a ≤ I64MAX := by exact_mod_cast hhigh
        omega
      rw [if_neg hle, hva]
    · have hva : val a = -(absVal a : Int) := by simp [val, h1]
      have hpos : ¬ a.sign > 0 := by rw [h1]; decide
      rw [if_neg hpos]
      have hle : ¬ absVal a > I64MAX + 1 := by omega
      rw [if_neg hle]
      by_cases heq : absVal a = I64MAX + 1
      · rw [if_pos heq, hva, heq]
        push_cast
        ring
      · rw [if_neg heq, hva]

/-! ## `rt_int_pow` (runtime.c:407-451) and `rt_int_powmod` (runtime.c:453-499)

Square-and-multiply over the bits of the native exponent.  The C loop
mutates `result`/`base` through a temporary (`rt_int_mul(&tmp, ..); `
`rt_int_copy(.., &tmp)`), which is the pure update modelled here. -/

def powLoop (result base : rt_int) (e : Nat) : rt_int :=
  if e = 0 then result
  else
    powLoop (if e % 2 = 1 then rt_int_mul result base else result)
      (if e / 2 ≠ 0 then rt_int_mul base base else base) (e / 2)
decreasing_by exact Nat.div_lt_self (Nat.pos_of_ne_zero (by assumption)) (by decide)

def rt_int_pow (a b : rt_int) : Option rt_int :=
  match rt_int_to_si_checked b with
  | none => none
  | some e =>
    if e < 0 then none
    else if e = 0 then some (rt_int_set_si 1)
    else some (rt_int_copy (powLoop (rt_int_set_si 1) (rt_int_copy a) e.toNat))

def powmodLoop (m result base : rt_int) (e : Nat) : rt_int :=
  if e = 0 then result
  else
    powmodLoop m
      (if e % 2 = 1 then rt_int_modCore (rt_int_mul result base) m else result)
      (if e / 2 ≠ 0 then rt_int_modCore (rt_int_mul base base) m else base) (e / 2)
decreasing_by exact Nat.div_lt_self (Nat.pos_of_ne_zero (by assumption)) (by decide)

def rt_int_powmod (a b m : rt_int) : Option rt_int :=
  if m.sign = 0 ∨ m.digits = [] then none
  else
    match rt_int_to_si_checked b with
    | none => none
    | some e =>
      if e < 0 then none
      else
        some (rt_int_copy (powmodLoop m (rt_int_modCore (rt_int_set_si 1) m)
          (rt_int_modCore a m) e.toNat))

theorem powLoop_spec : ∀ (e : Nat) (result base : rt_int), Wf result → Wf base →
    val (powLoop result base e) = val result * val base ^ e ∧
      Wf (powLoop result base e) := by
  intro e
  induction e using Nat.strong_induction_on with
  | _ e ih =>
    intro result base hr hb
    by_cases he : e = 0
    · subst he
      rw [powLoop]
      simp [hr]
    · rw [powLoop, if_neg he]
      have hdiv : e / 2 < e := Nat.div_lt_self (Nat.pos_of_ne_zero he) (by decide)
      have hr' : Wf (if e % 2 = 1 then rt_int_mul result base else result) := by
        by_cases h2 : e % 2 = 1
        · rw [if_pos h2]; exact (mul_spec hr hb).2
        · rw [if_neg h2]; exact hr
      have hb' : Wf (if e / 2 ≠ 0 then rt_int_mul base base else base) := by
        by_cases h2 : e / 2 ≠ 0
        · rw [if_pos h2]; exact (mul_spec hb hb).2
        · rw [if_neg h2]; exact hb
      obtain ⟨ihv, ihw⟩ := ih (e / 2) hdiv _ _ hr' hb'
      refine ⟨?_, ihw⟩
      rw [ihv]
      have hdm := Nat.div_add_mod e 2
      by_cases h2 : e % 2 = 1
      · rw [if_pos h2]
        obtain ⟨hm1, _⟩ := mul_spec hr hb
        rw [hm1]
        by_cases h3 : e / 2 ≠ 0
        · rw [if_pos h3]
          obtain ⟨hm2, _⟩ := mul_spec hb hb
          rw [hm2]
          have he2 : e = 2 * (e / 2) + 1 := by omega
          calc val result * val base * (val base * val base) ^ (e / 2)
              = val result * (val base ^ (2 * (e / 2) + 1)) := by
                rw [pow_add, pow_mul]
                ring_nf
            _ = val result * val base ^ e := by rw [← he2]
        · rw [if_neg h3]
          push_neg at h3
          have he1 : e = 1 := by omega
          rw [he1]
          ring
      · rw [if_neg h2]
        have h2' : e % 2 = 0 := by omega
        have h3 : e / 2 ≠ 0 := by omega
        rw [if_pos h3]
        obtain ⟨hm2, _⟩ := mul_spec hb hb
        rw [hm2]
        have he2 : e = 2 * (e / 2) := by omega
        calc val result * (val base * val base) ^ (e / 2)
            = val result * val base ^ (2 * (e / 2)) := by
              rw [pow_mul]
              ring_nf
          _ = val result * val base ^ e := by rw [← he2]

theorem fmodI_congr {a c b : Int} (h : a % b = c % b) : fmodI a b = fmodI c b := by
  rw [fmodI_eq_emod_form, fmodI_eq_emod_form, h]

theorem fmodI_emod (a b : Int) : fmodI a b % b = a % b := by
  rw [fmodI_eq_emod_form]
  by_cases h : 0 ≤ b ∨ a % b = 0
  · rw [if_pos h]
    exact Int.emod_emod_of_dvd a dvd_rfl
  · rw [if_neg h]
    have h1 : (a % b + b * 1) % b = a % b % b := Int.add_mul_emod_self_left (a % b) b 1
    simpa [Int.emod_emod_of_dvd a dvd_rfl] using h1

theorem fmodI_idem (a b : Int) : fmodI (fmodI a b) b = fmodI a b :=
  fmodI_congr (fmodI_emod a b)

theorem modCore_spec {a m : rt_int} (ha : Wf a) (hm : Wf m) (hmz : m.sign ≠ 0) :
    val (rt_int_modCore a m) = fmodI (val a) (val m) ∧ Wf (rt_int_modCore a m) := by
  obtain ⟨_, h2, _, h4⟩ := divmodCore_spec ha hm hmz
  exact ⟨h2, h4⟩

theorem powmodLoop_spec {m : rt_int} (hm : Wf m) (hmz : m.sign ≠ 0) :
    ∀ (e : Nat) (result base : rt_int), Wf result → Wf base →
    val result = fmodI (val result) (val m) →
    val (powmodLoop m result base e) = fmodI (val result * val base ^ e) (val m) ∧
      Wf (powmodLoop m result base e) := by
  intro e
  induction e using Nat.strong_induction_on with
  | _ e ih =>
    intro result base hr hb hred
    by_cases he : e = 0
    · subst he
      rw [powmodLoop]
      simp only [if_pos rfl]
      rw [pow_zero, mul_one, ← hred]
      exact ⟨rfl, hr⟩
    · rw [powmodLoop, if_neg he]
      have hdiv : e / 2 < e := Nat.div_lt_self (Nat.pos_of_ne_zero he) (by decide)
      have hdm := Nat.div_add_mod e 2
      by_cases h2 : e % 2 = 1
      · rw [if_pos h2]
        obtain ⟨hmr, hwr⟩ :=
          modCore_spec (a := rt_int_mul result base) (mul_spec hr hb).2 hm hmz
        rw [(mul_spec hr hb).1] at hmr
        have hres : Int.ModEq (val m) (val (rt_int_modCore (rt_int_mul result base) m))
            (val result * val base) := by
          rw [hmr]
          exact fmodI_emod _ _
        have hredr : val (rt_int_modCore (rt_int_mul result base) m) =
            fmodI (val (rt_int_modCore (rt_int_mul result base) m)) (val m) := by
          rw [hmr, fmodI_idem]
        by_cases h3 : e / 2 ≠ 0
        · rw [if_pos h3]
          obtain ⟨hmb, hwb⟩ :=
            modCore_spec (a := rt_int_mul base base) (mul_spec hb hb).2 hm hmz
          rw [(mul_spec hb hb).1] at hmb
          have hbase : Int.ModEq (val m) (val (rt_int_modCore (rt_int_mul base base) m))
              (val base * val base) := by
            rw [hmb]
            exact fmodI_emod _ _
          obtain ⟨ihv, ihw⟩ := ih (e / 2) hdiv _ _ hwr hwb hredr
          refine ⟨?_, ihw⟩
          rw [ihv]
          apply fmodI_congr
          have hmod := Int.ModEq.mul hres (Int.ModEq.pow (e / 2) hbase)
          have heq : val result * val base * (val base * val base) ^ (e / 2)
              = val result * val base ^ e := by
            have he2 : e = 2 * (e / 2) + 1 := by omega
            calc val result * val base * (val base * val base) ^ (e / 2)
                = val result * (val base ^ (2 * (e / 2) + 1)) := by
                  rw [pow_add, pow_mul]
                  ring_nf
              _ = val result * val base ^ e := by rw [← he2]
          exact heq ▸ hmod
        · rw [if_neg h3]
          push_neg at h3
          have he1 : e = 1 := by omega
          obtain ⟨ihv, ihw⟩ := ih (e / 2) hdiv _ _ hwr hb hredr
          refine ⟨?_, ihw⟩
          rw [ihv, h3]
          apply fmodI_congr
          have hmod := Int.ModEq.mul hres (Int.ModEq.pow 0 (Int.ModEq.refl
            (a := val base) (n := val m)))
          have heq : val result * val base * val base ^ 0
              = val result * val base ^ e := by
            rw [he1]
            ring
          exact heq ▸ hmod
      · rw [if_neg h2]
        have h2' : e % 2 = 0 := by omega
        have h3 : e / 2 ≠ 0 := by omega
        rw [if_pos h3]
        obtain ⟨hmb, hwb⟩ :=
          modCore_spec (a := rt_int_mul base base) (mul_spec hb hb).2 hm hmz
        rw [(mul_spec hb hb).1] at hmb
        have hbase : Int.ModEq (val m) (val (rt_int_modCore (rt_int_mul base base) m))
            (val base * val base) := by
          rw [hmb]
          exact fmodI_emod _ _
        obtain ⟨ihv, ihw⟩ := ih (e / 2) hdiv _ _ hr hwb hred
        refine ⟨?_, ihw⟩
        rw [ihv]
        apply fmodI_congr
        have hmod := Int.ModEq.mul (Int.ModEq.refl (a := val result) (n := val m))
          (Int.ModEq.pow (e / 2) hbase)
        have heq : val result * (val base * val base) ^ (e / 2)
            = val result * val base ^ e := by
          have he2 : e = 2 * (e / 2) := by omega
          calc val result * (val base * val base) ^ (e / 2)
              = val result * val base ^ (2 * (e / 2)) := by
                rw [pow_mul]
                ring_nf
            _ = val result * val base ^ e := by rw [← he2]
        exact heq ▸ hmod

theorem pow_spec {a b : rt_int} (ha : Wf a) (hb : Wf b)
    (hbnn : 0 ≤ val b) (hbmax : val b ≤ (I64MAX : Int)) :
    ∃ p, rt_int_pow a b = some p ∧ val p = val a ^ (val b).toNat ∧ Wf p := by
  have hsi : rt_int_to_si_checked b = some (val b) :=
    to_si_checked_success hb (by omega) hbmax
  unfold rt_int_pow
  rw [hsi]
  dsimp only
  rw [if_neg (by omega : ¬ val b < 0)]
  by_cases h0 : val b = 0
  · rw [if_pos h0]
    refine ⟨_, rfl, ?_, wf_set_si 1⟩
    rw [val_set_si, h0]
    simp
  · rw [if_neg h0]
    obtain ⟨hv, hw⟩ := powLoop_spec (val b).toNat (rt_int_set_si 1) (rt_int_copy a)
      (wf_set_si 1) (by rw [copy_eq_self ha]; exact ha)
    refine ⟨_, rfl, ?_, ?_⟩
    · rw [copy_eq_self hw, hv, val_set_si, copy_eq_self ha, one_mul]
    · rw [copy_eq_self hw]
      exact hw

theorem powmod_spec {a b m : rt_int} (ha : Wf a) (hb : Wf b) (hm : Wf m)
    (hmz : m.sign ≠ 0) (hbnn : 0 ≤ val b) (hbmax : val b ≤ (I64MAX : Int)) :
    ∃ p, rt_int_powmod a b m = some p ∧
      val p = fmodI (val a ^ (val b).toNat) (val m) ∧ Wf p := by
  have hsi : rt_int_to_si_checked b = some (val b) :=
    to_si_checked_success hb (by omega) hbmax
  have hnd : ¬ (m.sign = 0 ∨ m.digits = []) := by
    push_neg
    exact ⟨hmz, fun h => hmz (hm.1.2.1.mpr h)⟩
  unfold rt_int_powmod
  rw [if_neg hnd, hsi]
  dsimp only
  rw [if_neg (by omega : ¬ val b < 0)]
  obtain ⟨hr0, hwr0⟩ := modCore_spec (a := rt_int_set_si 1) (wf_set_si 1) hm hmz
  rw [val_set_si] at hr0
  obtain ⟨hb0, hwb0⟩ := modCore_spec (a := a) ha hm hmz
  obtain ⟨hv, hw⟩ := powmodLoop_spec hm hmz (val b).toNat _ _ hwr0 hwb0
    (by rw [hr0, fmodI_idem])
  refine ⟨_, rfl, ?_, ?_⟩
  · rw [copy_eq_self hw, hv, hr0, hb0]
    apply fmodI_congr
    have hmod := Int.ModEq.mul (fmodI_emod 1 (val m))
      (Int.ModEq.pow (val b).toNat (fmodI_emod (val a) (val m)))
    simpa using hmod
  · rw [copy_eq_self hw]
    exact hw

/-! ## Decimal input (`rt_int_from_dec`, runtime.c:240-270) and output
(`rt_print_int`, runtime.c:501-518)

Strings are `List Char` (a C string is its characters up to the NUL).
`rt_is_space` is runtime.c:197-199; the `*dec` read at end of string is the
NUL terminator, modelled by `headD (Char.ofNat 0)`. -/

def rt_is_space (c : Char) : Bool :=
  c == ' ' || c == '\t' || c == '\n' || c == '\r'

/-- The digit loop of `rt_int_from_dec` (runtime.c:260-265): break on
whitespace, fail on a non-digit, otherwise `x = 10*x + digit`. -/
def fromDecLoop : rt_int → List Char → Option rt_int
  | x, [] => some x
  | x, c :: cs =>
    if rt_is_space c then some x
    else if 48 ≤ c.toNat ∧ c.toNat ≤ 57 then
      fromDecLoop (rt_int_add_small (rt_int_mul_small x 10) (c.toNat - 48)) cs
    else none

/-- runtime.c:255-269: the empty check, digit loop, final normalize and
sign patch, taking the already-determined sign and post-sign cursor. -/
def fromDecFinish (sign : Int) (s2 : List Char) : Option rt_int :=
  if s2 = [] then none
  else
    match fromDecLoop ⟨1, []⟩ s2 with
    | none => none
    | some x =>
      let y := rt_int_normalizeF x
      some (if y.sign = 0 then y else ⟨sign, y.digits⟩)

/-- runtime.c:245-253: the sign scan on the whitespace-stripped cursor
(`*dec` at the end of the string is the NUL, `headD (Char.ofNat 0)`). -/
def fromDecSign (s1 : List Char) : Option rt_int :=
  let c0 := s1.headD (Char.ofNat 0)
  fromDecFinish (if c0 = '-' then -1 else 1)
    ((if c0 = '+' ∨ c0 = '-' then s1.tail else s1).dropWhile
      (fun c => rt_is_space c))

def rt_int_from_dec (dec : List Char) : Option rt_int :=
  fromDecSign (dec.dropWhile (fun c => rt_is_space c))

/-- Digits of `printf("%u", n)` for `n > 0` (empty for `n = 0`). -/
def natDecCharsGo (n : Nat) : List Char :=
  if n = 0 then [] else natDecCharsGo (n / 10) ++ [Char.ofNat (48 + n % 10)]
decreasing_by exact Nat.div_lt_self (Nat.pos_of_ne_zero (by assumption)) (by decide)

/-- `printf("%u", n)`. -/
def natDecChars (n : Nat) : List Char :=
  if n = 0 then ['0'] else natDecCharsGo n

/-- The low `k` decimal digits of `m`, zero padded to width `k`. -/
def fixedChars : Nat → Nat → List Char
  | 0, _ => []
  | k + 1, m => fixedChars k (m / 10) ++ [Char.ofNat (48 + m % 10)]

/-- `printf("%09u", m)`: for `m < 10^9` (every limb), the unpadded decimal
has at most 9 digits, so the output is exactly the 9-digit zero-padded form. -/
def pad9 (m : Nat) : List Char := fixedChars 9 m

def padLimbs : List Nat → List Char
  | [] => []
  | d :: ds => pad9 d ++ padLimbs ds

/-- `rt_print_int` (runtime.c:501-518) as the list of characters it emits:
`0` for a zero value, else optional `-`, the top limb unpadded, then each
lower limb zero-padded to 9 digits, most significant first. -/
def rt_print_int (a : rt_int) : List Char :=
  if a.sign = 0 ∨ a.digits = [] then ['0', '\n']
  else
    (if a.sign < 0 then ['-'] else []) ++
      natDecChars (a.digits.getLastD 0) ++
      padLimbs a.digits.dropLast.reverse ++ ['\n']

/-- Mathematical value of a most-significant-first digit string (used only to
state what a decimal string denotes). -/
def decValue (ds : List Char) : Nat :=
  ds.foldl (fun n c => n * 10 + (c.toNat - 48)) 0

theorem natDecCharsGo_step {n : Nat} (h : n ≠ 0) :
    natDecCharsGo n = natDecCharsGo (n / 10) ++ [Char.ofNat (48 + n % 10)] := by
  rw [natDecCharsGo, if_neg h]

theorem fixedChars_spec : ∀ (k a m : Nat), 0 < a → m < 10 ^ k →
    natDecCharsGo (a * 10 ^ k + m) = natDecCharsGo a ++ fixedChars k m := by
  intro k
  induction k with
  | zero =>
    intro a m _ hm
    have hm0 : m = 0 := by omega
    simp [hm0, fixedChars]
  | succ k ih =>
    intro a m ha hm
    have hpow : 0 < 10 ^ (k + 1) := Nat.pos_pow_of_pos _ (by decide)
    have hn0 : a * 10 ^ (k + 1) + m ≠ 0 := by
      have := Nat.mul_pos ha hpow
      omega
    rw [natDecCharsGo_step hn0]
    have hrw : a * 10 ^ (k + 1) + m = m + a * 10 ^ k * 10 := by
      rw [pow_succ]
      ring
    have hdiv : (a * 10 ^ (k + 1) + m) / 10 = a * 10 ^ k + m / 10 := by
      rw [hrw, Nat.add_mul_div_right _ _ (by decide : 0 < 10)]
      omega
    have hmod : (a * 10 ^ (k + 1) + m) % 10 = m % 10 := by
      rw [hrw, Nat.add_mul_mod_self_right]
    have hm10 : m / 10 < 10 ^ k := by
      rw [pow_succ] at hm
      omega
    rw [hdiv, hmod, ih a (m / 10) ha hm10, List.append_assoc]
    rfl

theorem padLimbs_append (l₁ l₂ : List Nat) :
    padLimbs (l₁ ++ l₂) = padLimbs l₁ ++ padLimbs l₂ := by
  induction l₁ with
  | nil => simp [padLimbs]
  | cons d ds ih => simp [padLimbs, ih]

theorem printLimbs_spec : ∀ (ds : List Nat) (a : Nat), 0 < a → Bounded ds →
    natDecCharsGo (a * B ^ ds.length + limbVal ds) =
      natDecCharsGo a ++ padLimbs ds.reverse := by
  intro ds
  induction ds with
  | nil =>
    intro a _ _
    simp [limbVal_nil, padLimbs]
  | cons d ds ih =>
    intro a ha hb
    have hd : d < B := hb d (by simp)
    have hbds : Bounded ds := fun x hx => hb x (List.mem_cons_of_mem d hx)
    have key : a * B ^ (d :: ds).length + limbVal (d :: ds)
        = (a * B ^ ds.length + limbVal ds) * 10 ^ 9 + d := by
      have hB9 : B = 10 ^ 9 := by decide
      simp only [limbVal_cons, List.length_cons, pow_succ, ← hB9]
      ring
    have hpos : 0 < a * B ^ ds.length + limbVal ds := by
      have := Nat.mul_pos ha (Nat.pos_pow_of_pos ds.length B_pos)
      omega
    have hd9 : d < 10 ^ 9 := by
      have hB9 : B = 10 ^ 9 := by decide
      omega
    rw [key, fixedChars_spec 9 _ d hpos hd9, ih a ha hbds, List.reverse_cons,
      padLimbs_append, List.append_assoc]
    rfl

/-- What `rt_print_int` emits for a normalized value: optional minus sign,
then the decimal digits of the magnitude with no leading zeros. -/
theorem print_int_spec {a : rt_int} (ha : Wf a) :
    rt_print_int a =
      (if a.sign = -1 then ['-'] else []) ++ natDecChars (absVal a) ++ ['\n'] := by
  obtain ⟨⟨ht, hz, hs⟩, hbd⟩ := ha
  by_cases h0 : a.sign = 0 ∨ a.digits = []
  · have hd : a.digits = [] := by
      rcases h0 with h | h
      · exact hz.mp h
      · exact h
    have hs0 : a.sign = 0 := hz.mpr hd
    rw [rt_print_int, if_pos h0, hs0, absVal, hd, limbVal_nil]
    simp [natDecChars]
  · push_neg at h0
    obtain ⟨hsz, hdz⟩ := h0
    have hlast : a.digits.getLast? = some (a.digits.getLast hdz) :=
      List.getLast?_eq_getLast a.digits hdz
    set g := a.digits.getLast hdz with hg
    have hgD : a.digits.getLastD 0 = g := by
      rw [List.getLastD_eq_getLast?, hlast]
      rfl
    have hgne : g ≠ 0 := fun hcon => ht (by rw [hlast, hcon])
    have hsplit : a.digits = a.digits.dropLast ++ [g] :=
      (List.dropLast_append_getLast hdz).symm
    have hbdl : Bounded a.digits.dropLast := fun x hx =>
      hbd x (List.dropLast_subset _ hx)
    have hval : absVal a = g * B ^ a.digits.dropLast.length +
        limbVal a.digits.dropLast := by
      rw [absVal]
      conv_lhs => rw [hsplit]
      rw [limbVal_append, limbVal_cons, limbVal_nil]
      ring
    have hvpos : absVal a ≠ 0 := by
      have := Nat.mul_pos (Nat.pos_of_ne_zero hgne)
        (Nat.pos_pow_of_pos a.digits.dropLast.length B_pos)
      omega
    have hprint := printLimbs_spec a.digits.dropLast g
      (Nat.pos_of_ne_zero hgne) hbdl
    rw [rt_print_int, if_neg (by push_neg; exact ⟨hsz, hdz⟩)]
    have hsgn : (if a.sign < 0 then (['-'] : List Char) else []) =
        (if a.sign = -1 then ['-'] else []) := by
      rcases hs with h | h | h
      · exact absurd h hsz
      · rw [h]
        norm_num
      · rw [h]
        norm_num
    have h1 : natDecChars g = natDecCharsGo g := by
      rw [natDecChars, if_neg hgne]
    have h2 : natDecChars (absVal a) =
        natDecCharsGo g ++ padLimbs a.digits.dropLast.reverse := by
      rw [natDecChars, if_neg hvpos, hval, hprint]
    rw [hgD, h1, h2, hsgn]
    simp [List.append_assoc]


theorem digit_not_space {c : Char} (h1 : 48 ≤ c.toNat) :
    rt_is_space c = false := by
  have h2 : c ≠ ' ' := fun h => absurd h1 (by subst h; decide)
  have h3 : c ≠ '\t' := fun h => absurd h1 (by subst h; decide)
  have h4 : c ≠ '\n' := fun h => absurd h1 (by subst h; decide)
  have h5 : c ≠ '\r' := fun h => absurd h1 (by subst h; decide)
  simp [rt_is_space, h2, h3, h4, h5]

theorem step_small (x : rt_int) (d : Nat) (hs : x.sign = 1)
    (hb : Bounded x.digits) (hd : d < B) :
    (rt_int_add_small (rt_int_mul_small x 10) d).sign = 1 ∧
      Bounded (rt_int_add_small (rt_int_mul_small x 10) d).digits ∧
      limbVal (rt_int_add_small (rt_int_mul_small x 10) d).digits =
        10 * limbVal x.digits + d := by
  by_cases hx : x.digits = []
  · have hm : rt_int_mul_small x 10 = x := by
      rw [rt_int_mul_small, if_pos (Or.inr hx)]
    rw [hm, rt_int_add_small, if_neg (by rw [hs]; decide)]
    refine ⟨hs, ?_, ?_⟩
    · rw [hx]
      exact (addSmallGo_spec [] d (by intro z hz; simp at hz) hd).2
    · rw [hx, (addSmallGo_spec [] d (by intro z hz; simp at hz) hd).1]
      simp [limbVal_nil, hx]
  · have hm : rt_int_mul_small x 10 = ⟨x.sign, mulSmallGo 10 x.digits 0⟩ := by
      rw [rt_int_mul_small, if_neg (by push_neg; exact ⟨by rw [hs]; decide, hx⟩)]
    obtain ⟨hmv, hmb⟩ := mulSmallGo_spec 10 (by decide) x.digits 0 hb B_pos
    rw [hm, rt_int_add_small]
    rw [if_neg (by show x.sign ≠ 0; rw [hs]; decide)]
    obtain ⟨hav, hab⟩ := addSmallGo_spec (mulSmallGo 10 x.digits 0) d hmb hd
    refine ⟨hs, hab, ?_⟩
    rw [hav, hmv]
    omega

theorem fromDecLoop_spec : ∀ (ds rest : List Char) (x : rt_int),
    x.sign = 1 → Bounded x.digits → (∀ c ∈ ds, 48 ≤ c.toNat ∧ c.toNat ≤ 57) →
    rt_is_space (rest.headD ' ') = true →
    ∃ y, fromDecLoop x (ds ++ rest) = some y ∧ y.sign = 1 ∧ Bounded y.digits ∧
      limbVal y.digits =
        ds.foldl (fun n c => n * 10 + (c.toNat - 48)) (limbVal x.digits) := by
  intro ds
  induction ds with
  | nil =>
    intro rest x hs hb _ hrest
    cases rest with
    | nil => exact ⟨x, rfl, hs, hb, rfl⟩
    | cons c cs =>
      refine ⟨x, ?_, hs, hb, rfl⟩
      show (if rt_is_space c then some x else _) = some x
      rw [if_pos (by simpa using hrest)]
  | cons c cs ih =>
    intro rest x hs hb hdig hrest
    obtain ⟨hc1, hc2⟩ := hdig c (by simp)
    have hcs : ∀ d ∈ cs, 48 ≤ d.toNat ∧ d.toNat ≤ 57 := fun d hd =>
      hdig d (List.mem_cons_of_mem c hd)
    have hd : c.toNat - 48 < B := by
      have := B_gt_one
      show c.toNat - 48 < B
      have hB : B = 1000000000 := rfl
      omega
    obtain ⟨hs', hb', hv'⟩ := step_small x (c.toNat - 48) hs hb hd
    obtain ⟨y, hy, hys, hyb, hyv⟩ := ih rest _ hs' hb' hcs hrest
    refine ⟨y, ?_, hys, hyb, ?_⟩
    · show (if rt_is_space c then some x
        else if 48 ≤ c.toNat ∧ c.toNat ≤ 57 then
          fromDecLoop (rt_int_add_small (rt_int_mul_small x 10) (c.toNat - 48))
            (cs ++ rest)
        else none) = some y
      rw [if_neg (by simp [digit_not_space hc1]), if_pos ⟨hc1, hc2⟩]
      exact hy
    · rw [hyv, hv', List.foldl_cons]
      have : limbVal x.digits * 10 + (c.toNat - 48) =
          10 * limbVal x.digits + (c.toNat - 48) := by ring
      rw [← this]

theorem dropWhile_append_all {p : Char → Bool} : ∀ (l1 l2 : List Char),
    (∀ c ∈ l1, p c = true) →
    List.dropWhile p (l1 ++ l2) = List.dropWhile p l2 := by
  intro l1
  induction l1 with
  | nil => simp
  | cons c cs ih =>
    intro l2 h
    rw [List.cons_append, List.dropWhile_cons_of_pos (h c (by simp))]
    exact ih l2 fun d hd => h d (List.mem_cons_of_mem c hd)

theorem fromDecFinish_spec (sign : Int) (ds rest : List Char)
    (hsgn : sign = 1 ∨ sign = -1) (hne : ds ≠ [])
    (hdig : ∀ c ∈ ds, 48 ≤ c.toNat ∧ c.toNat ≤ 57)
    (hrest : rt_is_space (rest.headD ' ') = true) :
    ∃ v, fromDecFinish sign (ds ++ rest) = some v ∧ Wf v ∧
      val v = sign * (decValue ds : Int) := by
  obtain ⟨y, hy, hys, hyb, hyv⟩ := fromDecLoop_spec ds rest ⟨1, []⟩ rfl
    (by intro z hz; simp at hz) hdig hrest
  have hne' : ds ++ rest ≠ [] := by
    cases ds with
    | nil => exact absurd rfl hne
    | cons d ds' => simp
  have hval : limbVal y.digits = decValue ds := by
    rw [hyv]
    rfl
  rw [fromDecFinish, if_neg hne', hy]
  by_cases h0 : (rt_int_normalizeF y).sign = 0
  · refine ⟨rt_int_normalizeF y, by simp [h0], ?_, ?_⟩
    · have htr : trimTop y.digits = [] := by
        by_contra hcon
        have : (rt_int_normalizeF y).sign = y.sign := by
          rw [rt_int_normalizeF]
          simpa using fun h => absurd h hcon
        rw [this, hys] at h0
        exact one_ne_zero h0
      constructor
      · refine ⟨?_, ?_, ?_⟩
        · show Trimmed (rt_int_normalizeF y).digits
          rw [rt_int_normalizeF]
          exact trimmed_trimTop _
        · show _ ↔ (rt_int_normalizeF y).digits = []
          rw [rt_int_normalizeF]
          simp [htr, h0]
        · exact Or.inl h0
      · show Bounded (rt_int_normalizeF y).digits
        rw [rt_int_normalizeF]
        exact bounded_trimTop hyb
    · have htr : trimTop y.digits = [] := by
        by_contra hcon
        have : (rt_int_normalizeF y).sign = y.sign := by
          rw [rt_int_normalizeF]
          simpa using fun h => absurd h hcon
        rw [this, hys] at h0
        exact one_ne_zero h0
      have hdv : decValue ds = 0 := by
        rw [← hval, ← limbVal_trimTop, htr, limbVal_nil]
      rw [val, h0, hdv]
      simp
  · refine ⟨⟨sign, (rt_int_normalizeF y).digits⟩, by simp [h0], ?_, ?_⟩
    · have htr : trimTop y.digits ≠ [] := by
        intro hcon
        rw [rt_int_normalizeF] at h0
        simp [hcon] at h0
      constructor
      · refine ⟨?_, ?_, ?_⟩
        · show Trimmed (rt_int_normalizeF y).digits
          rw [rt_int_normalizeF]
          exact trimmed_trimTop _
        · show sign = 0 ↔ (rt_int_normalizeF y).digits = []
          rw [rt_int_normalizeF]
          constructor
          · intro hc
            rcases hsgn with h | h <;> rw [h] at hc <;> exact absurd hc (by decide)
          · intro hc
            exact absurd (by simpa using hc) htr
        · rcases hsgn with h | h
          · exact Or.inr (Or.inl h)
          · exact Or.inr (Or.inr h)
      · show Bounded (rt_int_normalizeF y).digits
        rw [rt_int_normalizeF]
        exact bounded_trimTop hyb
    · show sign * (limbVal (rt_int_normalizeF y).digits : Int) = _
      have : limbVal (rt_int_normalizeF y).digits = decValue ds := by
        show limbVal (trimTop y.digits) = _
        rw [limbVal_trimTop, hval]
      rw [this]

theorem fromDecSign_digits (ds rest : List Char) (hne : ds ≠ [])
    (hdig : ∀ c ∈ ds, 48 ≤ c.toNat ∧ c.toNat ≤ 57)
    (hrest : rt_is_space (rest.headD ' ') = true) :
    ∃ v, fromDecSign (ds ++ rest) = some v ∧ Wf v ∧
      val v = (decValue ds : Int) := by
  obtain ⟨d0, ds', rfl⟩ : ∃ d0 ds', ds = d0 :: ds' := by
    cases ds with
    | nil => exact absurd rfl hne
    | cons d0 ds' => exact ⟨d0, ds', rfl⟩
  have hd0 := hdig d0 (by simp)
  have hd0ns : rt_is_space d0 = false := digit_not_space hd0.1
  have hminus : d0 ≠ '-' := fun h => by subst h; exact absurd hd0.1 (by decide)
  have hplus : d0 ≠ '+' := fun h => by subst h; exact absurd hd0.1 (by decide)
  rw [List.cons_append]
  simp only [fromDecSign, List.headD_cons]
  rw [if_neg hminus, if_neg (by push_neg; exact ⟨hplus, hminus⟩)]
  rw [List.dropWhile_cons_of_neg (by simp [hd0ns]), ← List.cons_append]
  obtain ⟨v, hv, hwf, hval⟩ := fromDecFinish_spec 1 (d0 :: ds') rest
    (Or.inl rfl) (by simp) hdig hrest
  rw [one_mul] at hval
  exact ⟨v, hv, hwf, hval⟩

theorem dropWhile_space_digits (ds rest : List Char) (hne : ds ≠ [])
    (hdig : ∀ c ∈ ds, 48 ≤ c.toNat ∧ c.toNat ≤ 57) :
    List.dropWhile (fun c => rt_is_space c) (ds ++ rest) = ds ++ rest := by
  obtain ⟨d0, ds', rfl⟩ : ∃ d0 ds', ds = d0 :: ds' := by
    cases ds with
    | nil => exact absurd rfl hne
    | cons d0 ds' => exact ⟨d0, ds', rfl⟩
  have hd0ns : rt_is_space d0 = false := digit_not_space (hdig d0 (by simp)).1
  rw [List.cons_append, List.dropWhile_cons_of_neg (by simp [hd0ns])]

/-- Successful parse of runtime.c's `rt_int_from_dec`: leading whitespace, an
optional sign, more whitespace, then a digit run read up to the end of the
string or the first whitespace character; everything after that first
whitespace (`rest`) is never examined. -/
theorem from_dec_ok (ws1 sg ws2 ds rest : List Char)
    (hws1 : ∀ c ∈ ws1, rt_is_space c = true)
    (hws2 : ∀ c ∈ ws2, rt_is_space c = true)
    (hsg : sg = [] ∨ sg = ['+'] ∨ sg = ['-'])
    (hne : ds ≠ []) (hdig : ∀ c ∈ ds, 48 ≤ c.toNat ∧ c.toNat ≤ 57)
    (hrest : rt_is_space (rest.headD ' ') = true) :
    ∃ v, rt_int_from_dec (ws1 ++ sg ++ ws2 ++ ds ++ rest) = some v ∧ Wf v ∧
      val v = (if sg = ['-'] then -1 else 1) * (decValue ds : Int) := by
  rcases hsg with hsgn | hsgn | hsgn <;> subst hsgn
  · have e1 : ws1 ++ [] ++ ws2 ++ ds ++ rest = ws1 ++ (ws2 ++ (ds ++ rest)) := by
      simp
    rw [rt_int_from_dec, e1, dropWhile_append_all ws1 _ hws1,
      dropWhile_append_all ws2 _ hws2, dropWhile_space_digits ds rest hne hdig]
    obtain ⟨v, hv, hwf, hval⟩ := fromDecSign_digits ds rest hne hdig hrest
    refine ⟨v, hv, hwf, ?_⟩
    rw [hval, if_neg (by decide), one_mul]
  · have e1 : ws1 ++ ['+'] ++ ws2 ++ ds ++ rest =
        ws1 ++ ('+' :: (ws2 ++ (ds ++ rest))) := by simp
    rw [rt_int_from_dec, e1, dropWhile_append_all ws1 _ hws1,
      List.dropWhile_cons_of_neg (by decide)]
    simp only [fromDecSign, List.headD_cons, true_or, or_true, if_true,
      List.tail_cons]
    rw [if_neg (by decide : ¬('+' : Char) = '-'),
      dropWhile_append_all ws2 _ hws2, dropWhile_space_digits ds rest hne hdig]
    obtain ⟨v, hv, hwf, hval⟩ := fromDecFinish_spec 1 ds rest (Or.inl rfl)
      hne hdig hrest
    refine ⟨v, hv, hwf, ?_⟩
    rw [hval, if_neg (by decide), one_mul]
  · have e1 : ws1 ++ ['-'] ++ ws2 ++ ds ++ rest =
        ws1 ++ ('-' :: (ws2 ++ (ds ++ rest))) := by simp
    rw [rt_int_from_dec, e1, dropWhile_append_all ws1 _ hws1,
      List.dropWhile_cons_of_neg (by decide)]
    simp only [fromDecSign, List.headD_cons, true_or, or_true, if_true,
      List.tail_cons]
    rw [dropWhile_append_all ws2 _ hws2, dropWhile_space_digits ds rest hne hdig]
    obtain ⟨v, hv, hwf, hval⟩ := fromDecFinish_spec (-1) ds rest (Or.inr rfl)
      hne hdig hrest
    refine ⟨v, hv, hwf, ?_⟩
    rw [hval]

theorem print_val {v : rt_int} (hv : Wf v) {s : Int} {n : Nat}
    (hs : s = 1 ∨ s = -1) (hval : val v = s * n) :
    rt_print_int v = (if s = -1 ∧ n ≠ 0 then ['-'] else []) ++
      natDecChars n ++ ['\n'] := by
  obtain ⟨⟨ht, hz, hsgn⟩, hbd⟩ := hv
  by_cases hn : n = 0
  · subst hn
    have hv0 : val v = 0 := by rw [hval]; simp
    have hd0 : v.digits = [] := by
      by_contra hcon
      have hpos := trimmed_pos ht hcon
      have hs0 : v.sign ≠ 0 := fun h => hcon (hz.mp h)
      rw [val] at hv0
      simp only [absVal] at hv0
      rcases hsgn with h | h | h
      · exact hs0 h
      · rw [h, one_mul] at hv0
        omega
      · rw [h] at hv0
        omega
    have hs0 : v.sign = 0 := hz.mpr hd0
    rw [rt_print_int, if_pos (Or.inl hs0)]
    simp [natDecChars]
  · have habs : absVal v = n ∧ v.sign = s := by
      rcases hsgn with h | h | h
      · exfalso
        have hd0 : v.digits = [] := hz.mp h
        rw [val, h, zero_mul] at hval
        rcases hs with h' | h' <;> rw [h'] at hval <;> simp at hval <;> omega
      · rw [val, h, one_mul] at hval
        rcases hs with h' | h'
        · rw [h'] at hval ⊢
          rw [one_mul] at hval
          exact ⟨by exact_mod_cast hval, h⟩
        · exfalso
          rw [h'] at hval
          have h1 : (0 : Int) ≤ absVal v := Int.natCast_nonneg _
          have h2 : (0 : Int) ≤ (n : Int) := Int.natCast_nonneg _
          have : (n : Int) = 0 := by omega
          exact hn (by exact_mod_cast this)
      · rw [val, h] at hval
        rcases hs with h' | h'
        · exfalso
          rw [h', one_mul] at hval
          have h1 : (0 : Int) ≤ absVal v := Int.natCast_nonneg _
          have h2 : (0 : Int) ≤ (n : Int) := Int.natCast_nonneg _
          have : (n : Int) = 0 := by omega
          exact hn (by exact_mod_cast this)
        · rw [h'] at hval ⊢
          have : (absVal v : Int) = (n : Int) := by omega
          exact ⟨by exact_mod_cast this, h⟩
    obtain ⟨habs, hsg⟩ := habs
    have hps := print_int_spec ⟨⟨ht, hz, hsgn⟩, hbd⟩
    rw [hps, habs, hsg]
    simp [hn]

/-! ## Output/input aliasing (spec §6, §9)

`rt_int_add`/`rt_int_sub`/`rt_int_mul` take a caller-supplied `out` that may
be the same `rt_int` as an operand.  The magnitude loops then read the
operand's limbs out of the very buffer they are writing.  `aliasLoopL` is
the `rt_int_add_abs`/`rt_int_sub_abs` loop when `out == a` (first operand
shares the output buffer, reads of `a->digits[i]` guarded by the original
`a->len`); `aliasLoopR` is the same loop when `out == b`.  The grown buffer
(`rt_int_reserve` does not zero fresh memory) is the operand's limbs
followed by arbitrary garbage `g`. -/

theorem getD_set_self {l : List Nat} {i : Nat} (h : i < l.length) (v : Nat) :
    (l.set i v).getD i 0 = v := by
  rw [List.getD_eq_getElem?_getD, List.getElem?_set_self h]
  rfl

theorem getD_set_ne {l : List Nat} {i j : Nat} (h : i ≠ j) (v : Nat) :
    (l.set i v).getD j 0 = l.getD j 0 := by
  rw [List.getD_eq_getElem?_getD, List.getElem?_set_ne h,
    ← List.getD_eq_getElem?_getD]

def aliasLoopL (f : Nat → Nat → Nat → Nat × Nat) (ys : List Nat)
    (aLen : Nat) : List Nat → Nat → Nat → Nat → List Nat × Nat
  | buf, _, 0, c => (buf, c)
  | buf, i, fuel + 1, c =>
    let av := if i < aLen then buf.getD i 0 else 0
    let p := f av (ys.getD i 0) c
    aliasLoopL f ys aLen (buf.set i p.1) (i + 1) fuel p.2

def aliasLoopR (f : Nat → Nat → Nat → Nat × Nat) (xs : List Nat)
    (bLen : Nat) : List Nat → Nat → Nat → Nat → List Nat × Nat
  | buf, _, 0, c => (buf, c)
  | buf, i, fuel + 1, c =>
    let bv := if i < bLen then buf.getD i 0 else 0
    let p := f (xs.getD i 0) bv c
    aliasLoopR f xs bLen (buf.set i p.1) (i + 1) fuel p.2

/-- The aliased loop computes the same digits and carry as the plain loop on
the buffer's original contents: iteration `i` reads index `i` before
writing it, and later iterations only read higher indices. -/
theorem aliasLoopL_eq (f : Nat → Nat → Nat → Nat × Nat) (ys xs : List Nat) :
    ∀ (fuel i c : Nat) (buf : List Nat), i + fuel ≤ buf.length →
    (∀ j, i ≤ j → j < xs.length → buf.getD j 0 = xs.getD j 0) →
    (aliasLoopL f ys xs.length buf i fuel c).2 =
        (plainLoop f xs ys i fuel c).2 ∧
      (aliasLoopL f ys xs.length buf i fuel c).1.length = buf.length ∧
      (∀ j, j < i →
        (aliasLoopL f ys xs.length buf i fuel c).1.getD j 0 = buf.getD j 0) ∧
      ∀ k, k < fuel →
        (aliasLoopL f ys xs.length buf i fuel c).1.getD (i + k) 0 =
          (plainLoop f xs ys i fuel c).1.getD k 0 := by
  intro fuel
  induction fuel with
  | zero =>
    intro i c buf _ _
    exact ⟨rfl, rfl, fun j _ => rfl, fun k hk => absurd hk (by omega)⟩
  | succ fuel ih =>
    intro i c buf hlen hagree
    have hav : (if i < xs.length then buf.getD i 0 else 0) = xs.getD i 0 := by
      by_cases h : i < xs.length
      · rw [if_pos h]
        exact hagree i (le_refl i) h
      · rw [if_neg h, List.getD_eq_default _ _ (by omega)]
    have hilt : i < buf.length := by omega
    set p := f (xs.getD i 0) (ys.getD i 0) c with hp
    have hstep : aliasLoopL f ys xs.length buf i (fuel + 1) c =
        aliasLoopL f ys xs.length (buf.set i p.1) (i + 1) fuel p.2 := by
      rw [aliasLoopL, hav]
    have hplain : plainLoop f xs ys i (fuel + 1) c =
        (p.1 :: (plainLoop f xs ys (i + 1) fuel p.2).1,
          (plainLoop f xs ys (i + 1) fuel p.2).2) := by
      rw [plainLoop]
    have hlen' : i + 1 + fuel ≤ (buf.set i p.1).length := by
      rw [List.length_set]
      omega
    have hagree' : ∀ j, i + 1 ≤ j → j < xs.length →
        (buf.set i p.1).getD j 0 = xs.getD j 0 := by
      intro j hj hjx
      rw [getD_set_ne (by omega) _]
      exact hagree j (by omega) hjx
    obtain ⟨ihc, ihl, ihpre, ihdig⟩ := ih (i + 1) p.2 (buf.set i p.1)
      hlen' hagree'
    rw [hstep, hplain]
    refine ⟨?_, ?_, ?_, ?_⟩
    · rw [ihc]
    · rw [ihl, List.length_set]
    · intro j hj
      rw [ihpre j (by omega), getD_set_ne (by omega) _]
    · intro k hk
      cases k with
      | zero =>
        have hpr := ihpre i (by omega)
        simp only [Nat.add_zero]
        rw [hpr, getD_set_self hilt]
        rfl
      | succ k =>
        have heq : i + (k + 1) = (i + 1) + k := by omega
        rw [heq, ihdig k (by omega)]
        rfl

theorem aliasLoopR_eq (f : Nat → Nat → Nat → Nat × Nat) (xs ys : List Nat) :
    ∀ (fuel i c : Nat) (buf : List Nat), i + fuel ≤ buf.length →
    (∀ j, i ≤ j → j < ys.length → buf.getD j 0 = ys.getD j 0) →
    (aliasLoopR f xs ys.length buf i fuel c).2 =
        (plainLoop f xs ys i fuel c).2 ∧
      (aliasLoopR f xs ys.length buf i fuel c).1.length = buf.length ∧
      (∀ j, j < i →
        (aliasLoopR f xs ys.length buf i fuel c).1.getD j 0 = buf.getD j 0) ∧
      ∀ k, k < fuel →
        (aliasLoopR f xs ys.length buf i fuel c).1.getD (i + k) 0 =
          (plainLoop f xs ys i fuel c).1.getD k 0 := by
  intro fuel
  induction fuel with
  | zero =>
    intro i c buf _ _
    exact ⟨rfl, rfl, fun j _ => rfl, fun k hk => absurd hk (by omega)⟩
  | succ fuel ih =>
    intro i c buf hlen hagree
    have hbv : (if i < ys.length then buf.getD i 0 else 0) = ys.getD i 0 := by
      by_cases h : i < ys.length
      · rw [if_pos h]
        exact hagree i (le_refl i) h
      · rw [if_neg h, List.getD_eq_default _ _ (by omega)]
    have hilt : i < buf.length := by omega
    set p := f (xs.getD i 0) (ys.getD i 0) c with hp
    have hstep : aliasLoopR f xs ys.length buf i (fuel + 1) c =
        aliasLoopR f xs ys.length (buf.set i p.1) (i + 1) fuel p.2 := by
      rw [aliasLoopR, hbv]
    have hplain : plainLoop f xs ys i (fuel + 1) c =
        (p.1 :: (plainLoop f xs ys (i + 1) fuel p.2).1,
          (plainLoop f xs ys (i + 1) fuel p.2).2) := by
      rw [plainLoop]
    have hlen' : i + 1 + fuel ≤ (buf.set i p.1).length := by
      rw [List.length_set]
      omega
    have hagree' : ∀ j, i + 1 ≤ j → j < ys.length →
        (buf.set i p.1).getD j 0 = ys.getD j 0 := by
      intro j hj hjx
      rw [getD_set_ne (by omega) _]
      exact hagree j (by omega) hjx
    obtain ⟨ihc, ihl, ihpre, ihdig⟩ := ih (i + 1) p.2 (buf.set i p.1)
      hlen' hagree'
    rw [hstep, hplain]
    refine ⟨?_, ?_, ?_, ?_⟩
    · rw [ihc]
    · rw [ihl, List.length_set]
    · intro j hj
      rw [ihpre j (by omega), getD_set_ne (by omega) _]
    · intro k hk
      cases k with
      | zero =>
        have hpr := ihpre i (by omega)
        simp only [Nat.add_zero]
        rw [hpr, getD_set_self hilt]
        rfl
      | succ k =>
        have heq : i + (k + 1) = (i + 1) + k := by omega
        rw [heq, ihdig k (by omega)]
        rfl

theorem plainLoop_length (f : Nat → Nat → Nat → Nat × Nat) (xs ys : List Nat) :
    ∀ (fuel i c : Nat), (plainLoop f xs ys i fuel c).1.length = fuel := by
  intro fuel
  induction fuel with
  | zero => intro i c; rfl
  | succ fuel ih =>
    intro i c
    show (_ :: (plainLoop f xs ys (i + 1) fuel _).1).length = fuel + 1
    rw [List.length_cons, ih]

theorem take_eq_of_getD {l m : List Nat} {n : Nat} (hl : n ≤ l.length)
    (hm : m.length = n) (h : ∀ k, k < n → l.getD k 0 = m.getD k 0) :
    l.take n = m := by
  apply List.ext_getElem
  · rw [List.length_take]
    omega
  · intro k h1 h2
    have hkn : k < n := by rw [hm] at h2; exact h2
    have hkl : k < l.length := by omega
    have hh := h k hkn
    rw [List.getD_eq_getElem _ _ hkl, List.getD_eq_getElem _ _ (by omega)] at hh
    rw [List.getElem_take]
    exact hh

/-- `rt_int_add` (runtime.c:342-365) executed with `out == a`: the magnitude
loops read the first operand's limbs from the output buffer itself, the
buffer being the original limbs followed by whatever garbage `g` the
non-zeroing `rt_int_reserve` left there, and the final sign assignment
`out->sign = a->sign` reads the aliased (possibly normalized-to-zero)
sign field. -/
def rt_int_addAliasA (a b : rt_int) (g : List Nat) : rt_int :=
  if a.sign = 0 then rt_int_copy b
  else if b.sign = 0 then a
  else if a.sign = b.sign then
    let n := max a.digits.length b.digits.length
    let p := aliasLoopL stepAdd b.digits a.digits.length (a.digits ++ g) 0 n 0
    rt_int_normalizeF ⟨a.sign, p.1.take n ++ if p.2 = 0 then [] else [p.2]⟩
  else
    let c := rt_int_cmp_abs a b
    if c = 0 then ⟨0, []⟩
    else if 0 < c then
      let p := aliasLoopL stepSub b.digits a.digits.length (a.digits ++ g) 0
        a.digits.length 0
      rt_int_normalizeF ⟨a.sign, p.1.take a.digits.length⟩
    else
      let p := aliasLoopR stepSub b.digits a.digits.length (a.digits ++ g) 0
        b.digits.length 0
      ⟨b.sign, trimTop (p.1.take b.digits.length)⟩

/-- `rt_int_sub` (runtime.c:367-372) executed with `out == a`: the local
`b_neg` shares `b`'s limbs, then `rt_int_add` runs with `out == a`. -/
def rt_int_subAliasA (a b : rt_int) (g : List Nat) : rt_int :=
  rt_int_addAliasA a ⟨-b.sign, b.digits⟩ g

/-- Adding in place (`out == a`) produces exactly the same value as adding
into a fresh output, for any garbage contents of the grown buffer. -/
theorem addAliasA_eq {a b : rt_int} (ha : Wf a) (hb : Wf b) (g : List Nat)
    (hg : max a.digits.length b.digits.length ≤ a.digits.length + g.length) :
    rt_int_addAliasA a b g = rt_int_add a b := by
  have hbufagree : ∀ j, 0 ≤ j → j < a.digits.length →
      (a.digits ++ g).getD j 0 = a.digits.getD j 0 :=
    fun j _ hj => List.getD_append _ _ _ _ hj
  have hbuflen : (a.digits ++ g).length = a.digits.length + g.length := by
    rw [List.length_append]
  by_cases hsa : a.sign = 0
  · rw [rt_int_addAliasA, if_pos hsa, rt_int_add, if_pos hsa]
  · rw [rt_int_addAliasA, if_neg hsa, rt_int_add, if_neg hsa]
    by_cases hsb : b.sign = 0
    · rw [if_pos hsb, if_pos hsb, copy_eq_self ha]
    · rw [if_neg hsb, if_neg hsb]
      have hane : a.digits ≠ [] := fun h => hsa (ha.1.2.1.mpr h)
      have hapos : 0 < limbVal a.digits := trimmed_pos ha.1.1 hane
      by_cases hss : a.sign = b.sign
      · rw [if_pos hss, if_pos hss]
        obtain ⟨hc, hlen, hpre, hdig⟩ := aliasLoopL_eq stepAdd b.digits a.digits
          (max a.digits.length b.digits.length) 0 0 (a.digits ++ g)
          (by omega) hbufagree
        have htake : (aliasLoopL stepAdd b.digits a.digits.length
            (a.digits ++ g) 0 (max a.digits.length b.digits.length) 0).1.take
              (max a.digits.length b.digits.length) =
            (plainLoop stepAdd a.digits b.digits 0
              (max a.digits.length b.digits.length) 0).1 := by
          apply take_eq_of_getD (by omega) (plainLoop_length _ _ _ _ _ _)
          intro k hk
          simpa using hdig k hk
        show rt_int_normalizeF ⟨a.sign, _⟩ = _
        rw [htake, hc]
        have hX : addAbsDigits a.digits b.digits =
            trimTop ((plainLoop stepAdd a.digits b.digits 0
              (max a.digits.length b.digits.length) 0).1 ++
              if (plainLoop stepAdd a.digits b.digits 0
                (max a.digits.length b.digits.length) 0).2 = 0 then []
              else [(plainLoop stepAdd a.digits b.digits 0
                (max a.digits.length b.digits.length) 0).2]) := rfl
        obtain ⟨hav, hatr, hab⟩ := addAbsDigits_spec ha.2 hb.2
        have htne : addAbsDigits a.digits b.digits ≠ [] := by
          intro hcon
          rw [hcon, limbVal_nil] at hav
          omega
        rw [rt_int_normalizeF]
        show (⟨if trimTop _ = [] then 0 else a.sign, trimTop _⟩ : rt_int) = _
        rw [← hX, if_neg htne]
      · rw [if_neg hss, if_neg hss]
        have hcval := cmp_abs_spec ha hb
        by_cases hc0 : rt_int_cmp_abs a b = 0
        · rw [if_pos hc0, if_pos hc0]
        · rw [if_neg hc0, if_neg hc0]
          by_cases hcpos : 0 < rt_int_cmp_abs a b
          · rw [if_pos hcpos, if_pos hcpos]
            have hba : absVal b < absVal a := by
              by_cases h1 : absVal a < absVal b
              · rw [hcval, specCmp, if_pos h1] at hcpos
                exact absurd hcpos (by decide)
              · by_cases h2 : absVal b < absVal a
                · exact h2
                · rw [hcval, specCmp, if_neg h1, if_neg h2] at hcpos
                  exact absurd hcpos (by decide)
            have hlenba : b.digits.length ≤ a.digits.length := by
              by_contra hcon
              push_neg at hcon
              rw [rt_int_cmp_abs, if_pos hcon] at hcpos
              exact absurd hcpos (by decide)
            obtain ⟨hc, hlen, hpre, hdig⟩ := aliasLoopL_eq stepSub b.digits
              a.digits a.digits.length 0 0 (a.digits ++ g) (by omega) hbufagree
            have htake : (aliasLoopL stepSub b.digits a.digits.length
                (a.digits ++ g) 0 a.digits.length 0).1.take a.digits.length =
                (plainLoop stepSub a.digits b.digits 0 a.digits.length 0).1 := by
              apply take_eq_of_getD (by omega) (plainLoop_length _ _ _ _ _ _)
              intro k hk
              simpa using hdig k hk
            show rt_int_normalizeF ⟨a.sign, _⟩ = _
            rw [htake]
            obtain ⟨hsv, hstr, hsb2⟩ := subAbsDigits_spec ha.2 hb.2 hlenba
              (le_of_lt hba)
            have hX : subAbsDigits a.digits b.digits =
                trimTop (plainLoop stepSub a.digits b.digits 0
                  a.digits.length 0).1 := rfl
            have htne : subAbsDigits a.digits b.digits ≠ [] := by
              intro hcon
              rw [hcon, limbVal_nil] at hsv
              have hba' : limbVal b.digits < limbVal a.digits := hba
              omega
            rw [rt_int_normalizeF]
            show (⟨if trimTop _ = [] then 0 else a.sign, trimTop _⟩ : rt_int) = _
            rw [← hX, if_neg htne]
          · rw [if_neg hcpos, if_neg hcpos]
            have hlenab : a.digits.length ≤ b.digits.length := by
              by_contra hcon
              push_neg at hcon
              rw [rt_int_cmp_abs, if_neg (by omega), if_pos hcon] at hcpos
              exact absurd (by decide : (0 : Int) < 1) hcpos
            obtain ⟨hc, hlen, hpre, hdig⟩ := aliasLoopR_eq stepSub b.digits
              a.digits b.digits.length 0 0 (a.digits ++ g) (by omega) hbufagree
            have htake : (aliasLoopR stepSub b.digits a.digits.length
                (a.digits ++ g) 0 b.digits.length 0).1.take b.digits.length =
                (plainLoop stepSub b.digits a.digits 0 b.digits.length 0).1 := by
              apply take_eq_of_getD (by omega) (plainLoop_length _ _ _ _ _ _)
              intro k hk
              simpa using hdig k hk
            show (⟨b.sign, trimTop _⟩ : rt_int) = _
            rw [htake]
            rfl

theorem subAliasA_eq {a b : rt_int} (ha : Wf a) (hb : Wf b) (g : List Nat)
    (hg : max a.digits.length b.digits.length ≤ a.digits.length + g.length) :
    rt_int_subAliasA a b g = rt_int_sub a b := by
  rw [rt_int_subAliasA, rt_int_sub]
  by_cases hsb : b.sign = 0
  · rw [if_pos hsb]
    have hbneg : (⟨-b.sign, b.digits⟩ : rt_int).sign = 0 := by
      show -b.sign = 0
      rw [hsb]
      rfl
    by_cases hsa : a.sign = 0
    · rw [rt_int_addAliasA, if_pos hsa]
      have hbd : b.digits = [] := hb.1.2.1.mp hsb
      have had : a.digits = [] := ha.1.2.1.mp hsa
      rw [copy_eq_self ha]
      show rt_int_copy ⟨-b.sign, b.digits⟩ = a
      rw [hsb, hbd]
      show rt_int_copy ⟨0, []⟩ = a
      have : a = ⟨0, []⟩ := by
        cases a with
        | mk s d =>
          simp only at hsa had
          rw [hsa, had]
      rw [this]
      rfl
    · rw [rt_int_addAliasA, if_neg hsa, if_pos hbneg, copy_eq_self ha]
  · have hbneg : (⟨-b.sign, b.digits⟩ : rt_int).sign ≠ 0 := by
      show -b.sign ≠ 0
      intro h
      exact hsb (by omega)
    rw [if_neg hsb]
    exact addAliasA_eq ha (wf_neg_mk hb hsb) g hg

/-- Outer multiplication loop (runtime.c:386-399) when `out == a`: the
factor `ai = a->digits[i]` is read from the output buffer, which the
`memset` of runtime.c:383 has already zeroed. -/
def mulOuterAliasA (bs : List Nat) : Nat → List Nat → Nat → List Nat
  | 0, out, _ => out
  | n + 1, out, i => mulOuterAliasA bs n (mulInner (out.getD i 0) bs out i 0) (i + 1)

/-- Inner multiplication loop (runtime.c:389-393) when `out == b`:
`b->digits[j]` is read from the output buffer. -/
def mulInnerAliasB (ai : Nat) : Nat → List Nat → Nat → Nat → Nat → List Nat
  | 0, out, _, pos, c => mulPropagate out pos c
  | m + 1, out, j, pos, c =>
    let cur := out.getD pos 0 + ai * out.getD j 0 + c
    mulInnerAliasB ai m (out.set pos (cur % B)) (j + 1) (pos + 1) (cur / B)

def mulOuterAliasB (m : Nat) : List Nat → List Nat → Nat → List Nat
  | [], out, _ => out
  | ai :: rest, out, i =>
    mulOuterAliasB m rest (mulInnerAliasB ai m out 0 i 0) (i + 1)

/-- `rt_int_mul` (runtime.c:374-405) executed with `out == a`.  The final
sign `a->sign * b->sign` reads the aliased sign field after
`rt_int_normalize` may have zeroed it. -/
def rt_int_mulAliasA (a b : rt_int) : rt_int :=
  if a.sign = 0 ∨ b.sign = 0 ∨ a.digits = [] ∨ b.digits = [] then ⟨0, []⟩
  else
    let d := mulOuterAliasA b.digits a.digits.length
      (List.replicate (a.digits.length + b.digits.length) 0) 0
    ⟨(if trimTop d = [] then 0 else a.sign) * b.sign, trimTop d⟩

/-- `rt_int_mul` executed with `out == b`. -/
def rt_int_mulAliasB (a b : rt_int) : rt_int :=
  if a.sign = 0 ∨ b.sign = 0 ∨ a.digits = [] ∨ b.digits = [] then ⟨0, []⟩
  else
    let d := mulOuterAliasB b.digits.length a.digits
      (List.replicate (a.digits.length + b.digits.length) 0) 0
    ⟨a.sign * (if trimTop d = [] then 0 else b.sign), trimTop d⟩

def AllZ (l : List Nat) : Prop := ∀ j, l.getD j 0 = 0

theorem allZ_replicate (n : Nat) : AllZ (List.replicate n 0) := by
  intro j
  rcases Nat.lt_or_ge j n with h | h
  · rw [List.getD_eq_getElem _ _ (by simpa using h)]
    simp
  · rw [List.getD_eq_default _ _ (by simpa using h)]

theorem allZ_set {l : List Nat} (h : AllZ l) (p : Nat) : AllZ (l.set p 0) := by
  intro j
  by_cases hj : p = j
  · subst hj
    rcases Nat.lt_or_ge p l.length with hp | hp
    · rw [getD_set_self hp]
    · rw [List.getD_eq_default _ _ (by simpa using hp)]
  · rw [getD_set_ne hj]
    exact h j

theorem allZ_limbVal {l : List Nat} (h : AllZ l) : limbVal l = 0 := by
  induction l with
  | nil => rfl
  | cons d t ih =>
    have hd : d = 0 := h 0
    have ht : AllZ t := fun j => h (j + 1)
    rw [limbVal_cons, hd, ih ht]
    simp

theorem mulPropagate_zero (out : List Nat) (pos : Nat) :
    mulPropagate out pos 0 = out := by
  rw [mulPropagate]
  simp

theorem mulInner_allZ : ∀ (bs out : List Nat) (pos : Nat), AllZ out →
    AllZ (mulInner 0 bs out pos 0) := by
  intro bs
  induction bs with
  | nil =>
    intro out pos h
    show AllZ (mulPropagate out pos 0)
    rw [mulPropagate_zero]
    exact h
  | cons bj rest ih =>
    intro out pos h
    have hcur : out.getD pos 0 + 0 * bj + 0 = 0 := by
      rw [h pos]
      simp
    have heq : mulInner 0 (bj :: rest) out pos 0 =
        mulInner 0 rest (out.set pos 0) (pos + 1) 0 := by
      show mulInner 0 rest (out.set pos ((out.getD pos 0 + 0 * bj + 0) % B))
          (pos + 1) ((out.getD pos 0 + 0 * bj + 0) / B) = _
      rw [hcur]
      norm_num
    rw [heq]
    exact ih (out.set pos 0) (pos + 1) (allZ_set h pos)

theorem mulOuterAliasA_allZ (bs : List Nat) : ∀ (n : Nat) (out : List Nat)
    (i : Nat), AllZ out → AllZ (mulOuterAliasA bs n out i) := by
  intro n
  induction n with
  | zero => intro out i h; exact h
  | succ n ih =>
    intro out i h
    show AllZ (mulOuterAliasA bs n (mulInner (out.getD i 0) bs out i 0) (i + 1))
    rw [h i]
    exact ih _ (i + 1) (mulInner_allZ bs out i h)

theorem mulInnerAliasB_allZ (ai : Nat) : ∀ (m : Nat) (out : List Nat)
    (j pos : Nat), AllZ out → AllZ (mulInnerAliasB ai m out j pos 0) := by
  intro m
  induction m with
  | zero =>
    intro out j pos h
    show AllZ (mulPropagate out pos 0)
    rw [mulPropagate_zero]
    exact h
  | succ m ih =>
    intro out j pos h
    have hcur : out.getD pos 0 + ai * out.getD j 0 + 0 = 0 := by
      rw [h pos, h j]
      ring
    have heq : mulInnerAliasB ai (m + 1) out j pos 0 =
        mulInnerAliasB ai m (out.set pos 0) (j + 1) (pos + 1) 0 := by
      show mulInnerAliasB ai m
          (out.set pos ((out.getD pos 0 + ai * out.getD j 0 + 0) % B))
          (j + 1) (pos + 1) ((out.getD pos 0 + ai * out.getD j 0 + 0) / B) = _
      rw [hcur]
      norm_num
    rw [heq]
    exact ih (out.set pos 0) (j + 1) (pos + 1) (allZ_set h pos)

theorem mulOuterAliasB_allZ (m : Nat) : ∀ (asl out : List Nat) (i : Nat),
    AllZ out → AllZ (mulOuterAliasB m asl out i) := by
  intro asl
  induction asl with
  | nil => intro out i h; exact h
  | cons ai rest ih =>
    intro out i h
    show AllZ (mulOuterAliasB m rest (mulInnerAliasB ai m out 0 i 0) (i + 1))
    exact ih _ (i + 1) (mulInnerAliasB_allZ ai m out 0 i h)

/-- Multiplying in place (`out == a`) always yields canonical zero: the
`memset` zeroes the shared buffer before any limb of `a` is read. -/
theorem mulAliasA_zero (a b : rt_int) : rt_int_mulAliasA a b = ⟨0, []⟩ := by
  rw [rt_int_mulAliasA]
  by_cases h : a.sign = 0 ∨ b.sign = 0 ∨ a.digits = [] ∨ b.digits = []
  · rw [if_pos h]
  · rw [if_neg h]
    have hz : AllZ (mulOuterAliasA b.digits a.digits.length
        (List.replicate (a.digits.length + b.digits.length) 0) 0) :=
      mulOuterAliasA_allZ b.digits a.digits.length _ 0
        (allZ_replicate _)
    have ht : trimTop (mulOuterAliasA b.digits a.digits.length
        (List.replicate (a.digits.length + b.digits.length) 0) 0) = [] :=
      trimTop_eq_nil_iff.mpr (allZ_limbVal hz)
    simp only [ht]
    simp

/-- Multiplying in place (`out == b`) always yields canonical zero. -/
theorem mulAliasB_zero (a b : rt_int) : rt_int_mulAliasB a b = ⟨0, []⟩ := by
  rw [rt_int_mulAliasB]
  by_cases h : a.sign = 0 ∨ b.sign = 0 ∨ a.digits = [] ∨ b.digits = []
  · rw [if_pos h]
  · rw [if_neg h]
    have hz : AllZ (mulOuterAliasB b.digits.length a.digits
        (List.replicate (a.digits.length + b.digits.length) 0) 0) :=
      mulOuterAliasB_allZ b.digits.length a.digits _ 0 (allZ_replicate _)
    have ht : trimTop (mulOuterAliasB b.digits.length a.digits
        (List.replicate (a.digits.length + b.digits.length) 0) 0) = [] :=
      trimTop_eq_nil_iff.mpr (allZ_limbVal hz)
    simp only [ht]
    simp

/-! ## The limited engine of `src/runtime/rt_bigint.c`

Models of the second implementation, namespaced `bigint`.  Errors are
`none`; `RT_OK` results are `some`.  Its `rt_int_add` (rt_bigint.c:269-338)
runs the same schoolbook magnitude loops as runtime.c — digit-for-digit the
computation of `addAbsDigits`/`subAbsDigits`, including the final
`rt_int_normalize` trim — so those shared helpers embed its loops; the
zero tests are its `rt_int_is_zero` (`sign == 0 || len == 0`). -/

namespace bigint

def rt_int_add (a b : rt_int) : rt_int :=
  if a.sign = 0 ∨ a.digits = [] then rt_int_copy b
  else if b.sign = 0 ∨ b.digits = [] then rt_int_copy a
  else if a.sign = b.sign then
    rt_int_normalizeF ⟨a.sign, addAbsDigits a.digits b.digits⟩
  else
    let c := rt_int_cmp_abs a b
    if c < 0 then rt_int_normalizeF ⟨b.sign, subAbsDigits b.digits a.digits⟩
    else if c = 0 then ⟨0, []⟩
    else rt_int_normalizeF ⟨a.sign, subAbsDigits a.digits b.digits⟩

/-- rt_bigint.c:340-351: `a - b = a + (-b)`. -/
def rt_int_sub (a b : rt_int) : rt_int := rt_int_add a ⟨-b.sign, b.digits⟩

/-- The per-limb loop of the single-digit divisor fast path
(rt_bigint.c:438-446), walking the dividend limbs most significant first:
`dividend = rem * BASE + digit; q_digit = dividend / divisor;
rem = dividend % divisor`. -/
def divSmallGo (dvr : Nat) : List Nat → Nat → List Nat × Nat
  | [], rem => ([], rem)
  | d :: ds, rem =>
    let dividend := rem * B + d
    let p := divSmallGo dvr ds (dividend % dvr)
    (dividend / dvr :: p.1, p.2)

/-- `rt_int_divmod` (rt_bigint.c:406-483) with both `q` and `r` requested:
zero divisor errors, a zero dividend returns `(0, 0)` before the divisor
width is examined, a single-limb divisor takes the fast path with the
Python-style floor adjustment, and any wider divisor is rejected
(`RT_ERROR_INVALID`, "Complex division not yet implemented"). -/
def rt_int_divmod (a b : rt_int) : Option (rt_int × rt_int) :=
  if b.sign = 0 ∨ b.digits = [] then none
  else if a.sign = 0 ∨ a.digits = [] then some (⟨0, []⟩, ⟨0, []⟩)
  else if b.digits.length = 1 ∧ b.digits.headD 0 < B then
    let dvr := b.digits.headD 0
    let p := divSmallGo dvr a.digits.reverse 0
    let q := rt_int_normalizeF ⟨a.sign * b.sign, p.1.reverse⟩
    let rem := p.2
    let r : rt_int := if rem = 0 then ⟨0, []⟩ else ⟨a.sign, natToLimbs rem⟩
    if rem ≠ 0 ∧ a.sign ≠ b.sign then
      some (rt_int_sub q (rt_int_set_si 1), rt_int_add r b)
    else some (q, r)
  else none

/-- `rt_int_to_si_checked` (rt_bigint.c:206-237): the width screen rejects
any value of three or more limbs before the magnitude is even computed; the
accumulation `val = val * BASE + digits[i]` (most significant first) stays
below `BASE^2 = 10^18 < 2^64`, so `uint64_t` arithmetic is exact. -/
def rt_int_to_si_checked (a : rt_int) : Option Int :=
  if a.sign = 0 then some 0
  else if 2 < a.digits.length then none
  else
    let v := a.digits.reverse.foldl (fun acc d => acc * B + d) 0
    if 0 < a.sign ∧ I64MAX < v then none
    else if a.sign < 0 ∧ I64MAX + 1 < v then none
    else some (if 0 < a.sign then (v : Int) else -(v : Int))

/-- `rt_int_from_dec` (rt_bigint.c:139-204): skips only spaces and tabs,
then an optional sign, then all leading `'0'`s; end-of-string at that point
(covers `""`, `"+"`, `"-000"`) is accepted as zero; otherwise at least one
decimal digit must follow, the digit run is processed by the
multiply-by-10-and-add carry loop (rt_bigint.c:184-200, the `mulSmallGo`
computation with the digit as incoming carry, fresh cells read as the
zeroes `rt_int_ensure_cap` wrote), and anything after the digit run is
ignored. -/
def rt_int_from_dec (dec : List Char) : Option rt_int :=
  let s1 := dec.dropWhile (fun c => c == ' ' || c == '\t')
  let c0 := s1.headD (Char.ofNat 0)
  let sign : Int := if c0 = '-' then -1 else 1
  let s1b := if c0 = '-' ∨ c0 = '+' then s1.tail else s1
  let s2 := s1b.dropWhile (fun c => c == '0')
  if s2 = [] then some ⟨0, []⟩
  else
    let ds := s2.takeWhile (fun c => decide (48 ≤ c.toNat) && decide (c.toNat ≤ 57))
    if ds = [] then none
    else
      some (rt_int_normalizeF
        ⟨sign, ds.foldl (fun l c => mulSmallGo 10 l (c.toNat - 48)) []⟩)

end bigint

theorem normalizeF_spec {s : Int} (hs : s = 1 ∨ s = -1) {l : List Nat}
    (hb : Bounded l) :
    Wf (rt_int_normalizeF ⟨s, l⟩) ∧
      val (rt_int_normalizeF ⟨s, l⟩) = s * (limbVal l : Int) := by
  have hsne : s ≠ 0 := by rcases hs with h | h <;> rw [h] <;> decide
  have hnf : rt_int_normalizeF ⟨s, l⟩ =
      ⟨if trimTop l = [] then 0 else s, trimTop l⟩ := rfl
  rw [hnf]
  by_cases ht : trimTop l = []
  · have hl0 : limbVal l = 0 := trimTop_eq_nil_iff.mp ht
    rw [if_pos ht, ht]
    refine ⟨⟨⟨?_, ?_, ?_⟩, ?_⟩, ?_⟩
    · intro hc
      simp at hc
    · simp
    · exact Or.inl rfl
    · intro x hx
      simp at hx
    · rw [val, hl0]
      simp [absVal]
  · rw [if_neg ht]
    refine ⟨⟨⟨trimmed_trimTop l, ?_, ?_⟩, bounded_trimTop hb⟩, ?_⟩
    · constructor
      · intro hc
        exact absurd hc hsne
      · intro hc
        exact absurd hc ht
    · rcases hs with h | h
      · exact Or.inr (Or.inl h)
      · exact Or.inr (Or.inr h)
    · rw [val]
      show s * (limbVal (trimTop l) : Int) = _
      rw [limbVal_trimTop]

theorem bigint_add_spec {a b : rt_int} (ha : Wf a) (hb : Wf b) :
    val (bigint.rt_int_add a b) = val a + val b ∧ Wf (bigint.rt_int_add a b) := by
  rw [bigint.rt_int_add]
  by_cases hza : a.sign = 0 ∨ a.digits = []
  · have hsa : a.sign = 0 := by
      rcases hza with h | h
      · exact h
      · exact ha.1.2.1.mpr h
    rw [if_pos hza, copy_eq_self hb]
    refine ⟨?_, hb⟩
    have hva : val a = 0 := by
      rw [val, hsa]
      norm_num
    rw [hva, zero_add]
  · rw [if_neg hza]
    push_neg at hza
    obtain ⟨hsa, hda⟩ := hza
    by_cases hzb : b.sign = 0 ∨ b.digits = []
    · have hsb : b.sign = 0 := by
        rcases hzb with h | h
        · exact h
        · exact hb.1.2.1.mpr h
      rw [if_pos hzb, copy_eq_self ha]
      refine ⟨?_, ha⟩
      have hvb : val b = 0 := by
        rw [val, hsb]
        norm_num
      rw [hvb, add_zero]
    · rw [if_neg hzb]
      push_neg at hzb
      obtain ⟨hsb, hdb⟩ := hzb
      have hsa1 := sign_cases ha hsa
      have hsb1 := sign_cases hb hsb
      by_cases hss : a.sign = b.sign
      · rw [if_pos hss]
        obtain ⟨hav, hatr, hab⟩ := addAbsDigits_spec ha.2 hb.2
        have hsgn : a.sign = 1 ∨ a.sign = -1 := hsa1
        obtain ⟨hwf, hval⟩ := normalizeF_spec hsgn hab
        refine ⟨?_, hwf⟩
        rw [hval, hav, val, val, ← hss]
        simp only [absVal]
        push_cast
        ring
      · have hcmp := cmp_abs_spec ha hb
        have hsbneg : b.sign = -a.sign := by
          rcases hsa1 with h1 | h1 <;> rcases hsb1 with h2 | h2 <;>
            rw [h1, h2] <;> first | rfl | (exact absurd (h1.trans h2.symm) hss)
        rw [if_neg hss]
        by_cases hlt : rt_int_cmp_abs a b < 0
        · rw [if_pos hlt]
          have hba : absVal a < absVal b := by
            by_contra hcon
            push_neg at hcon
            rcases lt_or_eq_of_le hcon with h | h
            · rw [hcmp, specCmp, if_neg (by omega), if_pos h] at hlt
              exact absurd hlt (by decide)
            · rw [hcmp, specCmp, if_neg (by omega), if_neg (by omega)] at hlt
              exact absurd hlt (by decide)
          have hlen : a.digits.length ≤ b.digits.length := by
            by_contra hcon
            push_neg at hcon
            rw [rt_int_cmp_abs, if_neg (by omega), if_pos hcon] at hlt
            exact absurd hlt (by decide)
          obtain ⟨hsv, hstr, hsb2⟩ := subAbsDigits_spec hb.2 ha.2 hlen
            (le_of_lt hba)
          obtain ⟨hwf, hval⟩ := normalizeF_spec hsb1 hsb2
          refine ⟨?_, hwf⟩
          rw [hval, hsv, val, val, hsbneg]
          have h1 : (absVal a : Int) ≤ (absVal b : Int) := by
            exact_mod_cast le_of_lt hba
          have h2 : ((limbVal b.digits - limbVal a.digits : Nat) : Int) =
              (absVal b : Int) - (absVal a : Int) := by
            have : limbVal a.digits ≤ limbVal b.digits := hba.le
            push_cast [this]
            rfl
          rw [h2]
          ring
        · rw [if_neg hlt]
          by_cases heq : rt_int_cmp_abs a b = 0
          · rw [if_pos heq]
            have hvv : absVal a = absVal b := by
              by_cases h1 : absVal a < absVal b
              · rw [hcmp, specCmp, if_pos h1] at heq
                exact absurd heq (by decide)
              · by_cases h2 : absVal b < absVal a
                · rw [hcmp, specCmp, if_neg h1, if_pos h2] at heq
                  exact absurd heq (by decide)
                · omega
            refine ⟨?_, by decide⟩
            have hlhs : val (⟨0, []⟩ : rt_int) = 0 := by decide
            rw [hlhs, val, val, hsbneg, hvv]
            ring
          · rw [if_neg heq]
            have hba : absVal b < absVal a := by
              by_cases h1 : absVal a < absVal b
              · rw [hcmp, specCmp, if_pos h1] at hlt
                exact absurd (by decide : (-1 : Int) < 0) hlt
              · by_cases h2 : absVal b < absVal a
                · exact h2
                · rw [hcmp, specCmp, if_neg h1, if_neg h2] at heq
                  exact absurd rfl heq
            have hlen : b.digits.length ≤ a.digits.length := by
              by_contra hcon
              push_neg at hcon
              rw [rt_int_cmp_abs, if_pos hcon] at hlt
              exact absurd (by decide : (-1 : Int) < 0) hlt
            obtain ⟨hsv, hstr, hsb2⟩ := subAbsDigits_spec ha.2 hb.2 hlen
              (le_of_lt hba)
            obtain ⟨hwf, hval⟩ := normalizeF_spec hsa1 hsb2
            refine ⟨?_, hwf⟩
            rw [hval, hsv, val, val, hsbneg]
            have h2 : ((limbVal a.digits - limbVal b.digits : Nat) : Int) =
                (absVal a : Int) - (absVal b : Int) := by
              have : limbVal b.digits ≤ limbVal a.digits := hba.le
              push_cast [this]
              rfl
            rw [h2]
            ring

theorem bigint_sub_spec {a b : rt_int} (ha : Wf a) (hb : Wf b) :
    val (bigint.rt_int_sub a b) = val a - val b ∧ Wf (bigint.rt_int_sub a b) := by
  rw [bigint.rt_int_sub]
  by_cases hsb : b.sign = 0
  · have hdb : b.digits = [] := hb.1.2.1.mp hsb
    have hwfn : Wf (⟨-b.sign, b.digits⟩ : rt_int) := by
      rw [hsb, hdb]
      decide
    obtain ⟨hv, hw⟩ := bigint_add_spec ha hwfn
    refine ⟨?_, hw⟩
    rw [hv, val_neg_mk]
    ring
  · obtain ⟨hv, hw⟩ := bigint_add_spec ha (wf_neg_mk hb hsb)
    refine ⟨?_, hw⟩
    rw [hv, val_neg_mk]
    ring

theorem divSmallGo_spec {dvr : Nat} (hdvr : 0 < dvr) (hdB : dvr < B) :
    ∀ (ms : List Nat) (rem : Nat), rem < dvr → Bounded ms →
    limbVal (bigint.divSmallGo dvr ms rem).1.reverse * dvr +
        (bigint.divSmallGo dvr ms rem).2 =
      rem * B ^ ms.length + limbVal ms.reverse ∧
      (bigint.divSmallGo dvr ms rem).2 < dvr ∧
      Bounded (bigint.divSmallGo dvr ms rem).1 ∧
      (bigint.divSmallGo dvr ms rem).1.length = ms.length := by
  intro ms
  induction ms with
  | nil =>
    intro rem hrem _
    exact ⟨by simp [bigint.divSmallGo, limbVal_nil], hrem, by
      intro x hx
      simp [bigint.divSmallGo] at hx, rfl⟩
  | cons d ds ih =>
    intro rem hrem hb
    have hd : d < B := hb d (by simp)
    have hbds : Bounded ds := fun x hx => hb x (List.mem_cons_of_mem d hx)
    have hrem' : (rem * B + d) % dvr < dvr := Nat.mod_lt _ hdvr
    obtain ⟨ihv, ihr, ihb, ihl⟩ := ih ((rem * B + d) % dvr) hrem' hbds
    have hstep : bigint.divSmallGo dvr (d :: ds) rem =
        ((rem * B + d) / dvr ::
          (bigint.divSmallGo dvr ds ((rem * B + d) % dvr)).1,
          (bigint.divSmallGo dvr ds ((rem * B + d) % dvr)).2) := rfl
    rw [hstep]
    have hqd : (rem * B + d) / dvr < B := by
      have h1 : rem * B + d < dvr * B := by
        have : rem + 1 ≤ dvr := hrem
        calc rem * B + d < rem * B + B := by omega
          _ = (rem + 1) * B := by ring
          _ ≤ dvr * B := Nat.mul_le_mul_right _ this
      have h2 : rem * B + d < B * dvr := by
        rw [Nat.mul_comm B dvr]
        exact h1
      exact (Nat.div_lt_iff_lt_mul hdvr).mpr h2
    refine ⟨?_, ihr, ?_, ?_⟩
    · rw [List.reverse_cons, limbVal_append, limbVal_cons, limbVal_nil,
        List.length_reverse, ihl, List.reverse_cons, limbVal_append,
        List.length_reverse]
      have hdm := Nat.div_add_mod (rem * B + d) dvr
      calc (limbVal (bigint.divSmallGo dvr ds ((rem * B + d) % dvr)).1.reverse +
            B ^ ds.length * ((rem * B + d) / dvr + B * 0)) * dvr +
            (bigint.divSmallGo dvr ds ((rem * B + d) % dvr)).2
          = (limbVal (bigint.divSmallGo dvr ds
              ((rem * B + d) % dvr)).1.reverse * dvr +
            (bigint.divSmallGo dvr ds ((rem * B + d) % dvr)).2) +
            B ^ ds.length * (((rem * B + d) / dvr) * dvr) := by ring
        _ = ((rem * B + d) % dvr) * B ^ ds.length + limbVal ds.reverse +
            B ^ ds.length * (((rem * B + d) / dvr) * dvr) := by rw [ihv]
        _ = B ^ ds.length * (dvr * ((rem * B + d) / dvr) +
              (rem * B + d) % dvr) + limbVal ds.reverse := by ring
        _ = B ^ ds.length * (rem * B + d) + limbVal ds.reverse := by
            rw [hdm]
        _ = rem * B ^ (d :: ds).length + (limbVal ds.reverse +
              B ^ ds.length * (d + B * 0)) := by
            rw [List.length_cons, pow_succ]
            ring
    · intro x hx
      rcases List.mem_cons.mp hx with rfl | hx
      · exact hqd
      · exact ihb x hx
    · rw [List.length_cons, List.length_cons, ihl]

theorem wf_zero_pair : Wf (⟨0, []⟩ : rt_int) := by decide

theorem bigint_divmod_single {a b : rt_int} (ha : Wf a) (hb : Wf b)
    (hbz : b.sign ≠ 0) (hlen1 : b.digits.length = 1) :
    bigint.rt_int_divmod a b = some (rt_int_divmodCore a b) := by
  obtain ⟨dvr, hbd⟩ : ∃ d, b.digits = [d] := by
    cases hbdig : b.digits with
    | nil =>
      rw [hbdig] at hlen1
      simp at hlen1
    | cons d t =>
      rw [hbdig] at hlen1
      simp at hlen1
      exact ⟨d, by rw [hlen1]⟩
  have hdvrne : dvr ≠ 0 := by
    intro h
    apply hb.1.1
    rw [hbd, h]
    rfl
  have hdvrB : dvr < B := hb.2 dvr (by rw [hbd]; simp)
  have hdvrpos : 0 < dvr := Nat.pos_of_ne_zero hdvrne
  have habsb : absVal b = dvr := by
    rw [absVal, hbd, limbVal_cons, limbVal_nil]
    omega
  have hvb : val b = b.sign * (dvr : Int) := by rw [val, habsb]
  have hbne : ¬(b.sign = 0 ∨ b.digits = []) := by
    push_neg
    exact ⟨hbz, fun h => hbz (hb.1.2.1.mpr h)⟩
  have hsb1 : b.sign = 1 ∨ b.sign = -1 := sign_cases hb hbz
  have hvbne : val b ≠ 0 := by
    intro hc
    rw [hvb] at hc
    rcases hsb1 with h | h <;> rw [h] at hc <;> omega
  obtain ⟨hq1, hr1, hwq1, hwr1⟩ := divmodCore_spec ha hb hbz
  rw [bigint.rt_int_divmod, if_neg hbne]
  by_cases hza : a.sign = 0 ∨ a.digits = []
  · rw [if_pos hza]
    have hsa0 : a.sign = 0 := by
      rcases hza with h | h
      · exact h
      · exact ha.1.2.1.mpr h
    have hva : val a = 0 := by
      rw [val, hsa0]
      norm_num
    have hfd : fdivI 0 (val b) = 0 := by
      rw [fdivI, if_pos (Or.inr (Int.zero_emod _))]
      exact Int.zero_ediv _
    have hfm : fmodI 0 (val b) = 0 := by
      rw [fmodI, hfd]
      ring
    have hqz : (rt_int_divmodCore a b).1 = ⟨0, []⟩ := by
      apply val_injective hwq1 wf_zero_pair
      rw [hq1, hva, hfd]
      decide
    have hrz : (rt_int_divmodCore a b).2 = ⟨0, []⟩ := by
      apply val_injective hwr1 wf_zero_pair
      rw [hr1, hva, hfm]
      decide
    have hpair : rt_int_divmodCore a b = (⟨0, []⟩, ⟨0, []⟩) := by
      rw [Prod.ext_iff]
      exact ⟨hqz, hrz⟩
    rw [hpair]
  · rw [if_neg hza]
    push_neg at hza
    obtain ⟨hsa, hda⟩ := hza
    have hsa1 : a.sign = 1 ∨ a.sign = -1 := sign_cases ha hsa
    have hguard : b.digits.length = 1 ∧ b.digits.headD 0 < B := by
      refine ⟨hlen1, ?_⟩
      rw [hbd]
      simpa using hdvrB
    rw [if_pos hguard]
    simp only [hbd, List.headD_cons]
    have hbrev : Bounded a.digits.reverse :=
      fun x hx => ha.2 x (List.mem_reverse.mp hx)
    obtain ⟨hid, hremf, hbp, hlp⟩ :=
      divSmallGo_spec hdvrpos hdvrB a.digits.reverse 0 hdvrpos hbrev
    rw [List.reverse_reverse] at hid
    have hidA : limbVal (bigint.divSmallGo dvr a.digits.reverse 0).1.reverse *
        dvr + (bigint.divSmallGo dvr a.digits.reverse 0).2 = absVal a := by
      rw [hid]
      simp [absVal]
    set qv := limbVal (bigint.divSmallGo dvr a.digits.reverse 0).1.reverse
      with hqv
    set remf := (bigint.divSmallGo dvr a.digits.reverse 0).2 with hremfd
    have hbprev : Bounded (bigint.divSmallGo dvr a.digits.reverse 0).1.reverse :=
      fun x hx => hbp x (List.mem_reverse.mp hx)
    have hss1 : a.sign * b.sign = 1 ∨ a.sign * b.sign = -1 := by
      rcases hsa1 with h1 | h1 <;> rcases hsb1 with h2 | h2 <;>
        rw [h1, h2] <;> norm_num
    obtain ⟨hwq0, hvq0⟩ := normalizeF_spec hss1 hbprev
    have hidZ : (qv : Int) * dvr + remf = (absVal a : Int) := by
      exact_mod_cast hidA
    have hva : val a = a.sign * ((qv : Int) * dvr + remf) := by
      rw [val, hidZ]
    by_cases hadj : remf ≠ 0 ∧ a.sign ≠ b.sign
    · rw [if_pos hadj]
      obtain ⟨hrne, hsne⟩ := hadj
      have hsbneg : b.sign = -a.sign := by
        rcases hsa1 with h1 | h1 <;> rcases hsb1 with h2 | h2 <;>
          rw [h1, h2] <;> first
            | rfl
            | (exfalso; exact hsne (h1.trans h2.symm))
      have hr0if : (if remf = 0 then (⟨0, []⟩ : rt_int)
          else ⟨a.sign, natToLimbs remf⟩) = ⟨a.sign, natToLimbs remf⟩ := by
        rw [if_neg hrne]
      rw [hr0if]
      have hwr0 : Wf (⟨a.sign, natToLimbs remf⟩ : rt_int) := by
        refine ⟨⟨trimmed_natToLimbs remf, ?_, ?_⟩, bounded_natToLimbs remf⟩
        · constructor
          · intro h
            exact absurd h hsa
          · intro h
            have hcc' : natToLimbs remf = [] := h
            have := limbVal_natToLimbs remf
            rw [hcc', limbVal_nil] at this
            exact absurd this.symm hrne
        · rcases hsa1 with h | h
          · exact Or.inr (Or.inl h)
          · exact Or.inr (Or.inr h)
      have hvr0 : val (⟨a.sign, natToLimbs remf⟩ : rt_int) =
          a.sign * (remf : Int) := by
        rw [val]
        show a.sign * (limbVal (natToLimbs remf) : Int) = _
        rw [limbVal_natToLimbs]
      obtain ⟨hvq2, hwq2⟩ := bigint_sub_spec hwq0 (wf_set_si 1)
      obtain ⟨hvr2, hwr2⟩ := bigint_add_spec hwr0 hb
      have hssneg : a.sign * b.sign = -1 := by
        rcases hsa1 with h1 | h1 <;> rw [h1, hsbneg, h1] <;> norm_num
      have hvq2e : val (bigint.rt_int_sub
          (rt_int_normalizeF ⟨a.sign * b.sign,
            (bigint.divSmallGo dvr a.digits.reverse 0).1.reverse⟩)
          (rt_int_set_si 1)) = -(qv : Int) - 1 := by
        rw [hvq2, hvq0, val_set_si, hssneg]
        ring
      have hvr2e : val (bigint.rt_int_add (⟨a.sign, natToLimbs remf⟩ : rt_int)
          b) = b.sign * ((dvr : Int) - remf) := by
        rw [hvr2, hvr0, hvb, hsbneg]
        ring
      have hident : val a = (-(qv : Int) - 1) * val b +
          b.sign * ((dvr : Int) - remf) := by
        rw [hva, hvb, hsbneg]
        ring
      have hrpos : (0 : Int) < (dvr : Int) - remf := by
        have h1 : remf < dvr := hremf
        omega
      have hrlt : (dvr : Int) - remf < dvr := by
        have h1 : remf ≠ 0 := hrne
        omega
      have hranges : (0 < val b → 0 ≤ b.sign * ((dvr : Int) - remf) ∧
            b.sign * ((dvr : Int) - remf) < val b) ∧
          (val b < 0 → val b < b.sign * ((dvr : Int) - remf) ∧
            b.sign * ((dvr : Int) - remf) ≤ 0) := by
        rcases hsb1 with h | h <;> rw [hvb, h] <;> constructor <;> intro hc <;>
          constructor <;> omega
      obtain ⟨hqe, hre⟩ := fdiv_fmod_unique (a := val a) (b := val b) hvbne
        hident hranges
      have hqeq : bigint.rt_int_sub
          (rt_int_normalizeF ⟨a.sign * b.sign,
            (bigint.divSmallGo dvr a.digits.reverse 0).1.reverse⟩)
          (rt_int_set_si 1) = (rt_int_divmodCore a b).1 := by
        apply val_injective hwq2 hwq1
        rw [hvq2e, hq1, ← hqe]
      have hreq : bigint.rt_int_add (⟨a.sign, natToLimbs remf⟩ : rt_int) b =
          (rt_int_divmodCore a b).2 := by
        apply val_injective hwr2 hwr1
        rw [hvr2e, hr1, ← hre]
      rw [hqeq, hreq]
    · rw [if_neg hadj]
      push_neg at hadj
      have hvr0 : val (if remf = 0 then (⟨0, []⟩ : rt_int)
          else ⟨a.sign, natToLimbs remf⟩) =
          (if remf = 0 then 0 else a.sign * (remf : Int)) := by
        by_cases h : remf = 0
        · rw [if_pos h, if_pos h]
          decide
        · rw [if_neg h, if_neg h, val]
          show a.sign * (limbVal (natToLimbs remf) : Int) = _
          rw [limbVal_natToLimbs]
      have hwr0 : Wf (if remf = 0 then (⟨0, []⟩ : rt_int)
          else ⟨a.sign, natToLimbs remf⟩) := by
        by_cases h : remf = 0
        · rw [if_pos h]
          exact wf_zero_pair
        · rw [if_neg h]
          refine ⟨⟨trimmed_natToLimbs remf, ?_, ?_⟩, bounded_natToLimbs remf⟩
          · constructor
            · intro hcc
              exact absurd hcc hsa
            · intro hcc
              have hcc' : natToLimbs remf = [] := hcc
              have := limbVal_natToLimbs remf
              rw [hcc', limbVal_nil] at this
              exact absurd this.symm h
          · rcases hsa1 with hh | hh
            · exact Or.inr (Or.inl hh)
            · exact Or.inr (Or.inr hh)
      have hident : val a =
          (a.sign * b.sign * (qv : Int)) * val b +
            (if remf = 0 then 0 else a.sign * (remf : Int)) := by
        by_cases h : remf = 0
        · rw [if_pos h, hva, hvb, h]
          rcases hsa1 with h1 | h1 <;> rcases hsb1 with h2 | h2 <;>
            rw [h1, h2] <;> push_cast <;> ring
        · have hseq : a.sign = b.sign := hadj h
          rw [if_neg h, hva, hvb, ← hseq]
          rcases hsa1 with h1 | h1 <;> rw [h1] <;> push_cast <;> ring
      have hranges : (0 < val b →
            0 ≤ (if remf = 0 then 0 else a.sign * (remf : Int)) ∧
            (if remf = 0 then 0 else a.sign * (remf : Int)) < val b) ∧
          (val b < 0 →
            val b < (if remf = 0 then 0 else a.sign * (remf : Int)) ∧
            (if remf = 0 then 0 else a.sign * (remf : Int)) ≤ 0) := by
        by_cases h : remf = 0
        · rw [if_pos h]
          constructor <;> intro hc <;> constructor <;> omega
        · have hseq : a.sign = b.sign := hadj h
          rw [if_neg h]
          have hrelt : (remf : Int) < dvr := by exact_mod_cast hremf
          have hrene : (remf : Int) ≠ 0 := by exact_mod_cast h
          rcases hsb1 with hh | hh <;> rw [hseq, hh, hvb, hh] <;>
            constructor <;> intro hc <;> constructor <;> omega
      obtain ⟨hqe, hre⟩ := fdiv_fmod_unique (a := val a) (b := val b) hvbne
        hident hranges
      have hqeq : rt_int_normalizeF ⟨a.sign * b.sign,
          (bigint.divSmallGo dvr a.digits.reverse 0).1.reverse⟩ =
          (rt_int_divmodCore a b).1 := by
        apply val_injective hwq0 hwq1
        rw [hvq0, hq1, ← hqe]
      have hreq : (if remf = 0 then (⟨0, []⟩ : rt_int)
          else ⟨a.sign, natToLimbs remf⟩) = (rt_int_divmodCore a b).2 := by
        apply val_injective hwr0 hwr1
        rw [hvr0, hr1, ← hre]
      rw [hqeq, hreq]

theorem bigint_divmod_multi {a b : rt_int} (ha : Wf a) (hb : Wf b)
    (hbz : b.sign ≠ 0) (hlen : 2 ≤ b.digits.length) (hsa : a.sign ≠ 0) :
    bigint.rt_int_divmod a b = none := by
  rw [bigint.rt_int_divmod,
    if_neg (by push_neg; exact ⟨hbz, fun h => hbz (hb.1.2.1.mpr h)⟩),
    if_neg (by push_neg; exact ⟨hsa, fun h => hsa (ha.1.2.1.mpr h)⟩),
    if_neg (by intro h; omega)]

theorem fromDecLoop_bounded : ∀ (cs : List Char) (x : rt_int), x.sign = 1 →
    Bounded x.digits → ∀ y, fromDecLoop x cs = some y →
    y.sign = 1 ∧ Bounded y.digits := by
  intro cs
  induction cs with
  | nil =>
    intro x hs hb y hy
    injection hy with h
    subst h
    exact ⟨hs, hb⟩
  | cons c cs ih =>
    intro x hs hb y hy
    have heq : fromDecLoop x (c :: cs) =
        if rt_is_space c then some x
        else if 48 ≤ c.toNat ∧ c.toNat ≤ 57 then
          fromDecLoop (rt_int_add_small (rt_int_mul_small x 10) (c.toNat - 48)) cs
        else none := rfl
    rw [heq] at hy
    by_cases h1 : rt_is_space c
    · rw [if_pos h1] at hy
      injection hy with h
      subst h
      exact ⟨hs, hb⟩
    · rw [if_neg h1] at hy
      by_cases h2 : 48 ≤ c.toNat ∧ c.toNat ≤ 57
      · rw [if_pos h2] at hy
        obtain ⟨hs', hb', _⟩ := step_small x (c.toNat - 48) hs hb (by
          have hB : B = 1000000000 := rfl
          omega)
        exact ih _ hs' hb' y hy
      · rw [if_neg h2] at hy
        exact absurd hy (by simp)

theorem fromDecFinish_wf {sign : Int} (hs : sign = 1 ∨ sign = -1) :
    ∀ (s2 : List Char) (v : rt_int), fromDecFinish sign s2 = some v → Wf v := by
  intro s2 v h
  rw [fromDecFinish] at h
  by_cases h0 : s2 = []
  · rw [if_pos h0] at h
    exact absurd h (by simp)
  · rw [if_neg h0] at h
    cases hx : fromDecLoop ⟨1, []⟩ s2 with
    | none =>
      rw [hx] at h
      exact absurd h (by simp)
    | some x =>
      rw [hx] at h
      obtain ⟨hxs, hxb⟩ := fromDecLoop_bounded s2 ⟨1, []⟩ rfl
        (by intro z hz; simp at hz) x hx
      injection h with h
      subst h
      by_cases ht : trimTop x.digits = []
      · have hz0 : (rt_int_normalizeF x).sign = 0 := by
          rw [rt_int_normalizeF]
          simp [ht]
        rw [if_pos hz0]
        have : rt_int_normalizeF x = ⟨0, []⟩ := by
          rw [rt_int_normalizeF, ht]
          simp
        rw [this]
        exact wf_zero_pair
      · have hzne : (rt_int_normalizeF x).sign ≠ 0 := by
          rw [rt_int_normalizeF]
          show (if trimTop x.digits = [] then (0 : Int) else x.sign) ≠ 0
          rw [if_neg ht, hxs]
          decide
        rw [if_neg hzne]
        have hd : (rt_int_normalizeF x).digits = trimTop x.digits := rfl
        rw [hd]
        refine ⟨⟨trimmed_trimTop _, ?_, ?_⟩, bounded_trimTop hxb⟩
        · constructor
          · intro hc
            have hc2 : sign = 0 := hc
            rcases hs with h' | h' <;> rw [h'] at hc2 <;>
              exact absurd hc2 (by decide)
          · intro hc
            exact absurd hc ht
        · rcases hs with h' | h'
          · exact Or.inr (Or.inl h')
          · exact Or.inr (Or.inr h')

theorem from_dec_wf (s : List Char) (v : rt_int)
    (h : rt_int_from_dec s = some v) : Wf v := by
  have h' : fromDecFinish
      (if (s.dropWhile fun c => rt_is_space c).headD (Char.ofNat 0) = '-'
        then (-1 : Int) else 1)
      ((if (s.dropWhile fun c => rt_is_space c).headD (Char.ofNat 0) = '+' ∨
          (s.dropWhile fun c => rt_is_space c).headD (Char.ofNat 0) = '-'
        then (s.dropWhile fun c => rt_is_space c).tail
        else s.dropWhile fun c => rt_is_space c).dropWhile
          fun c => rt_is_space c) = some v := h
  refine fromDecFinish_wf ?_ _ v h'
  by_cases hc : (s.dropWhile fun c => rt_is_space c).headD (Char.ofNat 0) = '-'
  · rw [if_pos hc]
    exact Or.inr rfl
  · rw [if_neg hc]
    exact Or.inl rfl

/-! ## Claim theorems -/

/-- C1: for every dividend `a` and every nonzero divisor `b`, `rt_int_divmod`
returns `(q, r)` with `a = q*b + r`, `0 ≤ |r| < |b|`, `r` zero or sharing
`b`'s sign, and `q` equal to `a/b` rounded toward negative infinity; in
particular `add(multiply(floordiv(a,b), b), mod(a,b))` is exactly `a`. -/
theorem C1_divmod_floor {a b : rt_int} (ha : Wf a) (hb : Wf b)
    (hbz : b.sign ≠ 0) :
    ∃ q r, rt_int_divmod a b = some (q, r) ∧
      val a = val q * val b + val r ∧
      |val r| < |val b| ∧
      (val r = 0 ∨ Int.sign (val r) = Int.sign (val b)) ∧
      val q = fdivI (val a) (val b) ∧
      ∃ fq m, rt_int_floordiv a b = some fq ∧ rt_int_mod a b = some m ∧
        rt_int_add (rt_int_mul fq b) m = a := by
  have hnd : ¬(b.sign = 0 ∨ b.digits = []) := by
    push_neg
    exact ⟨hbz, fun h => hbz (hb.1.2.1.mpr h)⟩
  have hvbne : val b ≠ 0 := val_ne_zero_of_sign hb hbz
  obtain ⟨hq1, hr1, hwq, hwr⟩ := divmodCore_spec ha hb hbz
  refine ⟨(rt_int_divmodCore a b).1, (rt_int_divmodCore a b).2, ?_, ?_, ?_, ?_,
    hq1, ?_⟩
  · rw [rt_int_divmod, if_neg hnd]
  · rw [hq1, hr1]
    have := fdivI_add_fmodI (val a) (val b)
    linarith
  · rw [hr1]
    rcases lt_trichotomy (val b) 0 with hneg | hz | hpos
    · obtain ⟨h1, h2⟩ := fmodI_range_neg (a := val a) hneg
      rw [abs_of_nonpos h2, abs_of_neg hneg]
      omega
    · exact absurd hz hvbne
    · obtain ⟨h1, h2⟩ := fmodI_range_pos (a := val a) hpos
      rw [abs_of_nonneg h1, abs_of_pos hpos]
      omega
  · rw [hr1]
    rcases lt_trichotomy (val b) 0 with hneg | hz | hpos
    · obtain ⟨h1, h2⟩ := fmodI_range_neg (a := val a) hneg
      by_cases h0 : fmodI (val a) (val b) = 0
      · exact Or.inl h0
      · refine Or.inr ?_
        rw [Int.sign_eq_neg_one_iff_neg.mpr (by omega),
          Int.sign_eq_neg_one_iff_neg.mpr hneg]
    · exact absurd hz hvbne
    · obtain ⟨h1, h2⟩ := fmodI_range_pos (a := val a) hpos
      by_cases h0 : fmodI (val a) (val b) = 0
      · exact Or.inl h0
      · refine Or.inr ?_
        rw [Int.sign_eq_one_iff_pos.mpr (by omega),
          Int.sign_eq_one_iff_pos.mpr hpos]
  · refine ⟨(rt_int_divmodCore a b).1, (rt_int_divmodCore a b).2, ?_, ?_, ?_⟩
    · rw [rt_int_floordiv, rt_int_divmod, if_neg hnd]
      rfl
    · rw [rt_int_mod, rt_int_divmod, if_neg hnd]
      rfl
    · obtain ⟨hmv, hmw⟩ := mul_spec hwq hb
      obtain ⟨hav, haw⟩ := add_spec hmw hwr
      apply val_injective haw ha
      rw [hav, hmv, hq1, hr1]
      have := fdivI_add_fmodI (val a) (val b)
      linarith

theorem C1_witness :
    (Wf ⟨1, [7]⟩ ∧ Wf ⟨-1, [2]⟩ ∧ (⟨-1, [2]⟩ : rt_int).sign ≠ 0) ∧
    (∃ q r, rt_int_divmod ⟨1, [7]⟩ ⟨-1, [2]⟩ = some (q, r) ∧
      val ⟨1, [7]⟩ = val q * val ⟨-1, [2]⟩ + val r ∧
      |val r| < |val ⟨-1, [2]⟩| ∧
      (val r = 0 ∨ Int.sign (val r) = Int.sign (val ⟨-1, [2]⟩)) ∧
      val q = fdivI (val ⟨1, [7]⟩) (val ⟨-1, [2]⟩) ∧
      ∃ fq m, rt_int_floordiv ⟨1, [7]⟩ ⟨-1, [2]⟩ = some fq ∧
        rt_int_mod ⟨1, [7]⟩ ⟨-1, [2]⟩ = some m ∧
        rt_int_add (rt_int_mul fq ⟨-1, [2]⟩) m = ⟨1, [7]⟩) :=
  ⟨⟨by decide, by decide, by decide⟩,
    C1_divmod_floor (by decide) (by decide) (by decide)⟩

/-- C2 (amended): the two division implementations agree wherever the
rt_bigint.c variant produces a result: for every nonzero single-limb
divisor it returns exactly the pair runtime.c computes, and for a divisor
of two or more limbs it signals an error — but only when the dividend is
non-zero (a zero dividend short-circuits to `(0, 0)` before the divisor
width is checked, see the counterexample) — while runtime.c computes the
floor quotient and remainder. -/
theorem C2_two_divisions :
    (∀ a b : rt_int, Wf a → Wf b → b.sign ≠ 0 → b.digits.length = 1 →
      bigint.rt_int_divmod a b = rt_int_divmod a b) ∧
    (∀ a b : rt_int, Wf a → Wf b → b.sign ≠ 0 → 2 ≤ b.digits.length →
      a.sign ≠ 0 →
      bigint.rt_int_divmod a b = none ∧
      ∃ q r, rt_int_divmod a b = some (q, r) ∧
        val q = fdivI (val a) (val b) ∧ val r = fmodI (val a) (val b)) := by
  constructor
  · intro a b ha hb hbz hlen1
    have hnd : ¬(b.sign = 0 ∨ b.digits = []) := by
      push_neg
      exact ⟨hbz, fun h => hbz (hb.1.2.1.mpr h)⟩
    rw [bigint_divmod_single ha hb hbz hlen1, rt_int_divmod, if_neg hnd]
  · intro a b ha hb hbz hlen hsa
    have hnd : ¬(b.sign = 0 ∨ b.digits = []) := by
      push_neg
      exact ⟨hbz, fun h => hbz (hb.1.2.1.mpr h)⟩
    obtain ⟨hq1, hr1, _, _⟩ := divmodCore_spec ha hb hbz
    refine ⟨bigint_divmod_multi ha hb hbz hlen hsa,
      (rt_int_divmodCore a b).1, (rt_int_divmodCore a b).2, ?_, hq1, hr1⟩
    rw [rt_int_divmod, if_neg hnd]

/-- C2 counterexample: with a zero dividend and the two-limb divisor `10^9`
the rt_bigint.c `rt_int_divmod` does not signal an error — the zero-dividend
check runs before the divisor-width check — contradicting the claim that
every divisor of two or more limbs is rejected. -/
theorem C2_counterexample :
    Wf ⟨0, []⟩ ∧ Wf ⟨1, [0, 1]⟩ ∧ (⟨1, [0, 1]⟩ : rt_int).sign ≠ 0 ∧
    2 ≤ (⟨1, [0, 1]⟩ : rt_int).digits.length ∧
    bigint.rt_int_divmod ⟨0, []⟩ ⟨1, [0, 1]⟩ = some (⟨0, []⟩, ⟨0, []⟩) := by
  refine ⟨by decide, by decide, by decide, by decide, ?_⟩
  rfl

theorem C2_witness :
    bigint.rt_int_divmod ⟨1, [7]⟩ ⟨-1, [2]⟩ = rt_int_divmod ⟨1, [7]⟩ ⟨-1, [2]⟩ ∧
    bigint.rt_int_divmod ⟨1, [7]⟩ ⟨1, [0, 1]⟩ = none :=
  ⟨C2_two_divisions.1 ⟨1, [7]⟩ ⟨-1, [2]⟩ (by decide) (by decide) (by decide)
      (by decide),
    (C2_two_divisions.2 ⟨1, [7]⟩ ⟨1, [0, 1]⟩ (by decide) (by decide) (by decide)
      (by decide) (by decide)).1⟩

/-- C3 (code bug): runtime.c's `rt_int_to_si_checked` does succeed exactly on
the signed 64-bit range — at the signed maximum `2^63 - 1` and minimum
`-2^63`, failing one unit beyond either — but rt_bigint.c's variant rejects
any value of three or more limbs (`a->len > 2`, rt_bigint.c:216) before
looking at the magnitude, so in-range values from `10^18` up (including
`INT64_MAX` itself, despite its comment "Check if value fits in int64_t")
are reported as overflow. -/
theorem C3_to_si_boundary :
    (Wf ⟨1, [854775807, 223372036, 9]⟩ ∧
      val ⟨1, [854775807, 223372036, 9]⟩ = (I64MAX : Int) ∧
      rt_int_to_si_checked ⟨1, [854775807, 223372036, 9]⟩ =
        some (I64MAX : Int)) ∧
    (Wf ⟨-1, [854775808, 223372036, 9]⟩ ∧
      val ⟨-1, [854775808, 223372036, 9]⟩ = -((I64MAX : Int) + 1) ∧
      rt_int_to_si_checked ⟨-1, [854775808, 223372036, 9]⟩ =
        some (-((I64MAX : Int) + 1))) ∧
    (val ⟨1, [854775808, 223372036, 9]⟩ = (I64MAX : Int) + 1 ∧
      rt_int_to_si_checked ⟨1, [854775808, 223372036, 9]⟩ = none) ∧
    (val ⟨-1, [854775809, 223372036, 9]⟩ = -((I64MAX : Int) + 2) ∧
      rt_int_to_si_checked ⟨-1, [854775809, 223372036, 9]⟩ = none) ∧
    (Wf ⟨1, [0, 0, 1]⟩ ∧
      val ⟨1, [0, 0, 1]⟩ = 10 ^ 18 ∧
      (10 : Int) ^ 18 ≤ (I64MAX : Int) ∧
      rt_int_to_si_checked ⟨1, [0, 0, 1]⟩ = some (10 ^ 18) ∧
      bigint.rt_int_to_si_checked ⟨1, [0, 0, 1]⟩ = none ∧
      bigint.rt_int_to_si_checked ⟨1, [854775807, 223372036, 9]⟩ = none) := by
  decide

/-- C4 (amended): runtime.c's `rt_int_from_dec` skips leading whitespace, an
optional sign, more whitespace, and then requires a non-empty digit run —
rejecting empty input, sign-only input, and a leading non-digit — but it
stops at the first interior whitespace character and ignores everything
after it instead of rejecting it ("1 x" parses as 1); rt_bigint.c's variant
accepts empty and sign-only input as zero and ignores trailing junk after
the digit run. -/
theorem C4_parse_behaviour :
    (∀ ws1 sg ws2 ds rest : List Char,
      (∀ c ∈ ws1, rt_is_space c = true) → (∀ c ∈ ws2, rt_is_space c = true) →
      (sg = [] ∨ sg = ['+'] ∨ sg = ['-']) → ds ≠ [] →
      (∀ c ∈ ds, 48 ≤ c.toNat ∧ c.toNat ≤ 57) →
      rt_is_space (rest.headD ' ') = true →
      ∃ v, rt_int_from_dec (ws1 ++ sg ++ ws2 ++ ds ++ rest) = some v ∧ Wf v ∧
        val v = (if sg = ['-'] then -1 else 1) * (decValue ds : Int)) ∧
    rt_int_from_dec [] = none ∧
    rt_int_from_dec [' ', ' '] = none ∧
    rt_int_from_dec ['-'] = none ∧
    rt_int_from_dec ['x'] = none ∧
    rt_int_from_dec ['1', ' ', 'x'] = some ⟨1, [1]⟩ ∧
    bigint.rt_int_from_dec [] = some ⟨0, []⟩ ∧
    bigint.rt_int_from_dec ['-'] = some ⟨0, []⟩ ∧
    bigint.rt_int_from_dec ['1', '2', 'x'] = some ⟨1, [12]⟩ := by
  refine ⟨from_dec_ok, ?_, ?_, ?_, ?_, ?_, ?_, ?_, ?_⟩ <;> decide

/-- C4 counterexample: the claim says every input containing a non-digit,
non-surrounding-whitespace character is rejected, but runtime.c accepts
`"1 x"` (returning 1) and rt_bigint.c accepts `""` (returning 0). -/
theorem C4_counterexample :
    rt_int_from_dec ['1', ' ', 'x'] = some ⟨1, [1]⟩ ∧
    val ⟨1, [1]⟩ = 1 ∧
    bigint.rt_int_from_dec [] = some ⟨0, []⟩ := by
  decide

theorem C4_witness :
    ∃ v, rt_int_from_dec ([' '] ++ ['-'] ++ [] ++ ['0', '7'] ++ [' ']) =
        some v ∧ Wf v ∧
      val v = (if (['-'] : List Char) = ['-'] then -1 else 1) *
        (decValue ['0', '7'] : Int) :=
  C4_parse_behaviour.1 [' '] ['-'] [] ['0', '7'] [' '] (by decide) (by decide)
    (by decide) (by decide) (by decide) (by decide)

/-- C5: for every valid decimal string — optional surrounding whitespace,
optional sign, optionally zero-padded non-empty digit run — parsing with
`rt_int_from_dec` and printing with `rt_print_int` yields the canonical
form: the decimal digits of the value with leading zeros removed, a `-`
only for a non-zero negative value (so `-0` prints as `0`), and the
trailing newline `rt_print_int` always emits. -/
theorem C5_roundtrip (ws1 sg ws2 ds ws3 : List Char)
    (hws1 : ∀ c ∈ ws1, rt_is_space c = true)
    (hws2 : ∀ c ∈ ws2, rt_is_space c = true)
    (hws3 : ∀ c ∈ ws3, rt_is_space c = true)
    (hsg : sg = [] ∨ sg = ['+'] ∨ sg = ['-'])
    (hne : ds ≠ []) (hdig : ∀ c ∈ ds, 48 ≤ c.toNat ∧ c.toNat ≤ 57) :
    ∃ v, rt_int_from_dec (ws1 ++ sg ++ ws2 ++ ds ++ ws3) = some v ∧
      val v = (if sg = ['-'] then -1 else 1) * (decValue ds : Int) ∧
      rt_print_int v =
        (if sg = ['-'] ∧ decValue ds ≠ 0 then ['-'] else []) ++
          natDecChars (decValue ds) ++ ['\n'] := by
  have hrest : rt_is_space (ws3.headD ' ') = true := by
    cases ws3 with
    | nil => decide
    | cons c cs => exact hws3 c (by simp)
  obtain ⟨v, hv, hwf, hval⟩ := from_dec_ok ws1 sg ws2 ds ws3 hws1 hws2 hsg
    hne hdig hrest
  refine ⟨v, hv, hval, ?_⟩
  have hs : (if sg = ['-'] then (-1 : Int) else 1) = 1 ∨
      (if sg = ['-'] then (-1 : Int) else 1) = -1 := by
    by_cases h : sg = ['-']
    · rw [if_pos h]
      exact Or.inr rfl
    · rw [if_neg h]
      exact Or.inl rfl
  have hp := print_val hwf hs hval
  rw [hp]
  congr 1
  by_cases h : sg = ['-'] <;> by_cases hd : decValue ds = 0 <;>
    norm_num [h, hd]

theorem C5_witness :
    ∃ v, rt_int_from_dec
        ([' ', ' '] ++ ['-'] ++ [] ++ ['0', '0', '0', '1', '2', '3'] ++
          [' ', ' ']) = some v ∧
      val v = -123 ∧ rt_print_int v = ['-', '1', '2', '3', '\n'] := by
  obtain ⟨v, hv, hval, hp⟩ := C5_roundtrip [' ', ' '] ['-'] []
    ['0', '0', '0', '1', '2', '3'] [' ', ' '] (by decide) (by decide)
    (by decide) (by decide) (by decide) (by decide)
  refine ⟨v, hv, ?_, ?_⟩
  · rw [hval]
    decide
  · rw [hp]
    have hdv : decValue ['0', '0', '0', '1', '2', '3'] = 123 := by decide
    rw [hdv]
    have h0 : natDecCharsGo 0 = [] := by
      rw [natDecCharsGo]
      simp
    have h1 : natDecCharsGo 1 = [Char.ofNat 49] := by
      rw [natDecCharsGo_step (by norm_num)]
      norm_num [h0]
    have h12 : natDecCharsGo 12 = [Char.ofNat 49, Char.ofNat 50] := by
      rw [natDecCharsGo_step (by norm_num)]
      norm_num [h1]
    have h123 : natDecCharsGo 123 =
        [Char.ofNat 49, Char.ofNat 50, Char.ofNat 51] := by
      rw [natDecCharsGo_step (by norm_num)]
      norm_num [h12]
    have hsign : (if (['-'] : List Char) = ['-'] ∧ (123 : Nat) ≠ 0
        then (['-'] : List Char) else []) = ['-'] := by decide
    have hnat : natDecChars 123 =
        [Char.ofNat 49, Char.ofNat 50, Char.ofNat 51] := by
      rw [natDecChars, if_neg (by norm_num : ¬(123 : Nat) = 0), h123]
    rw [hsign, hnat]
    decide

/-- C6: every public operation, applied to normalized (well-formed) inputs,
returns a normalized value — no most-significant zero limb, sign zero
exactly for the empty limb sequence, otherwise sign `±1`: addition,
subtraction, multiplication, both halves of division, conversion from a
native integer, every successful decimal parse, and (for an in-range,
non-negative exponent) power and modular power. -/
theorem C6_normalized {a b : rt_int} (ha : Wf a) (hb : Wf b) :
    Normalized (rt_int_add a b) ∧
    Normalized (rt_int_sub a b) ∧
    Normalized (rt_int_mul a b) ∧
    (∀ v : Int, Normalized (rt_int_set_si v)) ∧
    (b.sign ≠ 0 → ∀ q r, rt_int_divmod a b = some (q, r) →
      Normalized q ∧ Normalized r) ∧
    (∀ (s : List Char) (v : rt_int), rt_int_from_dec s = some v →
      Normalized v) ∧
    (0 ≤ val b → val b ≤ (I64MAX : Int) →
      (∃ p, rt_int_pow a b = some p ∧ Normalized p) ∧
      ∀ m : rt_int, Wf m → m.sign ≠ 0 →
        ∃ p, rt_int_powmod a b m = some p ∧ Normalized p) := by
  refine ⟨(add_spec ha hb).2.1, (sub_spec ha hb).2.1, (mul_spec ha hb).2.1,
    fun v => (wf_set_si v).1, ?_, ?_, ?_⟩
  · intro hbz q r hqr
    have hnd : ¬(b.sign = 0 ∨ b.digits = []) := by
      push_neg
      exact ⟨hbz, fun h => hbz (hb.1.2.1.mpr h)⟩
    rw [rt_int_divmod, if_neg hnd] at hqr
    injection hqr with hqr
    obtain ⟨_, _, hwq, hwr⟩ := divmodCore_spec ha hb hbz
    rw [hqr] at hwq hwr
    exact ⟨hwq.1, hwr.1⟩
  · intro s v hv
    exact (from_dec_wf s v hv).1
  · intro hbnn hbmax
    constructor
    · obtain ⟨p, hp, _, hw⟩ := pow_spec ha hb hbnn hbmax
      exact ⟨p, hp, hw.1⟩
    · intro m hm hmz
      obtain ⟨p, hp, _, hw⟩ := powmod_spec ha hb hm hmz hbnn hbmax
      exact ⟨p, hp, hw.1⟩

theorem C6_witness :
    (Wf ⟨1, [5]⟩ ∧ Wf ⟨-1, [3]⟩) ∧
    (Normalized (rt_int_add ⟨1, [5]⟩ ⟨-1, [3]⟩) ∧
      Normalized (rt_int_sub ⟨1, [5]⟩ ⟨-1, [3]⟩) ∧
      Normalized (rt_int_mul ⟨1, [5]⟩ ⟨-1, [3]⟩) ∧
      (∀ v : Int, Normalized (rt_int_set_si v)) ∧
      ((⟨-1, [3]⟩ : rt_int).sign ≠ 0 → ∀ q r,
        rt_int_divmod ⟨1, [5]⟩ ⟨-1, [3]⟩ = some (q, r) →
        Normalized q ∧ Normalized r) ∧
      (∀ (s : List Char) (v : rt_int), rt_int_from_dec s = some v →
        Normalized v) ∧
      (0 ≤ val ⟨-1, [3]⟩ → val ⟨-1, [3]⟩ ≤ (I64MAX : Int) →
        (∃ p, rt_int_pow ⟨1, [5]⟩ ⟨-1, [3]⟩ = some p ∧ Normalized p) ∧
        ∀ m : rt_int, Wf m → m.sign ≠ 0 →
          ∃ p, rt_int_powmod ⟨1, [5]⟩ ⟨-1, [3]⟩ m = some p ∧ Normalized p)) :=
  ⟨⟨by decide, by decide⟩, C6_normalized (by decide) (by decide)⟩

/-- C7 (amended): addition and subtraction tolerate the caller passing the
same storage as `out` and first operand — the in-place execution computes
exactly the separate-output result for any garbage in the grown buffer —
but multiplication does not: with `out` aliased to either operand the
`memset` that clears the output buffer destroys that operand's limbs
before they are read, so the aliased product is always canonical zero
rather than the mathematical product. -/
theorem C7_aliasing :
    (∀ (a b : rt_int) (g : List Nat), Wf a → Wf b →
      max a.digits.length b.digits.length ≤ a.digits.length + g.length →
      rt_int_addAliasA a b g = rt_int_add a b ∧
      rt_int_subAliasA a b g = rt_int_sub a b) ∧
    (∀ a b : rt_int, rt_int_mulAliasA a b = ⟨0, []⟩ ∧
      rt_int_mulAliasB a b = ⟨0, []⟩) := by
  constructor
  · intro a b g ha hb hg
    exact ⟨addAliasA_eq ha hb g hg, subAliasA_eq ha hb g hg⟩
  · intro a b
    exact ⟨mulAliasA_zero a b, mulAliasB_zero a b⟩

/-- C7 counterexample: multiplying `1 * 1` with the output aliased to the
first operand yields `0`, not the `1` the separate-output multiplication
produces — the aliased result differs from the fresh-output result. -/
theorem C7_counterexample :
    rt_int_mulAliasA ⟨1, [1]⟩ ⟨1, [1]⟩ = ⟨0, []⟩ ∧
    rt_int_mul ⟨1, [1]⟩ ⟨1, [1]⟩ = ⟨1, [1]⟩ ∧
    rt_int_mulAliasA ⟨1, [1]⟩ ⟨1, [1]⟩ ≠ rt_int_mul ⟨1, [1]⟩ ⟨1, [1]⟩ := by
  have hmul : rt_int_mul ⟨1, [1]⟩ ⟨1, [1]⟩ = ⟨1, [1]⟩ := by
    rw [rt_int_mul, if_neg (by decide)]
    show (⟨(1 : Int) * 1,
      trimTop (mulOuter [1] [1] (List.replicate (1 + 1) 0) 0)⟩ : rt_int) = _
    have h1 : mulOuter [1] [1] (List.replicate (1 + 1) 0) 0 =
        mulPropagate [1, 0] 1 0 := rfl
    rw [h1, mulPropagate_zero]
    decide
  refine ⟨mulAliasA_zero _ _, hmul, ?_⟩
  rw [mulAliasA_zero, hmul]
  decide

theorem C7_witness :
    rt_int_addAliasA ⟨1, [5]⟩ ⟨-1, [999999999, 1]⟩ [0, 0] =
        rt_int_add ⟨1, [5]⟩ ⟨-1, [999999999, 1]⟩ ∧
      rt_int_subAliasA ⟨1, [5]⟩ ⟨-1, [999999999, 1]⟩ [0, 0] =
        rt_int_sub ⟨1, [5]⟩ ⟨-1, [999999999, 1]⟩ :=
  C7_aliasing.1 ⟨1, [5]⟩ ⟨-1, [999999999, 1]⟩ [0, 0] (by decide) (by decide)
    (by decide)

/-- C8: for all values `a` and `b`, `subtract(add(a, b), b)` returns exactly
`a` (the same sign and limb representation). -/
theorem C8_add_sub_inverse {a b : rt_int} (ha : Wf a) (hb : Wf b) :
    rt_int_sub (rt_int_add a b) b = a := by
  obtain ⟨hav, haw⟩ := add_spec ha hb
  obtain ⟨hsv, hsw⟩ := sub_spec haw hb
  apply val_injective hsw ha
  rw [hsv, hav]
  ring

theorem C8_witness :
    rt_int_sub (rt_int_add ⟨1, [5]⟩ ⟨-1, [9]⟩) ⟨-1, [9]⟩ = ⟨1, [5]⟩ :=
  C8_add_sub_inverse (by decide) (by decide)

/-- C9: for every base, every non-negative exponent representable in the
native signed 64-bit range, and every nonzero modulus,
`powmod(base, exponent, modulus)` returns exactly
`mod(pow(base, exponent), modulus)`: reducing every intermediate product
modulo the modulus agrees with one final reduction. -/
theorem C9_powmod_eq_mod_pow {a e m : rt_int} (ha : Wf a) (he : Wf e)
    (hm : Wf m) (hmz : m.sign ≠ 0) (hen : 0 ≤ val e)
    (hemax : val e ≤ (I64MAX : Int)) :
    ∃ p r pm, rt_int_pow a e = some p ∧ rt_int_mod p m = some r ∧
      rt_int_powmod a e m = some pm ∧ pm = r := by
  obtain ⟨p, hp, hpv, hpw⟩ := pow_spec ha he hen hemax
  have hnd : ¬(m.sign = 0 ∨ m.digits = []) := by
    push_neg
    exact ⟨hmz, fun h => hmz (hm.1.2.1.mpr h)⟩
  obtain ⟨hrv, hrw⟩ := modCore_spec hpw hm hmz
  obtain ⟨pm, hpm, hpmv, hpmw⟩ := powmod_spec ha he hm hmz hen hemax
  refine ⟨p, rt_int_modCore p m, pm, hp, ?_, hpm, ?_⟩
  · rw [rt_int_mod, rt_int_divmod, if_neg hnd]
    rfl
  · apply val_injective hpmw hrw
    rw [hpmv, hrv, hpv]

theorem C9_witness :
    (Wf ⟨1, [7]⟩ ∧ Wf ⟨1, [128]⟩ ∧ Wf ⟨1, [13]⟩ ∧
      (⟨1, [13]⟩ : rt_int).sign ≠ 0 ∧ 0 ≤ val ⟨1, [128]⟩ ∧
      val ⟨1, [128]⟩ ≤ (I64MAX : Int)) ∧
    (∃ p r pm, rt_int_pow ⟨1, [7]⟩ ⟨1, [128]⟩ = some p ∧
      rt_int_mod p ⟨1, [13]⟩ = some r ∧
      rt_int_powmod ⟨1, [7]⟩ ⟨1, [128]⟩ ⟨1, [13]⟩ = some pm ∧ pm = r) :=
  ⟨⟨by decide, by decide, by decide, by decide, by decide, by decide⟩,
    C9_powmod_eq_mod_pow (by decide) (by decide) (by decide) (by decide)
      (by decide) (by decide)⟩

/-- C10: whenever the modulus has magnitude one (`m = 1` or `m = -1`),
`powmod(base, exponent, m)` returns canonical zero for every base and every
in-range non-negative exponent — including exponent zero, because the
initial result is reduced as `1 mod m` before the loop, so `powmod(a, 0, 1)`
is `0`, not `1`. -/
theorem C10_powmod_unit_modulus {a e m : rt_int} (ha : Wf a) (he : Wf e)
    (hm : Wf m) (hmu : val m = 1 ∨ val m = -1) (hen : 0 ≤ val e)
    (hemax : val e ≤ (I64MAX : Int)) :
    rt_int_powmod a e m = some ⟨0, []⟩ := by
  have hmz : m.sign ≠ 0 := by
    intro h
    have : val m = 0 := by
      rw [val, h]
      norm_num
    rcases hmu with h' | h' <;> rw [h'] at this <;> exact absurd this (by decide)
  obtain ⟨p, hp, hpv, hpw⟩ := powmod_spec ha he hm hmz hen hemax
  have hp0 : val p = 0 := by
    rw [hpv]
    rcases hmu with h' | h' <;> rw [h', fmodI_eq_emod_form]
    · rw [if_pos (Or.inl (by decide))]
      exact Int.emod_one _
    · rw [if_pos (Or.inr (by simp))]
      simp
  rw [hp, val_injective hpw wf_zero_pair (by rw [hp0]; decide)]

theorem C10_witness :
    rt_int_powmod ⟨1, [7]⟩ ⟨0, []⟩ ⟨1, [1]⟩ = some ⟨0, []⟩ :=
  C10_powmod_unit_modulus (by decide) (by decide) (by decide)
    (Or.inl (by decide)) (by decide) (by decide)
